import Mathlib

/-!
A shallow embedding of the B+ tree implementation from `src/btree/`
(`node_impl.hpp`, `bplus_tree_impl.hpp`, `iterator_impl.hpp`).

Modelling conventions:
* Keys and values are specialised to `Int` (the C++ code is templated; the
  repository tests instantiate integer keys).
* Leaf nodes are aliased in the C++ code (a leaf is referenced by its parent
  and by the `next_` pointer of the preceding leaf), so leaves live in an
  arena (`List LeafData`) indexed by stable ids; `std::shared_ptr` identity
  of leaves is arena-id equality.  Internal nodes are exclusively owned and
  are embedded structurally.
* The C++ field `key_count_` is kept equal to `keys_.size()` at every single
  program point of the source, so the model uses `keys.length` for it.
* `std::lower_bound` on the sorted key prefix is modelled by its
  specification on sorted ranges: the length of the maximal strict prefix of
  keys `< k`.  The scan loops of the source (`child_index`, the start-index
  loop of `range_begin`) are literal linear scans and are translated as
  `takeWhile` lengths, which is exactly what those loops compute.
* Calls that would be undefined behaviour in C++ (dereferencing a null
  child, `back()` on an empty vector) get harmless deterministic stand-ins;
  each such spot is marked `-- unreachable` and is indeed unreachable from
  well-formed trees.
-/

namespace BT

abbrev Key := Int
abbrev Val := Int

/-- Leaf node payload: `LeafNode` fields `max_keys_`, `keys_`, `values_`,
`next_` (the next pointer is an arena id). -/
structure LeafData where
  maxKeys : Nat
  keys : List Key
  vals : List Val
  next : Option Nat
  deriving Repr, DecidableEq

/-- Tree skeleton: leaves are references into the arena, internal nodes
(`InternalNode` fields `max_keys_`, `keys_`, `children_`) are structural. -/
inductive NodeS where
  | leafRef (id : Nat)
  | internal (maxKeys : Nat) (keys : List Key) (children : List NodeS)
  deriving Repr

abbrev Arena := List LeafData

/-- The tree object: `branching_factor_` (already clamped) plus the root
pointer; the arena holds every leaf ever allocated. -/
structure Tree where
  branching : Nat
  root : Option NodeS
  arena : Arena

/-- Capacity used for every node the tree creates: `branching_factor_ - 1`. -/
def Tree.maxKeys (t : Tree) : Nat := t.branching - 1

/-- Constructor `BPlusTree(branching_factor)`: values below 3 are clamped
up to 3 (bplus_tree_impl.hpp lines 8-14). -/
def mkTree (branching_factor : Nat) : Tree :=
  { branching := if branching_factor < 3 then 3 else branching_factor,
    root := none, arena := [] }

/-- Index returned by `std::lower_bound` over the sorted keys: length of the
maximal prefix of keys strictly below `k`. -/
def lowerBound (keys : List Key) (k : Key) : Nat :=
  (keys.takeWhile (fun x => decide (x < k))).length

/-- The child-selection scan (bplus_tree_impl.hpp lines 199-205, 258-264,
296-304): first index whose key exceeds `k`, i.e. the length of the maximal
prefix of keys `≤ k`. -/
def childIndex (keys : List Key) (k : Key) : Nat :=
  (keys.takeWhile (fun x => decide (x ≤ k))).length

/-- `LeafNode::find_value` (node_impl.hpp lines 89-99). -/
def findValue (l : LeafData) (k : Key) : Option Val :=
  let index := lowerBound l.keys k
  if l.keys.get? index = some k then l.vals.get? index else none

/-- `LeafNode::insert_value` (node_impl.hpp lines 101-123): update in place
on an existing key, refuse when full, otherwise insert sorted. -/
def insertValue (l : LeafData) (k : Key) (v : Val) : Bool × LeafData :=
  let index := lowerBound l.keys k
  if l.keys.get? index = some k then
    (true, { l with vals := l.vals.set index v })
  else if l.keys.length ≥ l.maxKeys then
    (false, l)
  else
    (true, { l with keys := l.keys.insertIdx index k,
                    vals := l.vals.insertIdx index v })

/-- `LeafNode::remove_value` (node_impl.hpp lines 125-138). -/
def removeValue (l : LeafData) (k : Key) : Bool × LeafData :=
  let index := lowerBound l.keys k
  if l.keys.get? index = some k then
    (true, { l with keys := l.keys.eraseIdx index,
                    vals := l.vals.eraseIdx index })
  else (false, l)

/-- `LeafNode::split` (node_impl.hpp lines 140-160).  `newId` is the arena id
the fresh right leaf will receive; the result is (updated left leaf, new
right leaf). -/
def leafSplit (l : LeafData) (newId : Nat) : LeafData × LeafData :=
  let mid := (l.maxKeys + 1) / 2
  let newLeaf : LeafData :=
    { maxKeys := l.maxKeys, keys := l.keys.drop mid, vals := l.vals.drop mid,
      next := l.next }
  ({ l with keys := l.keys.take mid, vals := l.vals.take mid,
            next := some newId },
   newLeaf)

/-- `InternalNode::insert_child` (node_impl.hpp lines 28-35), acting on the
key/children sequences. -/
def insertChildAt (keys : List Key) (children : List NodeS) (index : Nat)
    (k : Key) (c : NodeS) : List Key × List NodeS :=
  if index ≤ keys.length then
    (keys.insertIdx index k, children.insertIdx (index + 1) c)
  else (keys, children)

/-- The inline overflow split of a full internal node inside `insert_helper`
(bplus_tree_impl.hpp lines 216-241): expand the arrays with the incoming
key/child, cut at `mid = size/2`, promote the key at `mid`.
Returns (promoted key, left node, right node). -/
def internalOverflow (mk : Nat) (keys : List Key) (children : List NodeS)
    (ci : Nat) (pk : Key) (sib : NodeS) : Key × NodeS × NodeS :=
  let allKeys := keys.insertIdx ci pk
  let allChildren := children.insertIdx (ci + 1) sib
  let mid := allKeys.length / 2
  let promoted := (allKeys.get? mid).getD 0   -- mid < allKeys.length always
  (promoted,
   NodeS.internal mk (allKeys.take mid) (allChildren.take (mid + 1)),
   NodeS.internal mk (allKeys.drop (mid + 1)) (allChildren.drop (mid + 1)))

/-- `BPlusTree::insert_helper` (bplus_tree_impl.hpp lines 175-247).
Returns (promoted key, optional new sibling, updated node, updated arena);
the C++ version mutates `node` through the pointer, here the updated node is
returned.  On a leaf split the fresh right leaf is appended to the arena at
id `A.length`.  The structural `fuel` argument bounds the recursion depth;
the wrapper below passes one more than the arena size, which always
suffices (the height of a well-formed tree is below its leaf count), so the
fuel never runs out on the calls the tree makes. -/
def insertHelperF (k : Key) (v : Val) : Nat → NodeS → Arena →
    Key × Option NodeS × NodeS × Arena
  | 0, node, A => (k, none, node, A)   -- fuel exhausted: unreachable
  | fuel + 1, node, A =>
    match node with
    | NodeS.leafRef id =>
      match A.get? id with
      | none => (k, none, node, A)   -- unreachable: dangling leaf id
      | some l =>
        let r := insertValue l k v
        if r.1 then (k, none, node, A.set id r.2)
        else
          let newId := A.length
          let pr := leafSplit l newId
          -- key <= leaf->keys().back() : left half keeps the smaller keys
          let lastLeft := pr.1.keys.getLastD k   -- left half nonempty in reachable calls
          if k ≤ lastLeft then
            let r2 := insertValue pr.1 k v
            ((pr.2.keys.headD 0), some (NodeS.leafRef newId), node,
              (A.set id r2.2) ++ [pr.2])
          else
            let r2 := insertValue pr.2 k v
            ((r2.2.keys.headD 0), some (NodeS.leafRef newId), node,
              (A.set id pr.1) ++ [r2.2])
    | NodeS.internal mk keys children =>
      let ci := childIndex keys k
      match children.get? ci with
      | none => (k, none, node, A)   -- unreachable: null child dereference
      | some child =>
        let res := insertHelperF k v fuel child A
        let children1 := children.set ci res.2.2.1
        match res.2.1 with
        | none => (k, none, NodeS.internal mk keys children1, res.2.2.2)
        | some sib =>
          if keys.length < mk then
            let pr := insertChildAt keys children1 ci res.1 sib
            (k, none, NodeS.internal mk pr.1 pr.2, res.2.2.2)
          else
            let pr := internalOverflow mk keys children1 ci res.1 sib
            (pr.1, some pr.2.2, pr.2.1, res.2.2.2)

/-- `insert_helper` with an always-sufficient fuel: a well-formed tree is
strictly lower than the number of leaves in its arena. -/
def insertHelper (node : NodeS) (k : Key) (v : Val) (A : Arena) :
    Key × Option NodeS × NodeS × Arena :=
  insertHelperF k v (A.length + 1) node A

/-- `BPlusTree::insert` (bplus_tree_impl.hpp lines 16-33).  Returns the
updated tree and the C++ boolean result (always `true`). -/
def Tree.insert (t : Tree) (k : Key) (v : Val) : Tree × Bool :=
  let st :=
    match t.root with
    | none =>
      (NodeS.leafRef t.arena.length,
       t.arena ++ [({ maxKeys := t.maxKeys, keys := [], vals := [],
                      next := none } : LeafData)])
    | some r => (r, t.arena)
  let res := insertHelper st.1 k v st.2
  match res.2.1 with
  | none => ({ t with root := some res.2.2.1, arena := res.2.2.2 }, true)
  | some sib =>
    ({ t with root := some (NodeS.internal t.maxKeys [res.1] [res.2.2.1, sib]),
              arena := res.2.2.2 }, true)

/-- `BPlusTree::remove_helper` (bplus_tree_impl.hpp lines 249-283): descend
to the leaf that could hold `k` and erase there; internal structure is never
modified (the underflow branch of the source is empty). -/
def removeHelperF (k : Key) : Nat → NodeS → Arena → Bool × Arena
  | 0, _, A => (false, A)   -- fuel exhausted: unreachable
  | fuel + 1, node, A =>
    match node with
    | NodeS.leafRef id =>
      match A.get? id with
      | none => (false, A)   -- unreachable: dangling leaf id
      | some l =>
        let r := removeValue l k
        (r.1, A.set id r.2)
    | NodeS.internal _ keys children =>
      match children.get? (childIndex keys k) with
      | none => (false, A)     -- if (!child) return false
      | some child => removeHelperF k fuel child A

/-- `remove_helper` with an always-sufficient fuel. -/
def removeHelper (node : NodeS) (k : Key) (A : Arena) : Bool × Arena :=
  removeHelperF k (A.length + 1) node A

/-- `BPlusTree::remove` (bplus_tree_impl.hpp lines 35-52), including the
root-collapse rule (internal root left with zero keys and a single child). -/
def Tree.remove (t : Tree) (k : Key) : Tree × Bool :=
  match t.root with
  | none => (t, false)
  | some r =>
    let res := removeHelper r k t.arena
    let newRoot :=
      match r with
      | NodeS.internal mkn keys children =>
        if keys.length = 0 then
          match children with
          | [c] => c
          | _ => NodeS.internal mkn keys children
        else NodeS.internal mkn keys children
      | other => other
    ({ t with root := some newRoot, arena := res.2 }, res.1)

/-- `BPlusTree::find_leaf` descent (bplus_tree_impl.hpp lines 285-313),
on a node; yields the arena id of the located leaf. -/
def findLeafF (k : Key) : Nat → NodeS → Option Nat
  | 0, _ => none            -- fuel exhausted: unreachable
  | fuel + 1, node =>
    match node with
    | NodeS.leafRef id => some id
    | NodeS.internal _ keys children =>
      match children.get? (childIndex keys k) with
      | none => none           -- if (!current) return nullptr
      | some c => findLeafF k fuel c

/-- `BPlusTree::find_leaf` at tree level, with an always-sufficient fuel. -/
def Tree.findLeaf (t : Tree) (k : Key) : Option Nat :=
  match t.root with
  | none => none
  | some r => findLeafF k (t.arena.length + 1) r

/-- `BPlusTree::search` (bplus_tree_impl.hpp lines 54-61). -/
def Tree.search (t : Tree) (k : Key) : Option Val :=
  match t.findLeaf k with
  | none => none
  | some id =>
    match t.arena.get? id with
    | none => none           -- unreachable: dangling leaf id
    | some l => findValue l k

/-- One leaf body of the `range_query` scan loop (bplus_tree_impl.hpp lines
80-88): collect pairs in `[a, b]`, report early return when a key exceeds
`b`. -/
def scanLeaf (keys : List Key) (vals : List Val) (a b : Key)
    (acc : List (Key × Val)) : List (Key × Val) × Bool :=
  match keys, vals with
  | [], _ => (acc, false)
  | _ :: _, [] => (acc, false)   -- unreachable: value list shorter than keys
  | k :: ks, v :: vs =>
    if a ≤ k ∧ k ≤ b then scanLeaf ks vs a b (acc ++ [(k, v)])
    else if b < k then (acc, true)
    else scanLeaf ks vs a b acc

/-- The leaf-chain walk of `range_query`; `fuel` bounds the number of leaf
hops (any well-formed chain is shorter than the arena). -/
def walkChain (A : Arena) (leaf : Option Nat) (a b : Key)
    (acc : List (Key × Val)) : Nat → List (Key × Val)
  | 0 => acc                     -- fuel exhausted: never happens on well-formed chains
  | fuel + 1 =>
    match leaf with
    | none => acc
    | some id =>
      match A.get? id with
      | none => acc              -- unreachable: dangling leaf id
      | some l =>
        let s := scanLeaf l.keys l.vals a b acc
        if s.2 then s.1 else walkChain A l.next a b s.1 fuel

/-- `BPlusTree::range_query` (bplus_tree_impl.hpp lines 63-93). -/
def Tree.rangeQuery (t : Tree) (a b : Key) : List (Key × Val) :=
  match t.root with
  | none => []
  | some _ =>
    match t.findLeaf a with
    | none => []
    | some id => walkChain t.arena (some id) a b [] (t.arena.length + 1)

/-- Cursor state of `BPlusTreeIterator`: `current_leaf_` (arena id or none),
`current_index_`, `end_key_`, `has_end_`.  The default constructor leaves
`end_key_` uninitialised in C++; it is modelled as 0 and is never read while
`hasEnd = false`. -/
structure Iter where
  leaf : Option Nat
  idx : Nat
  endKey : Key
  hasEnd : Bool
  deriving Repr, DecidableEq

/-- The default-constructed end iterator (`BPlusTreeIterator()`). -/
def iterEnd : Iter := { leaf := none, idx := 0, endKey := 0, hasEnd := false }

/-- `BPlusTree::range_end` (bplus_tree_impl.hpp lines 155-158). -/
def Tree.rangeEnd (_ : Tree) : Iter := iterEnd

/-- `BPlusTreeIterator::operator==` (iterator_impl.hpp lines 59-62): leaf
identity plus index; the end bound takes no part. -/
def iterEq (x y : Iter) : Bool := x.leaf == y.leaf && x.idx == y.idx

/-- `BPlusTreeIterator::operator*` (iterator_impl.hpp lines 21-28); the
out-of-range throw becomes `Except.error`. -/
def Iter.deref (it : Iter) (A : Arena) : Except String (Key × Val) :=
  match it.leaf with
  | none => Except.error "Iterator out of range"
  | some id =>
    match A.get? id with
    | none => Except.error "Iterator out of range"   -- unreachable: dangling id
    | some l =>
      if it.idx ≥ l.keys.length then Except.error "Iterator out of range"
      else Except.ok ((l.keys.get? it.idx).getD 0, (l.vals.get? it.idx).getD 0)

/-- `BPlusTreeIterator::exceeds_end_bound` (iterator_impl.hpp lines 69-74). -/
def exceedsEndBound (it : Iter) (A : Arena) : Bool :=
  it.hasEnd &&
    (match it.leaf with
     | none => false
     | some id =>
       match A.get? id with
       | none => false
       | some l =>
         match l.keys.get? it.idx with
         | none => false                       -- current_index_ ≥ key_count
         | some key => decide (key > it.endKey))

/-- `BPlusTreeIterator::operator++` (iterator_impl.hpp lines 30-50).  Note:
when the end bound is exceeded only `current_leaf_` is cleared; the index is
left as is. -/
def Iter.inc (it : Iter) (A : Arena) : Iter :=
  match it.leaf with
  | none => it
  | some id =>
    match A.get? id with
    | none => it               -- unreachable: dangling id
    | some l =>
      let idx1 := it.idx + 1
      let it1 :=
        if idx1 ≥ l.keys.length then { it with leaf := l.next, idx := 0 }
        else { it with idx := idx1 }
      if exceedsEndBound it1 A then { it1 with leaf := none } else it1

/-- The start-position skip loop shared by both `range_begin` overloads
(bplus_tree_impl.hpp lines 116-120 and 146-150): advance to the next leaf
while the index is past the current leaf. -/
def skipEmpty (A : Arena) (leaf : Option Nat) (si : Nat) :
    Nat → Option Nat × Nat
  | 0 => (leaf, si)            -- fuel exhausted: never happens on well-formed chains
  | fuel + 1 =>
    match leaf with
    | none => (none, si)
    | some id =>
      match A.get? id with
      | none => (leaf, si)     -- unreachable: dangling id
      | some l =>
        if si ≥ l.keys.length then skipEmpty A l.next 0 fuel
        else (leaf, si)

/-- `BPlusTree::range_begin(start_key)` (bplus_tree_impl.hpp lines 95-123). -/
def Tree.rangeBegin (t : Tree) (startKey : Key) : Iter :=
  match t.root with
  | none => iterEnd
  | some _ =>
    match t.findLeaf startKey with
    | none => iterEnd
    | some id =>
      match t.arena.get? id with
      | none => iterEnd        -- unreachable: dangling id
      | some l =>
        let si := lowerBound l.keys startKey
        let p := skipEmpty t.arena (some id) si (t.arena.length + 1)
        { leaf := p.1, idx := p.2, endKey := 0, hasEnd := false }

/-- `BPlusTree::range_begin(start_key, end_key)` (bplus_tree_impl.hpp lines
125-153): identical location logic, bounded cursor; the end bound is not
checked at the initial position. -/
def Tree.rangeBeginB (t : Tree) (startKey endKey : Key) : Iter :=
  match t.root with
  | none => iterEnd
  | some _ =>
    match t.findLeaf startKey with
    | none => iterEnd
    | some id =>
      match t.arena.get? id with
      | none => iterEnd        -- unreachable: dangling id
      | some l =>
        let si := lowerBound l.keys startKey
        let p := skipEmpty t.arena (some id) si (t.arena.length + 1)
        { leaf := p.1, idx := p.2, endKey := endKey, hasEnd := true }

/-- Public mutating operations, for quantifying over reachable trees. -/
inductive Op where
  | ins (k : Key) (v : Val)
  | del (k : Key)

def applyOp (t : Tree) (o : Op) : Tree :=
  match o with
  | Op.ins k v => (t.insert k v).1
  | Op.del k => (t.remove k).1

def applyOps (t : Tree) (os : List Op) : Tree := os.foldl applyOp t

/-! Observation functions used to state properties: the in-order contents of
a tree, the in-order list of leaf ids, uniform height, and the walk of the
leaf chain. -/

/-- In-order key/value pairs stored below a node, with structural fuel. -/
def entriesF (A : Arena) : Nat → NodeS → List (Key × Val)
  | _, NodeS.leafRef id =>
    (match A.get? id with
     | none => []
     | some l => l.keys.zip l.vals)
  | 0, NodeS.internal _ _ _ => []   -- fuel exhausted: unreachable
  | fuel + 1, NodeS.internal _ _ cs => (cs.map (entriesF A fuel)).join

/-- In-order arena ids of the leaves below a node, with structural fuel. -/
def leafIdsF : Nat → NodeS → List Nat
  | _, NodeS.leafRef id => [id]
  | 0, NodeS.internal _ _ _ => []   -- fuel exhausted: unreachable
  | fuel + 1, NodeS.internal _ _ cs => (cs.map (leafIdsF fuel)).join

/-- Uniform height with structural fuel: `some h` when every root-to-leaf
path below the node has length `h`, `none` otherwise. -/
def uheightF : Nat → NodeS → Option Nat
  | _, NodeS.leafRef _ => some 0
  | 0, NodeS.internal _ _ _ => none   -- fuel exhausted: unreachable
  | fuel + 1, NodeS.internal _ _ cs =>
    match cs.map (uheightF fuel) with
    | [] => none
    | oh :: ohs =>
      match oh with
      | none => none
      | some h => if ohs.all (fun x => x = some h) then some (h + 1) else none

def treeEntries (t : Tree) : List (Key × Val) :=
  match t.root with
  | none => []
  | some r => entriesF t.arena (t.arena.length + 1) r

def treeKeys (t : Tree) : List Key := (treeEntries t).map Prod.fst

def treeLeafIds (t : Tree) : List Nat :=
  match t.root with
  | none => []
  | some r => leafIdsF (t.arena.length + 1) r

/-- Uniform height of the whole tree: `some h` when every root-to-leaf path
has length `h` (the empty tree counts as uniform of height 0). -/
def Tree.uniformHeight (t : Tree) : Option Nat :=
  match t.root with
  | none => some 0
  | some r => uheightF (t.arena.length + 1) r

/-- Height of the tree (0 for the empty tree and for a leaf root). -/
def treeHeight (t : Tree) : Nat := (t.uniformHeight).getD 0

/-- Follow the `next` chain from a leaf reference, collecting ids; `none`
when the fuel runs out or an id dangles (a cyclic or broken chain). -/
def chainFrom (A : Arena) : Option Nat → Nat → Option (List Nat)
  | none, _ => some []
  | some _, 0 => none
  | some i, fuel + 1 =>
    match A.get? i with
    | none => none
    | some l => (chainFrom A l.next fuel).map (fun tl => i :: tl)

/-! The abstract model: a sorted association list of key/value pairs, with
the operations the spec describes. -/

/-- Ordered insert-or-overwrite into an association list sorted by key. -/
def insertAssoc (k : Key) (v : Val) : List (Key × Val) → List (Key × Val)
  | [] => [(k, v)]
  | (k', v') :: rest =>
    if k < k' then (k, v) :: (k', v') :: rest
    else if k = k' then (k, v) :: rest
    else (k', v') :: insertAssoc k v rest

/-- Remove the first pair with the given key, if any. -/
def eraseAssoc (k : Key) : List (Key × Val) → List (Key × Val)
  | [] => []
  | (k', v') :: rest => if k = k' then rest else (k', v') :: eraseAssoc k rest

/-- Value of the first pair with the given key, if any. -/
def lookupAssoc (k : Key) : List (Key × Val) → Option Val
  | [] => none
  | (k', v') :: rest => if k = k' then some v' else lookupAssoc k rest

/-- Value of the last insert with key `k` in a call sequence (the reference
result for C1). -/
def lastInserted (ops : List (Key × Val)) (k : Key) : Option Val :=
  lookupAssoc k ops.reverse

def applyAssoc (E : List (Key × Val)) : Op → List (Key × Val)
  | Op.ins k v => insertAssoc k v E
  | Op.del k => eraseAssoc k E

/-- Abstract contents after running a sequence of operations. -/
def runAssoc (os : List Op) : List (Key × Val) := os.foldl applyAssoc []

/-! Well-formedness invariants of reachable trees. -/

/-- Inclusive optional lower bound (a leaf key may equal its separator). -/
def lbOk (lo : Option Key) (k : Key) : Prop :=
  match lo with
  | none => True
  | some a => a ≤ k

/-- Strict optional upper bound. -/
def ltHi (hi : Option Key) (k : Key) : Prop :=
  match hi with
  | none => True
  | some b => k < b

/-- Strict optional lower bound (internal separators lie strictly inside). -/
def ltLo (lo : Option Key) (k : Key) : Prop :=
  match lo with
  | none => True
  | some a => a < k

def inB (lo hi : Option Key) (k : Key) : Prop := lbOk lo k ∧ ltHi hi k

/-- Well-formedness of the alternating key/child sequence of an internal
node, generic in the predicate `P lo hi c` imposed on each child: the
children list is one longer than the key list, separators are strictly
inside the outer bounds and strictly increasing, and the i-th child is
constrained to the i-th bound interval. -/
inductive Seq (P : Option Key → Option Key → NodeS → Prop) :
    Option Key → Option Key → List Key → List NodeS → Prop
  | single {lo hi c} :
      P lo hi c →
      Seq P lo hi [] [c]
  | cons {lo hi k ks c cs} :
      ltLo lo k →
      ltHi hi k →
      P lo (some k) c →
      Seq P (some k) hi ks cs →
      Seq P lo hi (k :: ks) (c :: cs)

/-- Structural well-formedness of a node of height `h` over arena `A` with
capacity `mk` and optional key bounds (`lo ≤ key < hi` for leaf contents):
a height-0 node is a live leaf reference with sorted in-bounds keys and
matching value list; a height-`h+1` node is an internal node whose key and
child sequences satisfy `Seq` for height-`h` well-formedness. -/
def Good (mk : Nat) (A : Arena) : Nat → Option Key → Option Key → NodeS → Prop
  | 0, lo, hi, n =>
    ∃ id l, n = NodeS.leafRef id ∧
      A.get? id = some l ∧
      l.maxKeys = mk ∧
      l.keys.length ≤ mk ∧
      l.vals.length = l.keys.length ∧
      l.keys.Sorted (· < ·) ∧
      (∀ k ∈ l.keys, inB lo hi k)
  | h + 1, lo, hi, n =>
    ∃ ks cs, n = NodeS.internal mk ks cs ∧
      1 ≤ ks.length ∧
      ks.length ≤ mk ∧
      Seq (Good mk A h) lo hi ks cs

mutual

/-- In-order key/value pairs stored below a node (proof-side twin of
`entriesF`; the two agree on well-formed nodes). -/
def entriesN (A : Arena) : NodeS → List (Key × Val)
  | NodeS.leafRef id =>
    (match A.get? id with
     | none => []
     | some l => l.keys.zip l.vals)
  | NodeS.internal _ _ cs => entriesL A cs
  termination_by n => sizeOf n

/-- In-order key/value pairs stored below a list of children. -/
def entriesL (A : Arena) : List NodeS → List (Key × Val)
  | [] => []
  | c :: cs => entriesN A c ++ entriesL A cs
  termination_by cs => sizeOf cs
  decreasing_by all_goals simp_wf <;> omega

end

mutual

/-- In-order leaf ids below a node (proof-side twin of `leafIdsF`). -/
def leafIdsN : NodeS → List Nat
  | NodeS.leafRef id => [id]
  | NodeS.internal _ _ cs => leafIdsL cs
  termination_by n => sizeOf n

/-- In-order leaf ids below a list of children. -/
def leafIdsL : List NodeS → List Nat
  | [] => []
  | c :: cs => leafIdsN c ++ leafIdsL cs
  termination_by cs => sizeOf cs
  decreasing_by all_goals simp_wf <;> omega

end

/-- The `next`-chain condition of a segment of leaf ids: consecutive ids are
linked and the last one points at `exit`. -/
def Links (A : Arena) : List Nat → Option Nat → Prop
  | [], _ => True
  | [i], e => ∃ l, A.get? i = some l ∧ l.next = e
  | i :: j :: rest, e =>
    (∃ l, A.get? i = some l ∧ l.next = some j) ∧ Links A (j :: rest) e

/-- Well-formed reachable tree: clamped branching factor, well-formed root
of some uniform height with unconstrained bounds, in-order leaf ids without
duplicates, and the leaf chain running through them in order. -/
structure WFT (t : Tree) : Prop where
  bf3 : 3 ≤ t.branching
  root_good : ∀ r, t.root = some r → ∃ h, Good t.maxKeys t.arena h none none r
  ids_nodup : ∀ r, t.root = some r → (leafIdsN r).Nodup
  chain : ∀ r, t.root = some r → Links t.arena (leafIdsN r) none

/-- Key/value pairs stored in the listed leaves, in order. -/
def entriesOfIds (A : Arena) (ids : List Nat) : List (Key × Val) :=
  (ids.map (fun i =>
    match A.get? i with
    | none => []
    | some l => l.keys.zip l.vals)).join

/-- Leaf ids contributed by an optional split sibling. -/
def sibIds : Option NodeS → List Nat
  | none => []
  | some sib => leafIdsN sib

/-- Postcondition of `insert_helper` on a well-formed node of height `h`
within bounds containing `k`: the arena only grows and changes only below
the subtree, the resulting node (plus optional sibling) stays well-formed at
the same height with the expected contents, and the in-order leaf ids evolve
compatibly with the chain. -/
def InsPost (mk : Nat) (A : Arena) (h : Nat) (lo hi : Option Key) (n : NodeS)
    (k : Key) (v : Val) (R : Key × Option NodeS × NodeS × Arena) : Prop :=
  A.length ≤ R.2.2.2.length ∧
  (∀ i, i < A.length → i ∉ leafIdsN n → R.2.2.2.get? i = A.get? i) ∧
  (leafIdsN R.2.2.1 ++ sibIds R.2.1).Nodup ∧
  (∀ i ∈ leafIdsN R.2.2.1 ++ sibIds R.2.1,
    i ∈ leafIdsN n ∨ (A.length ≤ i ∧ i < R.2.2.2.length)) ∧
  (leafIdsN R.2.2.1 ++ sibIds R.2.1).head? = (leafIdsN n).head? ∧
  (∀ e, Links A (leafIdsN n) e →
    Links R.2.2.2 (leafIdsN R.2.2.1 ++ sibIds R.2.1) e) ∧
  (match R.2.1 with
   | none =>
      Good mk R.2.2.2 h lo hi R.2.2.1 ∧
      entriesN R.2.2.2 R.2.2.1 = insertAssoc k v (entriesN A n)
   | some sib =>
      Good mk R.2.2.2 h lo (some R.1) R.2.2.1 ∧
      Good mk R.2.2.2 h (some R.1) hi sib ∧
      ltLo lo R.1 ∧ ltHi hi R.1 ∧
      entriesN R.2.2.2 R.2.2.1 ++ entriesN R.2.2.2 sib =
        insertAssoc k v (entriesN A n))

end BT
namespace BT

/-! Unfolding lemmas for the scan indices. -/

theorem lowerBound_nil (k : Key) : lowerBound [] k = 0 := rfl

theorem lowerBound_cons (x : Key) (xs : List Key) (k : Key) :
    lowerBound (x :: xs) k = if x < k then lowerBound xs k + 1 else 0 := by
  by_cases hx : x < k <;> simp [lowerBound, List.takeWhile_cons, hx]

theorem childIndex_nil (k : Key) : childIndex [] k = 0 := rfl

theorem childIndex_cons (x : Key) (xs : List Key) (k : Key) :
    childIndex (x :: xs) k = if x ≤ k then childIndex xs k + 1 else 0 := by
  by_cases hx : x ≤ k <;> simp [childIndex, List.takeWhile_cons, hx]

/-! Lemmas about the abstract association-list operations. -/

theorem mem_insertAssoc {p : Key × Val} {k : Key} {v : Val} {E : List (Key × Val)}
    (hp : p ∈ insertAssoc k v E) : p = (k, v) ∨ p ∈ E := by
  induction E with
  | nil => simpa [insertAssoc] using hp
  | cons q rest ih =>
    obtain ⟨k', v'⟩ := q
    by_cases h1 : k < k'
    · simp [insertAssoc, h1] at hp
      rcases hp with h | h | h
      · exact Or.inl (by simp [h])
      · exact Or.inr (by simp [h])
      · exact Or.inr (by simp [h])
    · by_cases h2 : k = k'
      · simp [insertAssoc, h1, h2] at hp
        rcases hp with h | h
        · exact Or.inl (by simp [h, h2])
        · exact Or.inr (by simp [h])
      · simp [insertAssoc, h1, h2] at hp
        rcases hp with h | h
        · exact Or.inr (by simp [h])
        · rcases ih h with h' | h'
          · exact Or.inl h'
          · exact Or.inr (by simp [h'])

theorem lookup_insert_self (k : Key) (v : Val) (E : List (Key × Val)) :
    lookupAssoc k (insertAssoc k v E) = some v := by
  induction E with
  | nil => simp [insertAssoc, lookupAssoc]
  | cons q rest ih =>
    obtain ⟨k', v'⟩ := q
    by_cases h1 : k < k'
    · simp [insertAssoc, h1, lookupAssoc]
    · by_cases h2 : k = k'
      · simp [insertAssoc, h1, h2, lookupAssoc]
      · simp [insertAssoc, h1, h2, lookupAssoc, ih]

theorem lookup_insert_ne {k' k : Key} (v : Val) (E : List (Key × Val)) (h : k' ≠ k) :
    lookupAssoc k' (insertAssoc k v E) = lookupAssoc k' E := by
  induction E with
  | nil => simp [insertAssoc, lookupAssoc, h]
  | cons q rest ih =>
    obtain ⟨k1, v1⟩ := q
    by_cases h1 : k < k1
    · simp [insertAssoc, h1, lookupAssoc, h]
    · by_cases h2 : k = k1
      · subst h2; simp [insertAssoc, h1, lookupAssoc, h]
      · simp [insertAssoc, h1, h2, lookupAssoc, ih]

theorem eraseAssoc_sublist (k : Key) (E : List (Key × Val)) :
    (eraseAssoc k E).Sublist E := by
  induction E with
  | nil => simp [eraseAssoc]
  | cons q rest ih =>
    obtain ⟨k1, v1⟩ := q
    by_cases h : k = k1
    · simpa [eraseAssoc, h] using List.sublist_cons_self _ _
    · simpa [eraseAssoc, h] using ih.cons₂ (k1, v1)

theorem lookup_eq_none_iff (k : Key) (E : List (Key × Val)) :
    lookupAssoc k E = none ↔ k ∉ E.map Prod.fst := by
  induction E with
  | nil => simp [lookupAssoc]
  | cons q rest ih =>
    obtain ⟨k1, v1⟩ := q
    by_cases h : k = k1
    · simp [lookupAssoc, h]
    · simp [lookupAssoc, h, ih, Ne.symm h]

theorem eraseAssoc_of_not_mem {k : Key} {E : List (Key × Val)}
    (h : k ∉ E.map Prod.fst) : eraseAssoc k E = E := by
  induction E with
  | nil => rfl
  | cons q rest ih =>
    obtain ⟨k1, v1⟩ := q
    simp only [List.map_cons, List.mem_cons, not_or] at h
    simp [eraseAssoc, h.1, ih h.2]

theorem lookup_erase_ne {k' k : Key} (E : List (Key × Val)) (h : k' ≠ k) :
    lookupAssoc k' (eraseAssoc k E) = lookupAssoc k' E := by
  induction E with
  | nil => rfl
  | cons q rest ih =>
    obtain ⟨k1, v1⟩ := q
    by_cases h1 : k = k1
    · subst h1; simp [eraseAssoc, lookupAssoc, h]
    · simp [eraseAssoc, h1, lookupAssoc, ih]

end BT
namespace BT

theorem mem_keys_insertAssoc {a k : Key} {v : Val} {E : List (Key × Val)} :
    a ∈ (insertAssoc k v E).map Prod.fst ↔ a = k ∨ a ∈ E.map Prod.fst := by
  induction E with
  | nil => simp [insertAssoc]
  | cons q rest ih =>
    obtain ⟨k1, v1⟩ := q
    rcases lt_trichotomy k k1 with h1 | h1 | h1
    · rw [show insertAssoc k v ((k1, v1) :: rest) = (k, v) :: (k1, v1) :: rest by
        simp [insertAssoc, h1]]
      simp <;> tauto
    · subst h1
      rw [show insertAssoc k v ((k, v1) :: rest) = (k, v) :: rest by
        simp [insertAssoc]]
      simp <;> tauto
    · have hn1 : ¬ k < k1 := lt_asymm h1
      have hn2 : ¬ k = k1 := ne_of_gt h1
      rw [show insertAssoc k v ((k1, v1) :: rest) = (k1, v1) :: insertAssoc k v rest by
        simp [insertAssoc, hn1, hn2]]
      simp [ih] <;> tauto

theorem sorted_insertAssoc {k : Key} {v : Val} {E : List (Key × Val)}
    (hs : (E.map Prod.fst).Sorted (· < ·)) :
    ((insertAssoc k v E).map Prod.fst).Sorted (· < ·) := by
  induction E with
  | nil => simp [insertAssoc]
  | cons q rest ih =>
    obtain ⟨k1, v1⟩ := q
    rw [List.map_cons, List.sorted_cons] at hs
    replace hs : (∀ b ∈ rest.map Prod.fst, k1 < b) ∧
        (rest.map Prod.fst).Sorted (· < ·) := hs
    rcases lt_trichotomy k k1 with h1 | h1 | h1
    · rw [show insertAssoc k v ((k1, v1) :: rest) = (k, v) :: (k1, v1) :: rest by
        simp [insertAssoc, h1]]
      rw [List.map_cons, List.sorted_cons]
      constructor
      · intro b hb
        rw [List.map_cons] at hb
        rcases List.mem_cons.mp hb with h | h
        · show k < b
          simp at h
          linarith
        · show k < b
          have hb2 := hs.1 b h
          linarith
      · rw [List.map_cons, List.sorted_cons]
        exact hs
    · subst h1
      rw [show insertAssoc k v ((k, v1) :: rest) = (k, v) :: rest by
        simp [insertAssoc]]
      rw [List.map_cons, List.sorted_cons]
      exact hs
    · have hn1 : ¬ k < k1 := lt_asymm h1
      have hn2 : ¬ k = k1 := ne_of_gt h1
      rw [show insertAssoc k v ((k1, v1) :: rest) = (k1, v1) :: insertAssoc k v rest by
        simp [insertAssoc, hn1, hn2]]
      rw [List.map_cons, List.sorted_cons]
      constructor
      · intro b hb
        rcases mem_keys_insertAssoc.mp hb with h | h
        · show k1 < b
          linarith
        · exact hs.1 b h
      · exact ih hs.2

theorem sorted_eraseAssoc {k : Key} {E : List (Key × Val)}
    (hs : (E.map Prod.fst).Sorted (· < ·)) :
    ((eraseAssoc k E).map Prod.fst).Sorted (· < ·) :=
  hs.sublist ((eraseAssoc_sublist k E).map Prod.fst)

theorem mem_keys_eraseAssoc {a k : Key} {E : List (Key × Val)}
    (h : a ∈ (eraseAssoc k E).map Prod.fst) : a ∈ E.map Prod.fst :=
  ((eraseAssoc_sublist k E).map Prod.fst).mem h

theorem lookup_erase_self {k : Key} {E : List (Key × Val)}
    (hs : (E.map Prod.fst).Sorted (· < ·)) :
    lookupAssoc k (eraseAssoc k E) = none := by
  induction E with
  | nil => rfl
  | cons q rest ih =>
    obtain ⟨k1, v1⟩ := q
    rw [List.map_cons, List.sorted_cons] at hs
    by_cases h1 : k = k1
    · subst h1
      rw [show eraseAssoc k ((k, v1) :: rest) = rest by simp [eraseAssoc]]
      rw [lookup_eq_none_iff]
      intro hm
      have h2 := hs.1 k hm
      simp at h2
    · rw [show eraseAssoc k ((k1, v1) :: rest) = (k1, v1) :: eraseAssoc k rest by
        simp [eraseAssoc, h1]]
      simp [lookupAssoc, h1, ih hs.2]

theorem length_insertAssoc {k : Key} {v : Val} {E : List (Key × Val)}
    (hs : (E.map Prod.fst).Sorted (· < ·)) :
    (insertAssoc k v E).length =
      if k ∈ E.map Prod.fst then E.length else E.length + 1 := by
  induction E with
  | nil => simp [insertAssoc]
  | cons q rest ih =>
    obtain ⟨k1, v1⟩ := q
    rw [List.map_cons, List.sorted_cons] at hs
    replace hs : (∀ b ∈ rest.map Prod.fst, k1 < b) ∧
        (rest.map Prod.fst).Sorted (· < ·) := hs
    rcases lt_trichotomy k k1 with h1 | h1 | h1
    · have hnm : k ∉ ((k1, v1) :: rest).map Prod.fst := by
        intro hm
        rw [List.map_cons] at hm
        rcases List.mem_cons.mp hm with h | h
        · simp at h; linarith
        · have h2 := hs.1 k h; linarith
      rw [show insertAssoc k v ((k1, v1) :: rest) = (k, v) :: (k1, v1) :: rest by
        simp [insertAssoc, h1]]
      rw [if_neg hnm]
      simp
    · subst h1
      rw [show insertAssoc k v ((k, v1) :: rest) = (k, v) :: rest by
        simp [insertAssoc]]
      simp
    · have hn1 : ¬ k < k1 := lt_asymm h1
      have hn2 : ¬ k = k1 := ne_of_gt h1
      rw [show insertAssoc k v ((k1, v1) :: rest) = (k1, v1) :: insertAssoc k v rest by
        simp [insertAssoc, hn1, hn2]]
      have hiff : k ∈ ((k1, v1) :: rest).map Prod.fst ↔ k ∈ rest.map Prod.fst := by
        simp [hn2]
      simp only [hiff, List.length_cons, ih hs.2]
      by_cases hm : k ∈ rest.map Prod.fst <;> simp [hm]

theorem insertAssoc_append_left {k : Key} {v : Val} {E1 E2 : List (Key × Val)}
    (h : ∀ p ∈ E1, p.1 < k) :
    insertAssoc k v (E1 ++ E2) = E1 ++ insertAssoc k v E2 := by
  induction E1 with
  | nil => simp
  | cons q rest ih =>
    obtain ⟨k1, v1⟩ := q
    have hk1 : k1 < k := by simpa using h (k1, v1) (by simp)
    have h1 : ¬ k < k1 := lt_asymm hk1
    have h2 : ¬ k = k1 := ne_of_gt hk1
    show insertAssoc k v ((k1, v1) :: (rest ++ E2)) =
      (k1, v1) :: (rest ++ insertAssoc k v E2)
    rw [show insertAssoc k v ((k1, v1) :: (rest ++ E2)) =
        (k1, v1) :: insertAssoc k v (rest ++ E2) by simp [insertAssoc, h1, h2]]
    rw [ih (fun p hp => h p (by simp [hp]))]

theorem insertAssoc_append_right {k : Key} {v : Val} {E1 E2 : List (Key × Val)}
    (h : ∀ p ∈ E2, k < p.1) :
    insertAssoc k v (E1 ++ E2) = insertAssoc k v E1 ++ E2 := by
  induction E1 with
  | nil =>
    cases E2 with
    | nil => simp [insertAssoc]
    | cons q rest =>
      obtain ⟨k1, v1⟩ := q
      have hlt : k < k1 := by simpa using h (k1, v1) (by simp)
      simp [insertAssoc, hlt]
  | cons q rest ih =>
    obtain ⟨k1, v1⟩ := q
    show insertAssoc k v ((k1, v1) :: (rest ++ E2)) =
      insertAssoc k v ((k1, v1) :: rest) ++ E2
    rcases lt_trichotomy k k1 with h1 | h1 | h1
    · rw [show insertAssoc k v ((k1, v1) :: (rest ++ E2)) =
          (k, v) :: (k1, v1) :: (rest ++ E2) by simp [insertAssoc, h1]]
      rw [show insertAssoc k v ((k1, v1) :: rest) = (k, v) :: (k1, v1) :: rest by
        simp [insertAssoc, h1]]
      rfl
    · subst h1
      rw [show insertAssoc k v ((k, v1) :: (rest ++ E2)) = (k, v) :: (rest ++ E2) by
        simp [insertAssoc]]
      rw [show insertAssoc k v ((k, v1) :: rest) = (k, v) :: rest by
        simp [insertAssoc]]
      rfl
    · have hn1 : ¬ k < k1 := lt_asymm h1
      have hn2 : ¬ k = k1 := ne_of_gt h1
      rw [show insertAssoc k v ((k1, v1) :: (rest ++ E2)) =
          (k1, v1) :: insertAssoc k v (rest ++ E2) by simp [insertAssoc, hn1, hn2]]
      rw [show insertAssoc k v ((k1, v1) :: rest) =
          (k1, v1) :: insertAssoc k v rest by simp [insertAssoc, hn1, hn2]]
      rw [ih]
      rfl

theorem eraseAssoc_append_left {k : Key} {E1 E2 : List (Key × Val)}
    (h : ∀ p ∈ E1, p.1 ≠ k) :
    eraseAssoc k (E1 ++ E2) = E1 ++ eraseAssoc k E2 := by
  induction E1 with
  | nil => simp
  | cons q rest ih =>
    obtain ⟨k1, v1⟩ := q
    have h1 : ¬ k = k1 := by
      intro e
      exact h (k1, v1) (by simp) (by simp [e])
    show eraseAssoc k ((k1, v1) :: (rest ++ E2)) =
      (k1, v1) :: (rest ++ eraseAssoc k E2)
    rw [show eraseAssoc k ((k1, v1) :: (rest ++ E2)) =
        (k1, v1) :: eraseAssoc k (rest ++ E2) by simp [eraseAssoc, h1]]
    rw [ih (fun p hp => h p (by simp [hp]))]

theorem eraseAssoc_append_right {k : Key} {E1 E2 : List (Key × Val)}
    (h : k ∉ E2.map Prod.fst) :
    eraseAssoc k (E1 ++ E2) = eraseAssoc k E1 ++ E2 := by
  induction E1 with
  | nil => simpa using eraseAssoc_of_not_mem h
  | cons q rest ih =>
    obtain ⟨k1, v1⟩ := q
    show eraseAssoc k ((k1, v1) :: (rest ++ E2)) =
      eraseAssoc k ((k1, v1) :: rest) ++ E2
    by_cases h1 : k = k1
    · rw [show eraseAssoc k ((k1, v1) :: (rest ++ E2)) = rest ++ E2 by
        simp [eraseAssoc, h1]]
      rw [show eraseAssoc k ((k1, v1) :: rest) = rest by simp [eraseAssoc, h1]]
    · rw [show eraseAssoc k ((k1, v1) :: (rest ++ E2)) =
          (k1, v1) :: eraseAssoc k (rest ++ E2) by simp [eraseAssoc, h1]]
      rw [show eraseAssoc k ((k1, v1) :: rest) =
          (k1, v1) :: eraseAssoc k rest by simp [eraseAssoc, h1]]
      rw [ih]
      rfl

theorem lookup_runAssoc_ins (ops : List (Key × Val)) (k : Key) :
    lookupAssoc k (runAssoc (ops.map (fun p => Op.ins p.1 p.2))) =
      lastInserted ops k := by
  induction ops using List.reverseRecOn with
  | nil => rfl
  | append_singleton xs p ih =>
    obtain ⟨kp, vp⟩ := p
    have hrun : runAssoc ((xs ++ [(kp, vp)]).map (fun p => Op.ins p.1 p.2)) =
        insertAssoc kp vp (runAssoc (xs.map (fun p => Op.ins p.1 p.2))) := by
      simp [runAssoc, List.foldl_append, applyAssoc]
    rw [hrun]
    have hlast : lastInserted (xs ++ [(kp, vp)]) k =
        if k = kp then some vp else lastInserted xs k := by
      simp [lastInserted, lookupAssoc]
    rw [hlast]
    by_cases hk : k = kp
    · subst hk; simp [lookup_insert_self]
    · rw [lookup_insert_ne _ _ hk, ih, if_neg hk]

end BT
namespace BT

/-! Lemmas connecting the leaf operations to the association-list model. -/

theorem lowerBound_le_length (keys : List Key) (k : Key) :
    lowerBound keys k ≤ keys.length := by
  simpa [lowerBound] using (List.takeWhile_sublist _).length_le

theorem get_lowerBound_iff_mem {keys : List Key} {k : Key}
    (hs : keys.Sorted (· < ·)) :
    keys.get? (lowerBound keys k) = some k ↔ k ∈ keys := by
  induction keys with
  | nil => simp [lowerBound]
  | cons x xs ih =>
    rw [List.sorted_cons] at hs
    rw [lowerBound_cons]
    by_cases hx : x < k
    · rw [if_pos hx]
      have hne : ¬ k = x := by intro e; subst e; exact absurd hx (lt_irrefl k)
      rw [List.get?_cons_succ, ih hs.2]
      simp [hne]
    · rw [if_neg hx]
      simp only [List.get?_cons_zero, Option.some.injEq, List.mem_cons]
      constructor
      · intro h; exact Or.inl h.symm
      · intro h
        rcases h with h | h
        · exact h.symm
        · have := hs.1 k h
          exact absurd this hx

theorem lookup_zip_lowerBound {keys : List Key} {vals : List Val} {k : Key}
    (hs : keys.Sorted (· < ·)) (hlen : vals.length = keys.length)
    (hget : keys.get? (lowerBound keys k) = some k) :
    lookupAssoc k (keys.zip vals) = vals.get? (lowerBound keys k) := by
  induction keys generalizing vals with
  | nil => simp [lowerBound] at hget
  | cons x xs ih =>
    cases vals with
    | nil => simp at hlen
    | cons y ys =>
      rw [List.sorted_cons] at hs
      simp only [List.length_cons, Nat.succ.injEq] at hlen
      rw [lowerBound_cons] at hget ⊢
      by_cases hx : x < k
      · rw [if_pos hx] at hget ⊢
        have hne : ¬ k = x := by intro e; subst e; exact absurd hx (lt_irrefl k)
        simp only [List.zip_cons_cons, lookupAssoc, if_neg hne]
        simpa using ih hs.2 hlen (by simpa using hget)
      · rw [if_neg hx] at hget ⊢
        simp at hget
        simp [List.zip_cons_cons, lookupAssoc, hget.symm]

theorem findValue_eq_lookup {l : LeafData} {k : Key}
    (hs : l.keys.Sorted (· < ·)) (hlen : l.vals.length = l.keys.length) :
    findValue l k = lookupAssoc k (l.keys.zip l.vals) := by
  by_cases hget : l.keys.get? (lowerBound l.keys k) = some k
  · rw [findValue, if_pos hget, lookup_zip_lowerBound hs hlen hget]
  · rw [findValue, if_neg hget]
    have hnm : k ∉ l.keys := fun hm => hget ((get_lowerBound_iff_mem hs).mpr hm)
    rw [eq_comm, lookup_eq_none_iff]
    rw [List.map_fst_zip _ _ (by omega)]
    exact hnm

theorem zip_set_lowerBound {keys : List Key} {vals : List Val} {k : Key} {v : Val}
    (hs : keys.Sorted (· < ·)) (hlen : vals.length = keys.length)
    (hget : keys.get? (lowerBound keys k) = some k) :
    keys.zip (vals.set (lowerBound keys k) v) = insertAssoc k v (keys.zip vals) := by
  induction keys generalizing vals with
  | nil => simp [lowerBound] at hget
  | cons x xs ih =>
    cases vals with
    | nil => simp at hlen
    | cons y ys =>
      rw [List.sorted_cons] at hs
      simp only [List.length_cons, Nat.succ.injEq] at hlen
      rw [lowerBound_cons] at hget ⊢
      by_cases hx : x < k
      · rw [if_pos hx] at hget ⊢
        have hn1 : ¬ k < x := lt_asymm hx
        have hn2 : ¬ k = x := ne_of_gt hx
        rw [List.set_cons_succ, List.zip_cons_cons, List.zip_cons_cons]
        rw [show insertAssoc k v ((x, y) :: xs.zip ys) =
            (x, y) :: insertAssoc k v (xs.zip ys) by simp [insertAssoc, hn1, hn2]]
        rw [ih hs.2 hlen (by simpa using hget)]
      · rw [if_neg hx] at hget ⊢
        simp at hget
        subst hget
        rw [List.set_cons_zero, List.zip_cons_cons, List.zip_cons_cons]
        simp [insertAssoc]

theorem zip_insertIdx_lowerBound {keys : List Key} {vals : List Val} {k : Key} {v : Val}
    (hs : keys.Sorted (· < ·)) (hlen : vals.length = keys.length)
    (hnm : k ∉ keys) :
    (keys.insertIdx (lowerBound keys k) k).zip (vals.insertIdx (lowerBound keys k) v) =
      insertAssoc k v (keys.zip vals) := by
  induction keys generalizing vals with
  | nil =>
    cases vals with
    | nil => simp [lowerBound, insertAssoc]
    | cons y ys => simp at hlen
  | cons x xs ih =>
    cases vals with
    | nil => simp at hlen
    | cons y ys =>
      rw [List.sorted_cons] at hs
      simp only [List.length_cons, Nat.succ.injEq] at hlen
      have hne : ¬ k = x := fun e => hnm (by simp [e])
      have hnx : k ∉ xs := fun hm => hnm (by simp [hm])
      rw [lowerBound_cons]
      by_cases hx : x < k
      · rw [if_pos hx]
        have hn1 : ¬ k < x := lt_asymm hx
        rw [List.insertIdx_succ_cons, List.insertIdx_succ_cons, List.zip_cons_cons,
          List.zip_cons_cons]
        rw [show insertAssoc k v ((x, y) :: xs.zip ys) =
            (x, y) :: insertAssoc k v (xs.zip ys) by simp [insertAssoc, hn1, hne]]
        rw [ih hs.2 hlen hnx]
      · rw [if_neg hx]
        have hlt : k < x := by
          rcases lt_trichotomy k x with h | h | h
          · exact h
          · exact absurd h hne
          · exact absurd h hx
        rw [List.insertIdx_zero, List.insertIdx_zero, List.zip_cons_cons,
          List.zip_cons_cons]
        simp [insertAssoc, hlt]

theorem zip_eraseIdx_lowerBound {keys : List Key} {vals : List Val} {k : Key}
    (hs : keys.Sorted (· < ·)) (hlen : vals.length = keys.length)
    (hget : keys.get? (lowerBound keys k) = some k) :
    (keys.eraseIdx (lowerBound keys k)).zip (vals.eraseIdx (lowerBound keys k)) =
      eraseAssoc k (keys.zip vals) := by
  induction keys generalizing vals with
  | nil => simp [lowerBound] at hget
  | cons x xs ih =>
    cases vals with
    | nil => simp at hlen
    | cons y ys =>
      rw [List.sorted_cons] at hs
      simp only [List.length_cons, Nat.succ.injEq] at hlen
      rw [lowerBound_cons] at hget ⊢
      by_cases hx : x < k
      · rw [if_pos hx] at hget ⊢
        have hne : ¬ k = x := ne_of_gt hx
        simp only [List.eraseIdx_cons_succ, List.zip_cons_cons]
        rw [show eraseAssoc k ((x, y) :: xs.zip ys) =
            (x, y) :: eraseAssoc k (xs.zip ys) by simp [eraseAssoc, hne]]
        rw [ih hs.2 hlen (by simpa using hget)]
      · rw [if_neg hx] at hget ⊢
        simp at hget
        subst hget
        simp only [List.eraseIdx_cons_zero, List.zip_cons_cons]
        simp [eraseAssoc]

end BT
namespace BT

theorem insertValue_mem {l : LeafData} {k : Key} {v : Val}
    (hs : l.keys.Sorted (· < ·)) (hlen : l.vals.length = l.keys.length)
    (hmem : k ∈ l.keys) :
    (insertValue l k v).1 = true ∧
    (insertValue l k v).2.maxKeys = l.maxKeys ∧
    (insertValue l k v).2.next = l.next ∧
    (insertValue l k v).2.keys = l.keys ∧
    (insertValue l k v).2.vals.length = l.vals.length ∧
    (insertValue l k v).2.keys.zip ((insertValue l k v).2.vals) =
      insertAssoc k v (l.keys.zip l.vals) := by
  have hget := (get_lowerBound_iff_mem hs).mpr hmem
  rw [insertValue, if_pos hget]
  refine ⟨rfl, rfl, rfl, rfl, by simp, ?_⟩
  exact zip_set_lowerBound hs hlen hget

theorem insertValue_new {l : LeafData} {k : Key} {v : Val}
    (hs : l.keys.Sorted (· < ·)) (hlen : l.vals.length = l.keys.length)
    (hnm : k ∉ l.keys) (hroom : l.keys.length < l.maxKeys) :
    (insertValue l k v).1 = true ∧
    (insertValue l k v).2.maxKeys = l.maxKeys ∧
    (insertValue l k v).2.next = l.next ∧
    (insertValue l k v).2.keys.length = l.keys.length + 1 ∧
    (insertValue l k v).2.vals.length = (insertValue l k v).2.keys.length ∧
    (insertValue l k v).2.keys.Sorted (· < ·) ∧
    (insertValue l k v).2.keys.zip ((insertValue l k v).2.vals) =
      insertAssoc k v (l.keys.zip l.vals) := by
  have hget : ¬ l.keys.get? (lowerBound l.keys k) = some k :=
    fun h => hnm ((get_lowerBound_iff_mem hs).mp h)
  have hnf : ¬ l.keys.length ≥ l.maxKeys := by omega
  have hlb := lowerBound_le_length l.keys k
  rw [insertValue, if_neg hget, if_neg hnf]
  have hkl : (l.keys.insertIdx (lowerBound l.keys k) k).length = l.keys.length + 1 :=
    List.length_insertIdx _ _ hlb
  have hvl : (l.vals.insertIdx (lowerBound l.keys k) v).length = l.vals.length + 1 :=
    List.length_insertIdx _ _ (by omega)
  have hzip := zip_insertIdx_lowerBound (v := v) hs hlen hnm
  refine ⟨rfl, rfl, rfl, hkl, by simp [hkl, hvl, hlen], ?_, hzip⟩
  have hmap : (l.keys.insertIdx (lowerBound l.keys k) k) =
      (((l.keys.insertIdx (lowerBound l.keys k) k).zip
        (l.vals.insertIdx (lowerBound l.keys k) v)).map Prod.fst) := by
    rw [List.map_fst_zip]
    omega
  rw [hmap, hzip]
  apply sorted_insertAssoc
  rw [List.map_fst_zip _ _ (by omega)]
  exact hs

theorem insertValue_full {l : LeafData} {k : Key} {v : Val}
    (hs : l.keys.Sorted (· < ·)) (hnm : k ∉ l.keys)
    (hfull : l.maxKeys ≤ l.keys.length) :
    insertValue l k v = (false, l) := by
  have hget : ¬ l.keys.get? (lowerBound l.keys k) = some k :=
    fun h => hnm ((get_lowerBound_iff_mem hs).mp h)
  rw [insertValue, if_neg hget, if_pos (by omega)]

theorem removeValue_mem {l : LeafData} {k : Key}
    (hs : l.keys.Sorted (· < ·)) (hlen : l.vals.length = l.keys.length)
    (hmem : k ∈ l.keys) :
    (removeValue l k).1 = true ∧
    (removeValue l k).2.maxKeys = l.maxKeys ∧
    (removeValue l k).2.next = l.next ∧
    (removeValue l k).2.keys.length + 1 = l.keys.length ∧
    (removeValue l k).2.vals.length = (removeValue l k).2.keys.length ∧
    (removeValue l k).2.keys.Sorted (· < ·) ∧
    (removeValue l k).2.keys.zip ((removeValue l k).2.vals) =
      eraseAssoc k (l.keys.zip l.vals) := by
  have hget := (get_lowerBound_iff_mem hs).mpr hmem
  have hlt : lowerBound l.keys k < l.keys.length := by
    by_contra hge
    rw [List.get?_eq_none.mpr (by omega)] at hget
    exact Option.noConfusion hget
  rw [removeValue, if_pos hget]
  refine ⟨rfl, rfl, rfl, ?_, ?_, ?_, ?_⟩
  · simp [List.length_eraseIdx, hlt]
    omega
  · simp [List.length_eraseIdx, hlt, hlen]
  · exact hs.sublist (List.eraseIdx_sublist _ _)
  · exact zip_eraseIdx_lowerBound hs hlen hget

theorem removeValue_not_mem {l : LeafData} {k : Key}
    (hs : l.keys.Sorted (· < ·)) (hnm : k ∉ l.keys) :
    removeValue l k = (false, l) := by
  have hget : ¬ l.keys.get? (lowerBound l.keys k) = some k :=
    fun h => hnm ((get_lowerBound_iff_mem hs).mp h)
  rw [removeValue, if_neg hget]

end BT
namespace BT

/-! Small facts about the optional bounds. -/

theorem lbOk_of_ltLo {lo : Option Key} {k : Key} (h : ltLo lo k) : lbOk lo k := by
  cases lo with
  | none => trivial
  | some a => exact le_of_lt h

theorem ltLo_of_lt {lo : Option Key} {k x : Key} (h : ltLo lo k) (hkx : k < x) :
    ltLo lo x := by
  cases lo with
  | none => trivial
  | some a => exact lt_trans h hkx

theorem ltLo_of_le_lt {lo : Option Key} {k x : Key} (h : lbOk lo k) (hkx : k < x) :
    ltLo lo x := by
  cases lo with
  | none => trivial
  | some a => exact lt_of_le_of_lt h hkx

theorem lbOk_of_le {lo : Option Key} {k x : Key} (h : lbOk lo k) (hkx : k ≤ x) :
    lbOk lo x := by
  cases lo with
  | none => trivial
  | some a => exact le_trans h hkx

theorem ltHi_of_lt {hi : Option Key} {k x : Key} (hxk : x < k) (h : ltHi hi k) :
    ltHi hi x := by
  cases hi with
  | none => trivial
  | some b => exact lt_trans hxk h

theorem ltHi_of_le_lt {hi : Option Key} {k x : Key} (hxk : x ≤ k) (h : ltHi hi k) :
    ltHi hi x := by
  cases hi with
  | none => trivial
  | some b => exact lt_of_le_of_lt hxk h

/-! List decomposition helpers. -/

theorem get?_decomp {α : Type} {l : List α} {n : Nat} {a : α}
    (h : l.get? n = some a) : l = l.take n ++ a :: l.drop (n + 1) := by
  obtain ⟨hlt, hget⟩ := List.get?_eq_some.mp h
  conv_lhs => rw [← List.take_append_drop n l]
  rw [List.drop_eq_get_cons hlt, hget]

theorem insertIdx_decomp {α : Type} {l : List α} {n : Nat} (a : α)
    (h : n ≤ l.length) : l.insertIdx n a = l.take n ++ a :: l.drop n := by
  induction l generalizing n with
  | nil => simp at h; subst h; simp
  | cons x xs ih =>
    cases n with
    | zero => simp
    | succ m => simp at h; simp [List.insertIdx_succ_cons, ih h]

/-! Structural lemmas about `Seq`. -/

theorem Seq_length {P : Option Key → Option Key → NodeS → Prop}
    {lo hi : Option Key} {ks : List Key} {cs : List NodeS}
    (h : Seq P lo hi ks cs) : cs.length = ks.length + 1 := by
  induction h with
  | single _ => simp
  | cons _ _ _ _ ih => simp [ih]

theorem Seq_sep_bounds {P : Option Key → Option Key → NodeS → Prop}
    {lo hi : Option Key} {ks : List Key} {cs : List NodeS}
    (h : Seq P lo hi ks cs) : ∀ x ∈ ks, ltLo lo x ∧ ltHi hi x := by
  induction h with
  | single _ => simp
  | cons hk1 hk2 _ _ ih =>
    intro x hx
    rcases List.mem_cons.mp hx with h | h
    · subst h; exact ⟨hk1, hk2⟩
    · obtain ⟨h1, h2⟩ := ih x h
      exact ⟨ltLo_of_lt hk1 h1, h2⟩

theorem Seq_mono {P Q : Option Key → Option Key → NodeS → Prop}
    (hPQ : ∀ lo hi c, P lo hi c → Q lo hi c)
    {lo hi : Option Key} {ks : List Key} {cs : List NodeS}
    (h : Seq P lo hi ks cs) : Seq Q lo hi ks cs := by
  induction h with
  | single hc => exact Seq.single (hPQ _ _ _ hc)
  | cons hk1 hk2 hc _ ih => exact Seq.cons hk1 hk2 (hPQ _ _ _ hc) ih

theorem Seq_content_bounds {P : Option Key → Option Key → NodeS → Prop}
    {α : Type} (g : NodeS → List α) (keyOf : α → Key)
    (hP : ∀ lo hi c, P lo hi c → ∀ a ∈ g c, lbOk lo (keyOf a) ∧ ltHi hi (keyOf a))
    {lo hi : Option Key} {ks : List Key} {cs : List NodeS}
    (h : Seq P lo hi ks cs) :
    ∀ a ∈ (cs.map g).join, lbOk lo (keyOf a) ∧ ltHi hi (keyOf a) := by
  induction h with
  | single hc => simpa using hP _ _ _ hc
  | cons hk1 hk2 hc _ ih =>
    intro a ha
    simp only [List.map_cons, List.join_cons, List.mem_append] at ha
    rcases ha with ha | ha
    · obtain ⟨h1, h2⟩ := hP _ _ _ hc a ha
      exact ⟨h1, ltHi_of_lt h2 hk2⟩
    · obtain ⟨h1, h2⟩ := ih a ha
      exact ⟨lbOk_of_le (lbOk_of_ltLo hk1) h1, h2⟩

end BT
namespace BT

theorem Seq_keys_sorted {P : Option Key → Option Key → NodeS → Prop}
    {lo hi : Option Key} {ks : List Key} {cs : List NodeS}
    (h : Seq P lo hi ks cs) : ks.Sorted (· < ·) := by
  induction h with
  | single _ => simp
  | cons hk1 hk2 hc hrest ih =>
    rw [List.sorted_cons]
    refine ⟨?_, ih⟩
    intro x hx
    exact (Seq_sep_bounds hrest x hx).1

theorem Seq_split {P : Option Key → Option Key → NodeS → Prop}
    {lo hi : Option Key} {ks : List Key} {cs : List NodeS}
    (h : Seq P lo hi ks cs) (m : Nat) (hm : m < ks.length) :
    ∃ km, ks.get? m = some km ∧ ltLo lo km ∧ ltHi hi km ∧
      Seq P lo (some km) (ks.take m) (cs.take (m + 1)) ∧
      Seq P (some km) hi (ks.drop (m + 1)) (cs.drop (m + 1)) := by
  induction h generalizing m with
  | single _ => simp at hm
  | cons hk1 hk2 hc hrest ih =>
    rename_i lo hi k ks c cs
    cases m with
    | zero =>
      refine ⟨k, rfl, hk1, hk2, Seq.single hc, hrest⟩
    | succ m =>
      simp only [List.length_cons, Nat.succ_lt_succ_iff] at hm
      obtain ⟨km, hget, hlo, hhi, hleft, hright⟩ := ih m hm
      refine ⟨km, by simpa using hget, ltLo_of_lt hk1 hlo, hhi, ?_, ?_⟩
      · rw [show (k :: ks).take (m + 1) = k :: ks.take m from List.take_succ_cons,
            show (c :: cs).take (m + 1 + 1) = c :: cs.take (m + 1) from List.take_succ_cons]
        exact Seq.cons hk1 hlo hc hleft
      · rw [show (k :: ks).drop (m + 1 + 1) = ks.drop (m + 1) by simp,
            show (c :: cs).drop (m + 1 + 1) = cs.drop (m + 1) by simp]
        exact hright

theorem Seq_mono_mem {P Q : Option Key → Option Key → NodeS → Prop}
    {lo hi : Option Key} {ks : List Key} {cs : List NodeS}
    (h : Seq P lo hi ks cs)
    (hPQ : ∀ lo1 hi1 c, c ∈ cs → P lo1 hi1 c → Q lo1 hi1 c) :
    Seq Q lo hi ks cs := by
  induction h with
  | single hc => exact Seq.single (hPQ _ _ _ (by simp) hc)
  | cons hk1 hk2 hc hrest ih =>
    exact Seq.cons hk1 hk2 (hPQ _ _ _ (by simp) hc)
      (ih (fun lo1 hi1 c hcm hp => hPQ lo1 hi1 c (by simp [hcm]) hp))

theorem Seq_focus {P : Option Key → Option Key → NodeS → Prop}
    {α : Type} (g : NodeS → List α) (keyOf : α → Key)
    (hP : ∀ lo hi c, P lo hi c → ∀ a ∈ g c, lbOk lo (keyOf a) ∧ ltHi hi (keyOf a))
    {lo hi : Option Key} {ks : List Key} {cs : List NodeS}
    (hseq : Seq P lo hi ks cs) (x : Key)
    (hx1 : lbOk lo x) (hx2 : ltHi hi x) :
    ∃ lo' hi' c, cs.get? (childIndex ks x) = some c ∧ P lo' hi' c ∧
      lbOk lo' x ∧ ltHi hi' x ∧
      (∀ a ∈ ((cs.take (childIndex ks x)).map g).join, keyOf a < x) ∧
      (∀ a ∈ ((cs.drop (childIndex ks x + 1)).map g).join, x < keyOf a) ∧
      (∀ (Q : Option Key → Option Key → NodeS → Prop) c',
        (∀ lo1 hi1 c1,
          c1 ∈ cs.take (childIndex ks x) ++ cs.drop (childIndex ks x + 1) →
          P lo1 hi1 c1 → Q lo1 hi1 c1) →
        Q lo' hi' c' → Seq Q lo hi ks (cs.set (childIndex ks x) c')) ∧
      (∀ (Q : Option Key → Option Key → NodeS → Prop) p c1 c2,
        (∀ lo1 hi1 c1,
          c1 ∈ cs.take (childIndex ks x) ++ cs.drop (childIndex ks x + 1) →
          P lo1 hi1 c1 → Q lo1 hi1 c1) →
        ltLo lo' p → ltHi hi' p → Q lo' (some p) c1 → Q (some p) hi' c2 →
        Seq Q lo hi (ks.insertIdx (childIndex ks x) p)
          ((cs.set (childIndex ks x) c1).insertIdx (childIndex ks x + 1) c2)) := by
  induction hseq with
  | single hc =>
    rename_i lo hi c
    refine ⟨lo, hi, c, rfl, hc, hx1, hx2, by simp [childIndex], by simp [childIndex], ?_, ?_⟩
    · intro Q c' hmono hc'
      simpa [childIndex] using Seq.single hc'
    · intro Q p c1 c2 hmono hp1 hp2 hc1 hc2
      simp only [childIndex_nil, List.insertIdx_zero, List.set_cons_zero]
      exact Seq.cons hp1 hp2 hc1 (Seq.single hc2)
  | cons hk1 hk2 hc hrest ih =>
    rename_i lo hi k ks c cs
    by_cases hkx : k ≤ x
    · have hci : childIndex (k :: ks) x = childIndex ks x + 1 := by
        rw [childIndex_cons, if_pos hkx]
      rw [hci]
      obtain ⟨lo', hi', c0, hget, hc0, hb1, hb2, hpre, hpost, hrep, hins⟩ :=
        ih hkx hx2
      refine ⟨lo', hi', c0, by simpa using hget, hc0, hb1, hb2, ?_, ?_, ?_, ?_⟩
      · intro a ha
        rw [show (c :: cs).take (childIndex ks x + 1) = c :: cs.take (childIndex ks x)
          from List.take_succ_cons] at ha
        simp only [List.map_cons, List.join_cons, List.mem_append] at ha
        rcases ha with ha | ha
        · have := (hP _ _ _ hc a ha).2
          exact lt_of_lt_of_le this hkx
        · exact hpre a ha
      · intro a ha
        rw [show (c :: cs).drop (childIndex ks x + 1 + 1) = cs.drop (childIndex ks x + 1) by
          simp] at ha
        exact hpost a ha
      · intro Q c' hmono hc'
        rw [List.set_cons_succ]
        refine Seq.cons hk1 hk2 (hmono _ _ _ (by simp) hc)
          (hrep Q c' (fun lo1 hi1 c1 hm hp => hmono lo1 hi1 c1 ?_ hp) hc')
        rw [List.take_succ_cons, List.drop_succ_cons, List.cons_append]
        exact List.mem_cons_of_mem _ hm
      · intro Q p c1 c2 hmono hp1 hp2 hc1 hc2
        rw [List.set_cons_succ, List.insertIdx_succ_cons, List.insertIdx_succ_cons]
        refine Seq.cons hk1 hk2 (hmono _ _ _ (by simp) hc)
          (hins Q p c1 c2 (fun lo1 hi1 c1 hm hp => hmono lo1 hi1 c1 ?_ hp)
            hp1 hp2 hc1 hc2)
        rw [List.take_succ_cons, List.drop_succ_cons, List.cons_append]
        exact List.mem_cons_of_mem _ hm
    · have hci : childIndex (k :: ks) x = 0 := by
        rw [childIndex_cons, if_neg hkx]
      rw [hci]
      have hxk : x < k := lt_of_not_le hkx
      refine ⟨lo, some k, c, rfl, hc, hx1, hxk, by simp, ?_, ?_, ?_⟩
      · intro a ha
        rw [show (c :: cs).drop (0 + 1) = cs by simp] at ha
        have := (Seq_content_bounds g keyOf hP hrest a ha).1
        exact lt_of_lt_of_le hxk this
      · intro Q c' hmono hc'
        rw [List.set_cons_zero]
        exact Seq.cons hk1 hk2 hc'
          (Seq_mono_mem hrest (fun lo1 hi1 c1 hm hp => hmono lo1 hi1 c1 (by simp [hm]) hp))
      · intro Q p c1 c2 hmono hp1 hp2 hc1 hc2
        simp only [List.insertIdx_zero, List.set_cons_zero]
        exact Seq.cons hp1 (ltHi_of_lt hp2 hk2) hc1 (Seq.cons hp2 hk2 hc2
          (Seq_mono_mem hrest (fun lo1 hi1 c1 hm hp => hmono lo1 hi1 c1 (by simp [hm]) hp)))

end BT
namespace BT

/-! Equations and congruence for the observation functions. -/

theorem entriesL_eq_join (A : Arena) (cs : List NodeS) :
    entriesL A cs = (cs.map (entriesN A)).join := by
  induction cs with
  | nil => simp [entriesL]
  | cons c cs ih => simp [entriesL, ih]

theorem leafIdsL_eq_join (cs : List NodeS) :
    leafIdsL cs = (cs.map leafIdsN).join := by
  induction cs with
  | nil => simp [leafIdsL]
  | cons c cs ih => simp [leafIdsL, ih]

theorem entriesL_congr {A A' : Arena} {cs : List NodeS}
    (h : ∀ c ∈ cs, entriesN A' c = entriesN A c) :
    entriesL A' cs = entriesL A cs := by
  induction cs with
  | nil => simp [entriesL]
  | cons c cs ih =>
    rw [entriesL, entriesL, h c (by simp), ih (fun c' hc' => h c' (by simp [hc']))]

theorem Seq_mem {P : Option Key → Option Key → NodeS → Prop}
    {lo hi : Option Key} {ks : List Key} {cs : List NodeS}
    (h : Seq P lo hi ks cs) {c : NodeS} (hc : c ∈ cs) :
    ∃ lo' hi', P lo' hi' c := by
  induction h with
  | single hc1 =>
    rename_i lo hi c1
    rcases List.mem_singleton.mp hc with h
    subst h
    exact ⟨lo, hi, hc1⟩
  | cons hk1 hk2 hc1 hrest ih =>
    rename_i lo hi k ks c1 cs
    rcases List.mem_cons.mp hc with h | h
    · subst h; exact ⟨lo, some k, hc1⟩
    · exact ih h

/-! Basic consequences of `Good`. -/

theorem Good_entries_bounds {mk : Nat} {A : Arena} :
    ∀ (h : Nat) {lo hi : Option Key} {n : NodeS}, Good mk A h lo hi n →
      ∀ p ∈ entriesN A n, lbOk lo p.1 ∧ ltHi hi p.1 := by
  intro h
  induction h with
  | zero =>
    intro lo hi n hg p hp
    obtain ⟨id, l, rfl, hget, _, _, hlen, _, hb⟩ := hg
    rw [entriesN, hget] at hp
    obtain ⟨h1, _⟩ := List.of_mem_zip hp
    exact hb p.1 h1
  | succ h ih =>
    intro lo hi n hg p hp
    obtain ⟨ks, cs, rfl, _, _, hseq⟩ := hg
    rw [entriesN, entriesL_eq_join] at hp
    exact Seq_content_bounds (entriesN A) Prod.fst
      (fun lo' hi' c hc => ih hc) hseq p hp

theorem Good_entries_sorted {mk : Nat} {A : Arena} :
    ∀ (h : Nat) {lo hi : Option Key} {n : NodeS}, Good mk A h lo hi n →
      ((entriesN A n).map Prod.fst).Sorted (· < ·) := by
  intro h
  induction h with
  | zero =>
    intro lo hi n hg
    obtain ⟨id, l, rfl, hget, _, _, hlen, hsort, _⟩ := hg
    rw [entriesN, hget, List.map_fst_zip _ _ (by omega)]
    exact hsort
  | succ h ih =>
    intro lo hi n hg
    obtain ⟨ks, cs, rfl, hl1, hl2, hseq⟩ := hg
    rw [entriesN]
    clear hl1 hl2
    induction hseq with
    | single hc => simpa [entriesL] using ih hc
    | cons hk1 hk2 hc hrest ihs =>
      rename_i lo1 hi1 k1 ks1 c1 cs1
      rw [entriesL, List.map_append]
      rw [List.Sorted, List.pairwise_append]
      refine ⟨ih hc, ihs, ?_⟩
      intro a ha b hb
      simp only [List.mem_map] at ha hb
      obtain ⟨p, hp, rfl⟩ := ha
      obtain ⟨q, hq, rfl⟩ := hb
      have h1 : ltHi (some k1) p.1 := (Good_entries_bounds h hc p hp).2
      rw [entriesL_eq_join] at hq
      have h2 : lbOk (some k1) q.1 :=
        (Seq_content_bounds (entriesN A) Prod.fst
          (fun lo' hi' c hcg => Good_entries_bounds h hcg) hrest q hq).1
      exact lt_of_lt_of_le h1 h2

theorem Good_ids_lt {mk : Nat} {A : Arena} :
    ∀ (h : Nat) {lo hi : Option Key} {n : NodeS}, Good mk A h lo hi n →
      ∀ i ∈ leafIdsN n, i < A.length := by
  intro h
  induction h with
  | zero =>
    intro lo hi n hg i hi'
    obtain ⟨id, l, rfl, hget, _⟩ := hg
    rw [leafIdsN] at hi'
    rcases List.mem_singleton.mp hi' with rfl
    exact (List.get?_eq_some.mp hget).1
  | succ h ih =>
    intro lo hi n hg i hi'
    obtain ⟨ks, cs, rfl, _, _, hseq⟩ := hg
    rw [leafIdsN, leafIdsL_eq_join] at hi'
    rw [List.mem_join] at hi'
    obtain ⟨l, hl, hil⟩ := hi'
    rw [List.mem_map] at hl
    obtain ⟨c, hc, rfl⟩ := hl
    obtain ⟨lo', hi'', hcg⟩ := Seq_mem hseq hc
    exact ih hcg i hil

theorem Good_ids_ne_nil {mk : Nat} {A : Arena} :
    ∀ (h : Nat) {lo hi : Option Key} {n : NodeS}, Good mk A h lo hi n →
      leafIdsN n ≠ [] := by
  intro h
  induction h with
  | zero =>
    intro lo hi n hg
    obtain ⟨id, l, rfl, _⟩ := hg
    simp [leafIdsN]
  | succ h ih =>
    intro lo hi n hg
    obtain ⟨ks, cs, rfl, _, _, hseq⟩ := hg
    rw [leafIdsN]
    cases hseq with
    | single hc =>
      intro hh
      rw [leafIdsL] at hh
      exact ih hc (List.append_eq_nil.mp hh).1
    | cons hk1 hk2 hc hrest =>
      intro hh
      rw [leafIdsL] at hh
      exact ih hc (List.append_eq_nil.mp hh).1

theorem Good_frame {mk : Nat} {A A' : Arena} :
    ∀ (h : Nat) {lo hi : Option Key} {n : NodeS}, Good mk A h lo hi n →
      (∀ i ∈ leafIdsN n, A'.get? i = A.get? i) →
      Good mk A' h lo hi n := by
  intro h
  induction h with
  | zero =>
    intro lo hi n hg hfr
    obtain ⟨id, l, rfl, hget, h1, h2, h3, h4, h5⟩ := hg
    exact ⟨id, l, rfl, by rw [hfr id (by simp [leafIdsN])]; exact hget, h1, h2, h3, h4, h5⟩
  | succ h ih =>
    intro lo hi n hg hfr
    obtain ⟨ks, cs, rfl, hk1, hk2, hseq⟩ := hg
    refine ⟨ks, cs, rfl, hk1, hk2, ?_⟩
    rw [leafIdsN, leafIdsL_eq_join] at hfr
    clear hk1 hk2
    induction hseq with

    | single hc =>
      refine Seq.single (ih hc ?_)
      intro i hi'
      exact hfr i (by simpa using hi')
    | cons hs1 hs2 hc hrest ihs =>
      refine Seq.cons hs1 hs2 (ih hc ?_) (ihs ?_)
      · intro i hi'
        refine hfr i ?_
        rw [List.mem_join]
        exact ⟨_, by simp, hi'⟩
      · intro i hi'
        refine hfr i ?_
        rw [List.mem_join] at hi' ⊢
        obtain ⟨l, hl, hil⟩ := hi'
        rw [List.mem_map] at hl
        obtain ⟨c', hc', rfl⟩ := hl
        refine ⟨leafIdsN c', ?_, hil⟩
        rw [List.map_cons]
        exact List.mem_cons_of_mem _ (List.mem_map.mpr ⟨c', hc', rfl⟩)

theorem entriesN_frame {mk : Nat} {A A' : Arena} :
    ∀ (h : Nat) {lo hi : Option Key} {n : NodeS}, Good mk A h lo hi n →
      (∀ i ∈ leafIdsN n, A'.get? i = A.get? i) →
      entriesN A' n = entriesN A n := by
  intro h
  induction h with
  | zero =>
    intro lo hi n hg hfr
    obtain ⟨id, l, rfl, hget, _⟩ := hg
    rw [entriesN, entriesN, hfr id (by simp [leafIdsN])]
  | succ h ih =>
    intro lo hi n hg hfr
    obtain ⟨ks, cs, rfl, hl1, hl2, hseq⟩ := hg
    rw [entriesN, entriesN]
    rw [leafIdsN, leafIdsL_eq_join] at hfr
    clear hl1 hl2
    induction hseq with
    | single hc =>
      simp only [entriesL]
      rw [ih hc (fun i hi' => hfr i (by simpa using hi'))]
    | cons hs1 hs2 hc hrest ihs =>
      simp only [entriesL]
      rw [ih hc (fun i hi' => hfr i (List.mem_join.mpr
        ⟨_, by rw [List.map_cons]; exact List.mem_cons_self _ _, hi'⟩))]
      rw [ihs (fun i hi' => hfr i (by
        rw [List.mem_join] at hi' ⊢
        obtain ⟨l, hl, hil⟩ := hi'
        refine ⟨l, ?_, hil⟩
        rw [List.map_cons]
        exact List.mem_cons_of_mem _ hl))]

end BT
namespace BT

theorem entriesOfIds_append (A : Arena) (xs ys : List Nat) :
    entriesOfIds A (xs ++ ys) = entriesOfIds A xs ++ entriesOfIds A ys := by
  simp [entriesOfIds]

theorem entriesN_eq_entriesOfIds {mk : Nat} {A : Arena} :
    ∀ (h : Nat) {lo hi : Option Key} {n : NodeS}, Good mk A h lo hi n →
      entriesN A n = entriesOfIds A (leafIdsN n) := by
  intro h
  induction h with
  | zero =>
    intro lo hi n hg
    obtain ⟨id, l, rfl, hget, _⟩ := hg
    rw [entriesN, leafIdsN, entriesOfIds]
    simp [hget]
  | succ h ih =>
    intro lo hi n hg
    obtain ⟨ks, cs, rfl, hl1, hl2, hseq⟩ := hg
    rw [entriesN, leafIdsN]
    clear hl1 hl2
    induction hseq with
    | single hc =>
      rw [entriesL, leafIdsL, entriesL, leafIdsL, entriesOfIds_append, ih hc]
      simp [entriesOfIds]
    | cons hs1 hs2 hc hrest ihs =>
      rw [entriesL, leafIdsL, entriesOfIds_append, ih hc, ihs]

/-! Bridges from the fuel-indexed observation functions to the proof-side
recursive twins. -/

theorem entriesF_eq {mk : Nat} {A : Arena} :
    ∀ (h : Nat) {lo hi : Option Key} {n : NodeS}, Good mk A h lo hi n →
      ∀ fuel, h < fuel → entriesF A fuel n = entriesN A n := by
  intro h
  induction h with
  | zero =>
    intro lo hi n hg fuel _
    obtain ⟨id, l, rfl, _⟩ := hg
    cases fuel <;> rw [entriesF, entriesN]
  | succ h ih =>
    intro lo hi n hg fuel hf
    obtain ⟨ks, cs, rfl, hl1, hl2, hseq⟩ := hg
    cases fuel with
    | zero => omega
    | succ f =>
      rw [entriesF, entriesN, entriesL_eq_join]
      congr 1
      apply List.map_congr_left
      intro c hc
      obtain ⟨lo', hi', hcg⟩ := Seq_mem hseq hc
      exact ih hcg f (by omega)

theorem leafIdsF_eq {mk : Nat} {A : Arena} :
    ∀ (h : Nat) {lo hi : Option Key} {n : NodeS}, Good mk A h lo hi n →
      ∀ fuel, h < fuel → leafIdsF fuel n = leafIdsN n := by
  intro h
  induction h with
  | zero =>
    intro lo hi n hg fuel _
    obtain ⟨id, l, rfl, _⟩ := hg
    cases fuel <;> rw [leafIdsF, leafIdsN]
  | succ h ih =>
    intro lo hi n hg fuel hf
    obtain ⟨ks, cs, rfl, hl1, hl2, hseq⟩ := hg
    cases fuel with
    | zero => omega
    | succ f =>
      rw [leafIdsF, leafIdsN, leafIdsL_eq_join]
      congr 1
      apply List.map_congr_left
      intro c hc
      obtain ⟨lo', hi', hcg⟩ := Seq_mem hseq hc
      exact ih hcg f (by omega)

theorem uheightF_eq {mk : Nat} {A : Arena} :
    ∀ (h : Nat) {lo hi : Option Key} {n : NodeS}, Good mk A h lo hi n →
      ∀ fuel, h < fuel → uheightF fuel n = some h := by
  intro h
  induction h with
  | zero =>
    intro lo hi n hg fuel _
    obtain ⟨id, l, rfl, _⟩ := hg
    cases fuel <;> rw [uheightF]
  | succ h ih =>
    intro lo hi n hg fuel hf
    obtain ⟨ks, cs, rfl, hl1, hl2, hseq⟩ := hg
    cases fuel with
    | zero => omega
    | succ f =>
      have hmap : cs.map (uheightF f) = cs.map (fun _ => some h) := by
        apply List.map_congr_left
        intro c hc
        obtain ⟨lo', hi', hcg⟩ := Seq_mem hseq hc
        exact ih hcg f (by omega)
      have hcs : ∃ c cs', cs = c :: cs' := by
        cases hseq with
        | single hc => exact ⟨_, _, rfl⟩
        | cons h1 h2 h3 h4 => exact ⟨_, _, rfl⟩
      obtain ⟨c, cs', rfl⟩ := hcs
      rw [uheightF]
      rw [show (c :: cs').map (uheightF f) = some h :: cs'.map (fun _ => some h) by
        simpa using hmap]
      simp

/-! The height of a well-formed tree is below its number of leaves. -/

theorem Good_height_lt {mk : Nat} {A : Arena} :
    ∀ (h : Nat) {lo hi : Option Key} {n : NodeS}, Good mk A h lo hi n →
      h < (leafIdsN n).length := by
  intro h
  induction h with
  | zero =>
    intro lo hi n hg
    obtain ⟨id, l, rfl, _⟩ := hg
    simp [leafIdsN]
  | succ h ih =>
    intro lo hi n hg
    obtain ⟨ks, cs, rfl, hl1, hl2, hseq⟩ := hg
    cases hseq with
    | single hc => simp at hl1
    | cons hs1 hs2 hc hrest =>
      rename_i k ks' c cs'
      have h1 : h < (leafIdsN c).length := ih hc
      have h2 : 1 ≤ (leafIdsL cs').length := by
        cases hrest with
        | single hc2 =>
          rw [leafIdsL, leafIdsL]
          have := Good_ids_ne_nil h hc2
          have := List.length_pos.mpr this
          simp
          omega
        | cons ht1 ht2 hc2 hrest2 =>
          rw [leafIdsL]
          have := Good_ids_ne_nil h hc2
          have := List.length_pos.mpr this
          simp
          omega
      rw [leafIdsN, leafIdsL]
      rw [List.length_append]
      omega

end BT
namespace BT

theorem leafIdsL_append (xs ys : List NodeS) :
    leafIdsL (xs ++ ys) = leafIdsL xs ++ leafIdsL ys := by
  induction xs with
  | nil => simp [leafIdsL]
  | cons c cs ih => simp [leafIdsL, ih]

theorem entriesL_append (A : Arena) (xs ys : List NodeS) :
    entriesL A (xs ++ ys) = entriesL A xs ++ entriesL A ys := by
  induction xs with
  | nil => simp [entriesL]
  | cons c cs ih => simp [entriesL, ih]

theorem entriesOfIds_leafIdsL {mk : Nat} {A : Arena} {h : Nat} :
    ∀ {xs : List NodeS}, (∀ c ∈ xs, ∃ lo hi, Good mk A h lo hi c) →
      entriesOfIds A (leafIdsL xs) = entriesL A xs := by
  intro xs
  induction xs with
  | nil => intro _; simp [leafIdsL, entriesL, entriesOfIds]
  | cons c cs ih =>
    intro hx
    obtain ⟨lo, hi, hc⟩ := hx c (by simp)
    rw [leafIdsL, entriesL, entriesOfIds_append,
      ← entriesN_eq_entriesOfIds h hc, ih (fun c' hc' => hx c' (by simp [hc']))]

theorem lookup_append (k : Key) (E1 E2 : List (Key × Val)) :
    lookupAssoc k (E1 ++ E2) =
      match lookupAssoc k E1 with
      | some v => some v
      | none => lookupAssoc k E2 := by
  induction E1 with
  | nil => simp [lookupAssoc]
  | cons q rest ih =>
    obtain ⟨k1, v1⟩ := q
    by_cases h : k = k1 <;> simp [lookupAssoc, h, ih]

/-! Lemmas about the leaf chain. -/

theorem links_append {A : Arena} {xs ys : List Nat} {e : Option Nat} :
    Links A (xs ++ ys) e ↔
      Links A xs (match ys with | [] => e | y :: _ => some y) ∧ Links A ys e := by
  induction xs with
  | nil =>
    cases ys <;> simp [Links]
  | cons x xs ih =>
    cases xs with
    | nil =>
      cases ys with
      | nil => simp [Links]
      | cons y ys' => simp [Links]
    | cons x2 xs' =>
      constructor
      · rintro ⟨hx, hrest⟩
        have h2 := ih.mp hrest
        exact ⟨⟨hx, h2.1⟩, h2.2⟩
      · rintro ⟨⟨hx, h1⟩, h2⟩
        exact ⟨hx, ih.mpr ⟨h1, h2⟩⟩

theorem links_congr {A A' : Arena} {ids : List Nat} {e : Option Nat}
    (h : ∀ i ∈ ids, A'.get? i = A.get? i) (hl : Links A ids e) :
    Links A' ids e := by
  induction ids with
  | nil => trivial
  | cons i ids ih =>
    cases ids with
    | nil =>
      obtain ⟨l, hget, hnext⟩ := hl
      exact ⟨l, by rw [h i (by simp)]; exact hget, hnext⟩
    | cons j rest =>
      obtain ⟨⟨l, hget, hnext⟩, hrest⟩ := hl
      exact ⟨⟨l, by rw [h i (by simp)]; exact hget, hnext⟩,
        ih (fun i' hi' => h i' (by simp [hi'])) hrest⟩

theorem links_suffix {A : Arena} {xs ys : List Nat} {e : Option Nat}
    (h : Links A (xs ++ ys) e) : Links A ys e :=
  (links_append.mp h).2

end BT
namespace BT

theorem findLeafF_spec {mk : Nat} {A : Arena} :
    ∀ (h : Nat) {lo hi : Option Key} {n : NodeS}, Good mk A h lo hi n →
    ∀ (x : Key), lbOk lo x → ltHi hi x → ∀ fuel, h < fuel →
    ∃ id l pre post,
      findLeafF x fuel n = some id ∧
      A.get? id = some l ∧
      l.keys.Sorted (· < ·) ∧
      l.vals.length = l.keys.length ∧
      leafIdsN n = pre ++ id :: post ∧
      (∀ p ∈ entriesOfIds A pre, p.1 < x) ∧
      (∀ p ∈ entriesOfIds A post, x < p.1) := by
  intro h
  induction h with
  | zero =>
    intro lo hi n hg x hx1 hx2 fuel hf
    obtain ⟨id, l, rfl, hget, _, _, hlen, hsort, hb⟩ := hg
    cases fuel with
    | zero => omega
    | succ f =>
      exact ⟨id, l, [], [], by rw [findLeafF], hget, hsort, hlen,
        by rw [leafIdsN]; rfl, by simp [entriesOfIds], by simp [entriesOfIds]⟩
  | succ h ih =>
    intro lo hi n hg x hx1 hx2 fuel hf
    obtain ⟨ks, cs, rfl, hl1, hl2, hseq⟩ := hg
    cases fuel with
    | zero => omega
    | succ f =>
      obtain ⟨lo', hi', c, hget, hcg, hb1, hb2, hpre, hpost, _, _⟩ :=
        Seq_focus (entriesN A) Prod.fst
          (fun lo1 hi1 c1 hc1 => Good_entries_bounds h hc1) hseq x hx1 hx2
      obtain ⟨id, l, pre', post', hfind, hgetl, hsort, hlen, hids, hpre', hpost'⟩ :=
        ih hcg x hb1 hb2 f (by omega)
      refine ⟨id, l, leafIdsL (cs.take (childIndex ks x)) ++ pre',
        post' ++ leafIdsL (cs.drop (childIndex ks x + 1)), ?_, hgetl, hsort, hlen,
        ?_, ?_, ?_⟩
      · rw [findLeafF, hget]
        exact hfind
      · rw [leafIdsN]
        conv_lhs => rw [get?_decomp hget]
        rw [leafIdsL_append]
        rw [show leafIdsL (c :: cs.drop (childIndex ks x + 1)) =
            leafIdsN c ++ leafIdsL (cs.drop (childIndex ks x + 1)) by rw [leafIdsL]]
        rw [hids]
        simp
      · intro p hp
        rw [entriesOfIds_append] at hp
        rcases List.mem_append.mp hp with hp | hp
        · rw [@entriesOfIds_leafIdsL mk A h _
            (fun c' hc' => Seq_mem hseq (List.mem_of_mem_take hc'))] at hp
          rw [entriesL_eq_join] at hp
          exact hpre p hp
        · exact hpre' p hp
      · intro p hp
        rw [entriesOfIds_append] at hp
        rcases List.mem_append.mp hp with hp | hp
        · exact hpost' p hp
        · rw [@entriesOfIds_leafIdsL mk A h _
            (fun c' hc' => Seq_mem hseq (List.mem_of_mem_drop hc'))] at hp
          rw [entriesL_eq_join] at hp
          exact hpost p hp

end BT
namespace BT

/-! Helper facts for the leaf split. -/

theorem sorted_le_getLastD {l : List Key} (hs : l.Sorted (· < ·)) :
    ∀ d, ∀ x ∈ l, x ≤ l.getLastD d := by
  induction l with
  | nil => simp
  | cons a l ih =>
    intro d x hx
    rw [List.sorted_cons] at hs
    rw [List.getLastD_cons]
    rcases List.mem_cons.mp hx with h | h
    · subst h
      cases l with
      | nil => simp [List.getLastD]
      | cons b l2 =>
        have hb : b ≤ (b :: l2).getLastD x := ih hs.2 x b (by simp)
        have hab : x < b := hs.1 b (by simp)
        calc x ≤ b := le_of_lt hab
        _ ≤ (b :: l2).getLastD x := hb
    · exact ih hs.2 a x h

theorem sorted_headD_le {l : List Key} (hs : l.Sorted (· < ·)) :
    ∀ d, ∀ x ∈ l, l.headD d ≤ x := by
  cases l with
  | nil => simp
  | cons a l =>
    intro d x hx
    rw [List.sorted_cons] at hs
    rcases List.mem_cons.mp hx with h | h
    · subst h; simp
    · simpa using le_of_lt (hs.1 x h)

theorem zip_take_drop (m : Nat) {keys : List Key} {vals : List Val}
    (hlen : vals.length = keys.length) :
    keys.zip vals =
      (keys.take m).zip (vals.take m) ++ (keys.drop m).zip (vals.drop m) := by
  induction m generalizing keys vals with
  | zero => simp
  | succ m ih =>
    cases keys with
    | nil => simp
    | cons x xs =>
      cases vals with
      | nil => simp at hlen
      | cons y ys =>
        simp only [List.length_cons, Nat.succ.injEq] at hlen
        simp only [List.zip_cons_cons, List.take_succ_cons, List.drop_succ_cons,
          List.cons_append]
        rw [← ih hlen]

theorem take_lt_drop {keys : List Key} (hs : keys.Sorted (· < ·)) (m : Nat) :
    ∀ p ∈ keys.take m, ∀ q ∈ keys.drop m, p < q := by
  have h2 : List.Pairwise (· < ·) (keys.take m ++ keys.drop m) := by
    rwa [List.take_append_drop]
  exact (List.pairwise_append.mp h2).2.2

end BT
namespace BT

theorem getLastD_mem {l : List Key} (h : l ≠ []) (d : Key) : l.getLastD d ∈ l := by
  induction l generalizing d with
  | nil => exact absurd rfl h
  | cons a l ih =>
    rw [List.getLastD_cons]
    cases l with
    | nil => simp [List.getLastD]
    | cons b l2 => exact List.mem_cons_of_mem _ (ih (by simp) a)

theorem head_or_append {α : Type} (xs ys : List α) :
    (xs ++ ys).head? = xs.head?.or ys.head? := by
  cases xs <;> rfl

theorem links_append_or {A : Arena} {xs ys : List Nat} {e : Option Nat} :
    Links A (xs ++ ys) e ↔ Links A xs (ys.head?.or e) ∧ Links A ys e := by
  cases ys with
  | nil => exact links_append
  | cons y t => exact links_append

theorem head_glue {pre mid post new : List Nat}
    (hh : new.head? = mid.head?) :
    (pre ++ (new ++ post)).head? = (pre ++ (mid ++ post)).head? := by
  rw [head_or_append, head_or_append, head_or_append, head_or_append, hh]

theorem nodup_glue {pre mid post new : List Nat} {b b2 : Nat}
    (h0 : (pre ++ (mid ++ post)).Nodup) (hnew : new.Nodup)
    (hmem : ∀ i ∈ new, i ∈ mid ∨ (b ≤ i ∧ i < b2))
    (hpre : ∀ i ∈ pre, i < b) (hpost : ∀ i ∈ post, i < b) :
    (pre ++ (new ++ post)).Nodup := by
  rw [List.nodup_append] at h0
  obtain ⟨h1, h2, h3⟩ := h0
  rw [List.nodup_append] at h2
  obtain ⟨h4, h5, h6⟩ := h2
  rw [List.nodup_append]
  refine ⟨h1, ?_, ?_⟩
  · rw [List.nodup_append]
    refine ⟨hnew, h5, ?_⟩
    intro a ha hb
    rcases hmem a ha with h7 | h7
    · exact h6 h7 hb
    · exact absurd (hpost a hb) (by omega)
  · intro a ha hb
    rcases List.mem_append.mp hb with h7 | h7
    · rcases hmem a h7 with h8 | h8
      · exact h3 ha (List.mem_append_left _ h8)
      · exact absurd (hpre a ha) (by omega)
    · exact h3 ha (List.mem_append_right _ h7)

theorem mem_glue {pre mid post new : List Nat} {b b2 : Nat}
    (hmem : ∀ i ∈ new, i ∈ mid ∨ (b ≤ i ∧ i < b2)) :
    ∀ i ∈ pre ++ (new ++ post), i ∈ pre ++ (mid ++ post) ∨ (b ≤ i ∧ i < b2) := by
  intro i hi2
  rcases List.mem_append.mp hi2 with h2 | h2
  · exact Or.inl (List.mem_append_left _ h2)
  · rcases List.mem_append.mp h2 with h3 | h3
    · rcases hmem i h3 with h4 | h4
      · exact Or.inl (List.mem_append_right _ (List.mem_append_left _ h4))
      · exact Or.inr h4
    · exact Or.inl (List.mem_append_right _ (List.mem_append_right _ h3))

theorem links_glue {A A2 : Arena} {pre mid post new : List Nat} {e : Option Nat}
    (hfr : ∀ i, (i ∈ pre ∨ i ∈ post) → A2.get? i = A.get? i)
    (hh : new.head? = mid.head?)
    (hlk : ∀ e2, Links A mid e2 → Links A2 new e2)
    (h0 : Links A (pre ++ (mid ++ post)) e) :
    Links A2 (pre ++ (new ++ post)) e := by
  obtain ⟨h1, h2⟩ := links_append_or.mp h0
  obtain ⟨h3, h4⟩ := links_append_or.mp h2
  refine links_append_or.mpr ⟨?_, links_append_or.mpr
    ⟨hlk _ h3, links_congr (fun i hi2 => hfr i (Or.inr hi2)) h4⟩⟩
  have hhh : (new ++ post).head? = (mid ++ post).head? := by
    rw [head_or_append, head_or_append, hh]
  rw [hhh]
  exact links_congr (fun i hi2 => hfr i (Or.inl hi2)) h1

theorem mem_leafIdsL {c : NodeS} {l : List NodeS} (hc : c ∈ l) {i : Nat}
    (hi : i ∈ leafIdsN c) : i ∈ leafIdsL l := by
  rw [leafIdsL_eq_join]
  exact List.mem_join.mpr ⟨leafIdsN c, List.mem_map.mpr ⟨c, hc, rfl⟩, hi⟩

theorem childIndex_le_length (keys : List Key) (k : Key) :
    childIndex keys k ≤ keys.length :=
  (List.takeWhile_sublist _).length_le

theorem set_decomp {α : Type} {l : List α} {n : Nat} (h : n < l.length) (a : α) :
    l.set n a = l.take n ++ a :: l.drop (n + 1) := by
  induction l generalizing n with
  | nil => simp at h
  | cons x xs ih =>
    cases n with
    | zero => simp
    | succ m =>
      simp only [List.length_cons, Nat.succ_lt_succ_iff] at h
      rw [List.set_cons_succ, ih h, List.take_succ_cons, List.drop_succ_cons,
        List.cons_append]

theorem insertIdx_after_set {α : Type} {l : List α} {n : Nat} (h : n < l.length)
    (a b : α) :
    (l.set n a).insertIdx (n + 1) b = l.take n ++ a :: b :: l.drop (n + 1) := by
  induction l generalizing n with
  | nil => simp at h
  | cons x xs ih =>
    cases n with
    | zero =>
      rw [List.set_cons_zero, List.insertIdx_succ_cons, List.insertIdx_zero]
      simp
    | succ m =>
      simp only [List.length_cons, Nat.succ_lt_succ_iff] at h
      rw [List.set_cons_succ, List.insertIdx_succ_cons, ih h, List.take_succ_cons,
        List.drop_succ_cons, List.cons_append]

theorem insertHelperF_spec {mk : Nat} {A : Arena} :
    ∀ (h : Nat) {lo hi : Option Key} {n : NodeS}, Good mk A h lo hi n →
    ∀ (k : Key) (v : Val), lbOk lo k → ltHi hi k → 2 ≤ mk →
    (leafIdsN n).Nodup →
    ∀ fuel, h < fuel →
    InsPost mk A h lo hi n k v (insertHelperF k v fuel n A) := by
  intro h
  induction h with
  | zero =>
    intro lo hi n hg k v hk1 hk2 hmk hnd fuel hf
    obtain ⟨id, l, rfl, hget, hmax, hle, hlen, hsort, hb⟩ := hg
    have hid : id < A.length := (List.get?_eq_some.mp hget).1
    cases fuel with
    | zero => omega
    | succ f =>
      rw [show insertHelperF k v (f + 1) (NodeS.leafRef id) A =
          (match A.get? id with
           | none => (k, none, NodeS.leafRef id, A)
           | some l =>
             let r := insertValue l k v
             if r.1 then (k, none, NodeS.leafRef id, A.set id r.2)
             else
               let newId := A.length
               let pr := leafSplit l newId
               let lastLeft := pr.1.keys.getLastD k
               if k ≤ lastLeft then
                 let r2 := insertValue pr.1 k v
                 ((pr.2.keys.headD 0), some (NodeS.leafRef newId), NodeS.leafRef id,
                   (A.set id r2.2) ++ [pr.2])
               else
                 let r2 := insertValue pr.2 k v
                 ((r2.2.keys.headD 0), some (NodeS.leafRef newId), NodeS.leafRef id,
                   (A.set id pr.1) ++ [r2.2])) from rfl]
      rw [hget]
      simp only []
      by_cases hmem : k ∈ l.keys
      · -- update in place
        obtain ⟨hb1, hb2, hb3, hb4, hb5, hb6⟩ := insertValue_mem (v := v) hsort hlen hmem
        rw [if_pos hb1]
        set l' := (insertValue l k v).2 with hl'
        have hget' : (A.set id l').get? id = some l' := by
          rw [List.get?_set_eq]
          rw [hget]
          rfl
        refine ⟨by simp, ?_, by simp [sibIds, leafIdsN], ?_, by simp [sibIds], ?_, ?_⟩
        · intro i hi1 hi2
          rw [leafIdsN] at hi2
          simp at hi2
          rw [List.get?_set_ne _ _ (by omega)]
        · intro i hi1
          simp [sibIds, leafIdsN] at hi1
          subst hi1
          left
          simp [leafIdsN]
        · intro e hlk
          rw [leafIdsN] at hlk ⊢
          simp only [sibIds, List.append_nil]
          obtain ⟨l0, hl0, hnext⟩ := hlk
          rw [hget] at hl0
          cases hl0
          exact ⟨l', hget', by rw [hb3]; exact hnext⟩
        · show Good mk (A.set id l') 0 lo hi (NodeS.leafRef id) ∧
            entriesN (A.set id l') (NodeS.leafRef id) =
              insertAssoc k v (entriesN A (NodeS.leafRef id))
          constructor
          · exact ⟨id, l', rfl, hget', by rw [hb2, hmax], by rw [hb4]; omega,
              by rw [hb5, hb4, hlen], by rw [hb4]; exact hsort,
              fun k2 hk2' => hb k2 (hb4 ▸ hk2')⟩
          · simp only [entriesN, hget', hget]
            exact hb6
      · by_cases hroom : l.keys.length < l.maxKeys
        · -- room: sorted insert into this leaf
          obtain ⟨hb1, hb2, hb3, hb4, hb5, hb6, hb7⟩ :=
            insertValue_new (v := v) hsort hlen hmem hroom
          rw [if_pos hb1]
          set l' := (insertValue l k v).2 with hl'
          have hget' : (A.set id l').get? id = some l' := by
            rw [List.get?_set_eq]
            rw [hget]
            rfl
          have hkeys' : l'.keys = ((l'.keys.zip l'.vals).map Prod.fst) := by
            rw [List.map_fst_zip]
            omega
          refine ⟨by simp, ?_, by simp [sibIds, leafIdsN], ?_, by simp [sibIds], ?_, ?_⟩
          · intro i hi1 hi2
            rw [leafIdsN] at hi2
            simp at hi2
            rw [List.get?_set_ne _ _ (by omega)]
          · intro i hi1
            simp [sibIds, leafIdsN] at hi1
            subst hi1
            left
            simp [leafIdsN]
          · intro e hlk
            rw [leafIdsN] at hlk ⊢
            simp only [sibIds, List.append_nil]
            obtain ⟨l0, hl0, hnext⟩ := hlk
            rw [hget] at hl0
            cases hl0
            exact ⟨l', hget', by rw [hb3]; exact hnext⟩
          · show Good mk (A.set id l') 0 lo hi (NodeS.leafRef id) ∧
              entriesN (A.set id l') (NodeS.leafRef id) =
                insertAssoc k v (entriesN A (NodeS.leafRef id))
            constructor
            · refine ⟨id, l', rfl, hget', by rw [hb2, hmax], by omega,
                hb5, hb6, ?_⟩
              intro k2 hk2'
              rw [hkeys', hb7] at hk2'
              rcases mem_keys_insertAssoc.mp hk2' with h2 | h2
              · subst h2; exact ⟨hk1, hk2⟩
              · rw [List.map_fst_zip _ _ (by omega)] at h2
                exact hb k2 h2
            · simp only [entriesN, hget', hget]
              exact hb7
        · -- full leaf: split
          have hfull : l.keys.length = mk := by omega
          have hfeq := insertValue_full (v := v) hsort hmem (by omega)
          rw [hfeq]
          rw [if_neg (by simp : ¬ (((false, l) : Bool × LeafData).1 = true))]
          have hL : (leafSplit l A.length).1 =
              { l with keys := l.keys.take ((l.maxKeys + 1) / 2),
                       vals := l.vals.take ((l.maxKeys + 1) / 2),
                       next := some A.length } := rfl
          have hR : (leafSplit l A.length).2 =
              { maxKeys := l.maxKeys, keys := l.keys.drop ((l.maxKeys + 1) / 2),
                vals := l.vals.drop ((l.maxKeys + 1) / 2), next := l.next } := rfl
          rw [hL, hR]
          simp only []
          rw [hmax]
          set m := (mk + 1) / 2 with hmdef
          set L0 : LeafData := { maxKeys := mk, keys := l.keys.take m, vals := l.vals.take m, next := some A.length } with hL0
          set R0 : LeafData := { maxKeys := mk, keys := l.keys.drop m, vals := l.vals.drop m, next := l.next } with hR0
          have hm1 : 1 ≤ m := by omega
          have hm2 : m < mk := by omega
          have htklen : (l.keys.take m).length = m := by
            rw [List.length_take]
            omega
          have htvlen : (l.vals.take m).length = m := by
            rw [List.length_take]
            omega
          have hdklen : (l.keys.drop m).length = mk - m := by
            rw [List.length_drop, hfull]
          have hdvlen : (l.vals.drop m).length = mk - m := by
            rw [List.length_drop, hlen, hfull]
          have htksorted : (l.keys.take m).Sorted (· < ·) :=
            hsort.sublist (List.take_sublist _ _)
          have hdksorted : (l.keys.drop m).Sorted (· < ·) :=
            hsort.sublist (List.drop_sublist _ _)
          have htknm : k ∉ l.keys.take m := fun hmm => hmem (List.mem_of_mem_take hmm)
          have hdknm : k ∉ l.keys.drop m := fun hmm => hmem (List.mem_of_mem_drop hmm)
          have hcross := take_lt_drop hsort m
          have htkne : l.keys.take m ≠ [] := by
            intro hh
            rw [hh] at htklen
            simp at htklen
            omega
          have hdkne : l.keys.drop m ≠ [] := by
            intro hh
            rw [hh] at hdklen
            simp at hdklen
            omega
          have hzsplit : l.keys.zip l.vals =
              (l.keys.take m).zip (l.vals.take m) ++ (l.keys.drop m).zip (l.vals.drop m) :=
            zip_take_drop m hlen
          have hL0keys : L0.keys = l.keys.take m := rfl
          have hL0vals : L0.vals = l.vals.take m := rfl
          have hL0max : L0.maxKeys = mk := rfl
          have hL0next : L0.next = some A.length := rfl
          have hR0keys : R0.keys = l.keys.drop m := rfl
          set lastLeft := L0.keys.getLastD k with hlldef
          have hllmem : lastLeft ∈ l.keys.take m := by
            rw [hlldef, hL0keys]
            exact getLastD_mem htkne k
          have hlltop : ∀ x ∈ l.keys.take m, x ≤ lastLeft := by
            rw [hlldef, hL0keys]
            exact fun x hx => sorted_le_getLastD htksorted k x hx
          obtain ⟨km, rest, hdk⟩ : ∃ km rest, l.keys.drop m = km :: rest := by
            cases hcase : l.keys.drop m with
            | nil => exact absurd hcase hdkne
            | cons a b => exact ⟨a, b, rfl⟩
          have hpk : R0.keys.headD 0 = km := by rw [hR0keys, hdk]; rfl
          have hkmmem : km ∈ l.keys.drop m := by rw [hdk]; simp
          have hkmord : lbOk lo km ∧ ltHi hi km := hb km (List.mem_of_mem_drop hkmmem)
          have hllk : lastLeft ∈ l.keys := List.mem_of_mem_take hllmem
          have hllkm : lastLeft < km := hcross lastLeft hllmem km hkmmem
          have hlokm : ltLo lo km := ltLo_of_le_lt (hb lastLeft hllk).1 hllkm
          have hkmle : ∀ x ∈ l.keys.drop m, km ≤ x := by
            intro x hx
            have := sorted_headD_le hdksorted 0 x hx
            rwa [← hR0keys, hpk] at this
          by_cases hkll : k ≤ lastLeft
          · -- new pair goes into the left half
            rw [if_pos hkll]
            obtain ⟨hc1, hc2, hc3, hc4, hc5, hc6, hc7⟩ :=
              insertValue_new (l := L0) (v := v)
                (by rw [hL0keys]; exact htksorted)
                (by rw [hL0keys, hL0vals, htklen, htvlen])
                (by rw [hL0keys]; exact htknm)
                (by rw [hL0keys, hL0max, htklen]; exact hm2)
            set l2 := (insertValue L0 k v).2 with hl2def
            have hkkm : k < km := lt_of_le_of_lt hkll hllkm
            have hsetlen : (A.set id l2).length = A.length := by simp
            have hgetid : ((A.set id l2) ++ [R0]).get? id = some l2 := by
              rw [List.get?_append (by omega)]
              rw [List.get?_set_eq, hget]
              rfl
            have hgetnew : ((A.set id l2) ++ [R0]).get? A.length = some R0 := by
              have h0 := List.get?_concat_length (A.set id l2) R0
              rw [hsetlen] at h0
              exact h0
            have hl2keysmem : ∀ x ∈ l2.keys, x = k ∨ x ∈ l.keys.take m := by
              intro x hx
              have hxk : l2.keys = (l2.keys.zip l2.vals).map Prod.fst := by
                rw [List.map_fst_zip]
                omega
              rw [hxk, hc7] at hx
              rcases mem_keys_insertAssoc.mp hx with h2 | h2
              · exact Or.inl h2
              · rw [hL0keys, hL0vals, List.map_fst_zip _ _ (by rw [htklen, htvlen])] at h2
                exact Or.inr h2
            refine ⟨by simp, ?_, ?_, ?_, by simp [sibIds, leafIdsN], ?_, ?_⟩
            · intro i hi1 hi2
              rw [leafIdsN] at hi2
              simp at hi2
              rw [List.get?_append (by omega), List.get?_set_ne _ _ (by omega)]
            · simp [sibIds, leafIdsN]
              omega
            · intro i hi1
              simp [sibIds, leafIdsN] at hi1
              rcases hi1 with h2 | h2
              · subst h2; left; simp [leafIdsN]
              · subst h2
                right
                refine ⟨by omega, by simp⟩
            · intro e hlk
              rw [leafIdsN] at hlk
              obtain ⟨l0, hl0, hnext⟩ := hlk
              rw [hget] at hl0
              cases hl0
              show Links (A.set id l2 ++ [R0])
                (leafIdsN (NodeS.leafRef id) ++ sibIds (some (NodeS.leafRef A.length))) e
              rw [show leafIdsN (NodeS.leafRef id) = [id] by rw [leafIdsN],
                show sibIds (some (NodeS.leafRef A.length)) = [A.length] by
                  rw [sibIds, leafIdsN]]
              exact ⟨⟨l2, hgetid, by rw [hc3, hL0next]⟩, ⟨R0, hgetnew, hnext⟩⟩
            · show Good mk _ 0 lo (some (R0.keys.headD 0)) (NodeS.leafRef id) ∧
                Good mk _ 0 (some (R0.keys.headD 0)) hi (NodeS.leafRef A.length) ∧
                ltLo lo (R0.keys.headD 0) ∧ ltHi hi (R0.keys.headD 0) ∧
                entriesN _ (NodeS.leafRef id) ++ entriesN _ (NodeS.leafRef A.length) =
                  insertAssoc k v (entriesN A (NodeS.leafRef id))
              rw [hpk]
              refine ⟨?_, ?_, hlokm, hkmord.2, ?_⟩
              · refine ⟨id, l2, rfl, hgetid, by rw [hc2, hL0max],
                  by rw [hc4, hL0keys, htklen]; omega, hc5, hc6, ?_⟩
                intro x hx
                rcases hl2keysmem x hx with h2 | h2
                · subst h2; exact ⟨hk1, hkkm⟩
                · exact ⟨(hb x (List.mem_of_mem_take h2)).1, hcross x h2 km hkmmem⟩
              · refine ⟨A.length, R0, rfl, hgetnew, rfl,
                  by rw [hR0keys, hdklen]; exact Nat.sub_le mk m,
                  by show (l.vals.drop m).length = (l.keys.drop m).length
                     rw [hdvlen, hdklen],
                  by rw [hR0keys]; exact hdksorted, ?_⟩
                intro x hx
                rw [hR0keys] at hx
                exact ⟨hkmle x hx, (hb x (List.mem_of_mem_drop hx)).2⟩
              · have hent1 : entriesN ((A.set id l2) ++ [R0]) (NodeS.leafRef id) =
                    l2.keys.zip l2.vals := by
                  rw [entriesN, hgetid]
                have hent2 : entriesN ((A.set id l2) ++ [R0]) (NodeS.leafRef A.length) =
                    R0.keys.zip R0.vals := by
                  rw [entriesN, hgetnew]
                rw [hent1, hent2]
                simp only [entriesN, hget]
                rw [hc7, hL0keys, hL0vals]
                have hover : ∀ p ∈ (l.keys.drop m).zip (l.vals.drop m), k < p.1 := by
                  intro p hp
                  obtain ⟨p1, p2⟩ := p
                  have := (List.of_mem_zip hp).1
                  exact lt_of_le_of_lt hkll (hcross lastLeft hllmem p1 this)
                have hfin : R0.keys.zip R0.vals = (l.keys.drop m).zip (l.vals.drop m) := rfl
                rw [hfin, hzsplit, insertAssoc_append_right hover]
          · -- new pair goes into the right half
            rw [if_neg hkll]
            have hllk2 : lastLeft < k := not_le.mp hkll
            obtain ⟨hc1, hc2, hc3, hc4, hc5, hc6, hc7⟩ :=
              insertValue_new (l := R0) (v := v)
                (by rw [hR0keys]; exact hdksorted)
                (by show (l.vals.drop m).length = (l.keys.drop m).length
                    rw [hdvlen, hdklen])
                (by rw [hR0keys]; exact hdknm)
                (by show (l.keys.drop m).length < mk
                    rw [hdklen]; omega)
            set r2 := (insertValue R0 k v).2 with hr2def
            have hsetlen : (A.set id L0).length = A.length := by simp
            have hgetid : ((A.set id L0) ++ [r2]).get? id = some L0 := by
              rw [List.get?_append (by omega)]
              rw [List.get?_set_eq, hget]
              rfl
            have hgetnew : ((A.set id L0) ++ [r2]).get? A.length = some r2 := by
              have h0 := List.get?_concat_length (A.set id L0) r2
              rw [hsetlen] at h0
              exact h0
            have hr2ne : r2.keys ≠ [] := by
              intro hh
              rw [hh] at hc4
              simp at hc4
            have hr2keysmem : ∀ x ∈ r2.keys, x = k ∨ x ∈ l.keys.drop m := by
              intro x hx
              have hxk : r2.keys = (r2.keys.zip r2.vals).map Prod.fst := by
                rw [List.map_fst_zip]
                omega
              rw [hxk, hc7] at hx
              rcases mem_keys_insertAssoc.mp hx with h2 | h2
              · exact Or.inl h2
              · rw [hR0keys, show R0.vals = l.vals.drop m from rfl,
                  List.map_fst_zip _ _ (by rw [hdklen, hdvlen])] at h2
                exact Or.inr h2
            set pk := r2.keys.headD 0 with hpkdef
            have hpkmem : pk ∈ r2.keys := by
              cases hcase : r2.keys with
              | nil => exact absurd hcase hr2ne
              | cons a t => rw [hpkdef, hcase]; simp
            have hleftpk : ∀ x ∈ l.keys.take m, x < pk := by
              intro x hx
              rcases hr2keysmem pk hpkmem with h2 | h2
              · rw [h2]
                exact lt_of_le_of_lt (hlltop x hx) hllk2
              · exact hcross x hx pk h2
            refine ⟨by simp, ?_, ?_, ?_, by simp [sibIds, leafIdsN], ?_, ?_⟩
            · intro i hi1 hi2
              rw [leafIdsN] at hi2
              simp at hi2
              rw [List.get?_append (by omega), List.get?_set_ne _ _ (by omega)]
            · simp [sibIds, leafIdsN]
              omega
            · intro i hi1
              simp [sibIds, leafIdsN] at hi1
              rcases hi1 with h2 | h2
              · subst h2; left; simp [leafIdsN]
              · subst h2
                right
                refine ⟨by omega, by simp⟩
            · intro e hlk
              rw [leafIdsN] at hlk
              obtain ⟨l0, hl0, hnext⟩ := hlk
              rw [hget] at hl0
              cases hl0
              show Links (A.set id L0 ++ [r2])
                (leafIdsN (NodeS.leafRef id) ++ sibIds (some (NodeS.leafRef A.length))) e
              rw [show leafIdsN (NodeS.leafRef id) = [id] by rw [leafIdsN],
                show sibIds (some (NodeS.leafRef A.length)) = [A.length] by
                  rw [sibIds, leafIdsN]]
              refine ⟨⟨L0, hgetid, hL0next⟩, ⟨r2, hgetnew, ?_⟩⟩
              rw [hc3]
              exact hnext
            · show Good mk _ 0 lo (some pk) (NodeS.leafRef id) ∧
                Good mk _ 0 (some pk) hi (NodeS.leafRef A.length) ∧
                ltLo lo pk ∧ ltHi hi pk ∧
                entriesN _ (NodeS.leafRef id) ++ entriesN _ (NodeS.leafRef A.length) =
                  insertAssoc k v (entriesN A (NodeS.leafRef id))
              have hpkhi : ltHi hi pk := by
                rcases hr2keysmem pk hpkmem with h2 | h2
                · rw [h2]; exact hk2
                · exact (hb pk (List.mem_of_mem_drop h2)).2
              have hpklo : ltLo lo pk :=
                ltLo_of_le_lt (hb lastLeft hllk).1 (hleftpk lastLeft hllmem)
              refine ⟨?_, ?_, hpklo, hpkhi, ?_⟩
              · refine ⟨id, L0, rfl, hgetid, hL0max,
                  by rw [hL0keys, htklen]; omega,
                  by rw [hL0keys, hL0vals, htklen, htvlen],
                  by rw [hL0keys]; exact htksorted, ?_⟩
                intro x hx
                rw [hL0keys] at hx
                exact ⟨(hb x (List.mem_of_mem_take hx)).1, hleftpk x hx⟩
              · refine ⟨A.length, r2, rfl, hgetnew, by rw [hc2],
                  by rw [hc4, hR0keys, hdklen]; omega, hc5, hc6, ?_⟩
                intro x hx
                refine ⟨sorted_headD_le hc6 0 x hx, ?_⟩
                rcases hr2keysmem x hx with h2 | h2
                · rw [h2]; exact hk2
                · exact (hb x (List.mem_of_mem_drop h2)).2
              · have hent1 : entriesN ((A.set id L0) ++ [r2]) (NodeS.leafRef id) =
                    L0.keys.zip L0.vals := by
                  rw [entriesN, hgetid]
                have hent2 : entriesN ((A.set id L0) ++ [r2]) (NodeS.leafRef A.length) =
                    r2.keys.zip r2.vals := by
                  rw [entriesN, hgetnew]
                rw [hent1, hent2]
                simp only [entriesN, hget]
                rw [hc7]
                have hunder : ∀ p ∈ (l.keys.take m).zip (l.vals.take m), p.1 < k := by
                  intro p hp
                  obtain ⟨p1, p2⟩ := p
                  have := (List.of_mem_zip hp).1
                  exact lt_of_le_of_lt (hlltop p1 this) hllk2
                have hfin : R0.keys.zip R0.vals = (l.keys.drop m).zip (l.vals.drop m) := rfl
                rw [hfin, hzsplit, insertAssoc_append_left hunder]
  | succ h ih =>
    intro lo hi n hg k v hk1 hk2 hmk hnd fuel hf
    obtain ⟨ks, cs, rfl, hks1, hks2, hseq⟩ := hg
    cases fuel with
    | zero => omega
    | succ f =>
      obtain ⟨lo', hi', child, hgetc, hchild, hlok, hhik, hpre, hpost, hrep, hins⟩ :=
        Seq_focus (entriesN A) Prod.fst
          (fun lo1 hi1 c1 hc1 => Good_entries_bounds h hc1) hseq k hk1 hk2
      have hcilt : childIndex ks k < cs.length := (List.get?_eq_some.mp hgetc).1
      have hcile : childIndex ks k ≤ ks.length := childIndex_le_length ks k
      have hdec : cs = cs.take (childIndex ks k) ++
          child :: cs.drop (childIndex ks k + 1) := get?_decomp hgetc
      have hidsdec : leafIdsL cs = leafIdsL (cs.take (childIndex ks k)) ++
          (leafIdsN child ++ leafIdsL (cs.drop (childIndex ks k + 1))) := by
        conv_lhs => rw [hdec]
        rw [leafIdsL_append]
        rw [show leafIdsL (child :: cs.drop (childIndex ks k + 1)) =
            leafIdsN child ++ leafIdsL (cs.drop (childIndex ks k + 1)) from by
          rw [leafIdsL]]
      rw [leafIdsN] at hnd
      rw [hidsdec] at hnd
      have hnd0 := hnd
      rw [List.nodup_append] at hnd0
      obtain ⟨hndpre, hndmp, hdisjpre⟩ := hnd0
      rw [List.nodup_append] at hndmp
      obtain ⟨hndmid, hndpost, hdisjmid⟩ := hndmp
      obtain ⟨ihlen, ihframe, ihnd, ihmem, ihhead, ihlinks, ihmain⟩ :=
        ih hchild k v hlok hhik hmk hndmid f (by omega)
      have hidsLt : ∀ i ∈ leafIdsL (cs.take (childIndex ks k)) ++
          (leafIdsN child ++ leafIdsL (cs.drop (childIndex ks k + 1))),
          i < A.length := by
        intro i hi2
        exact Good_ids_lt (h + 1) ⟨ks, cs, rfl, hks1, hks2, hseq⟩ i
          (by rw [leafIdsN, hidsdec]; exact hi2)
      have hpreLt : ∀ i ∈ leafIdsL (cs.take (childIndex ks k)), i < A.length :=
        fun i hi2 => hidsLt i (List.mem_append_left _ hi2)
      have hpostLt : ∀ i ∈ leafIdsL (cs.drop (childIndex ks k + 1)), i < A.length :=
        fun i hi2 => hidsLt i (List.mem_append_right _ (List.mem_append_right _ hi2))
      have hfrpp : ∀ i, (i ∈ leafIdsL (cs.take (childIndex ks k)) ∨
          i ∈ leafIdsL (cs.drop (childIndex ks k + 1))) →
          (insertHelperF k v f child A).2.2.2.get? i = A.get? i := by
        intro i hi2
        have hlt : i < A.length := by
          rcases hi2 with h2 | h2
          · exact hpreLt i h2
          · exact hpostLt i h2
        have hnm : i ∉ leafIdsN child := by
          rcases hi2 with h2 | h2
          · exact fun hm => hdisjpre h2 (List.mem_append_left _ hm)
          · exact fun hm => hdisjmid hm h2
        exact ihframe i hlt hnm
      have hmono : ∀ lo1 hi1 c1,
          c1 ∈ cs.take (childIndex ks k) ++ cs.drop (childIndex ks k + 1) →
          Good mk A h lo1 hi1 c1 →
          Good mk (insertHelperF k v f child A).2.2.2 h lo1 hi1 c1 := by
        intro lo1 hi1 c1 hm hp
        refine Good_frame h hp ?_
        intro i hi2
        rcases List.mem_append.mp hm with h2 | h2
        · exact hfrpp i (Or.inl (mem_leafIdsL h2 hi2))
        · exact hfrpp i (Or.inr (mem_leafIdsL h2 hi2))
      have hentmono : ∀ c1 ∈ cs.take (childIndex ks k) ++ cs.drop (childIndex ks k + 1),
          entriesN (insertHelperF k v f child A).2.2.2 c1 = entriesN A c1 := by
        intro c1 hm
        have hcs : c1 ∈ cs := by
          rcases List.mem_append.mp hm with h2 | h2
          · exact List.mem_of_mem_take h2
          · exact List.mem_of_mem_drop h2
        obtain ⟨lo1, hi1, hp⟩ := Seq_mem hseq hcs
        refine entriesN_frame h hp ?_
        intro i hi2
        rcases List.mem_append.mp hm with h2 | h2
        · exact hfrpp i (Or.inl (mem_leafIdsL h2 hi2))
        · exact hfrpp i (Or.inr (mem_leafIdsL h2 hi2))
      have hpreE : entriesL (insertHelperF k v f child A).2.2.2
          (cs.take (childIndex ks k)) = entriesL A (cs.take (childIndex ks k)) :=
        entriesL_congr (fun c1 hc1 => hentmono c1 (List.mem_append_left _ hc1))
      have hpostE : entriesL (insertHelperF k v f child A).2.2.2
          (cs.drop (childIndex ks k + 1)) =
          entriesL A (cs.drop (childIndex ks k + 1)) :=
        entriesL_congr (fun c1 hc1 => hentmono c1 (List.mem_append_right _ hc1))
      have hpre2 : ∀ p ∈ entriesL A (cs.take (childIndex ks k)), p.1 < k := by
        intro p hp2
        rw [entriesL_eq_join] at hp2
        exact hpre p hp2
      have hpost2 : ∀ p ∈ entriesL A (cs.drop (childIndex ks k + 1)), k < p.1 := by
        intro p hp2
        rw [entriesL_eq_join] at hp2
        exact hpost p hp2
      have hrhs : insertAssoc k v (entriesN A (NodeS.internal mk ks cs)) =
          entriesL A (cs.take (childIndex ks k)) ++
            (insertAssoc k v (entriesN A child) ++
              entriesL A (cs.drop (childIndex ks k + 1))) := by
        rw [show entriesN A (NodeS.internal mk ks cs) = entriesL A cs from by
          rw [entriesN]]
        conv_lhs => rw [hdec]
        rw [entriesL_append]
        rw [show entriesL A (child :: cs.drop (childIndex ks k + 1)) =
            entriesN A child ++ entriesL A (cs.drop (childIndex ks k + 1)) from by
          rw [entriesL]]
        rw [insertAssoc_append_left hpre2, insertAssoc_append_right hpost2]
      have hndG : (leafIdsL (cs.take (childIndex ks k)) ++
          ((leafIdsN (insertHelperF k v f child A).2.2.1 ++
            sibIds (insertHelperF k v f child A).2.1) ++
            leafIdsL (cs.drop (childIndex ks k + 1)))).Nodup :=
        nodup_glue hnd ihnd ihmem hpreLt hpostLt
      have hmemG := @mem_glue (leafIdsL (cs.take (childIndex ks k))) _
        (leafIdsL (cs.drop (childIndex ks k + 1))) _ _ _ ihmem
      have hheadG : (leafIdsL (cs.take (childIndex ks k)) ++
          ((leafIdsN (insertHelperF k v f child A).2.2.1 ++
            sibIds (insertHelperF k v f child A).2.1) ++
            leafIdsL (cs.drop (childIndex ks k + 1)))).head? =
          (leafIdsN (NodeS.internal mk ks cs)).head? := by
        rw [leafIdsN, hidsdec]
        exact head_glue ihhead
      have hlinksG : ∀ e, Links A (leafIdsN (NodeS.internal mk ks cs)) e →
          Links (insertHelperF k v f child A).2.2.2
            (leafIdsL (cs.take (childIndex ks k)) ++
              ((leafIdsN (insertHelperF k v f child A).2.2.1 ++
                sibIds (insertHelperF k v f child A).2.1) ++
                leafIdsL (cs.drop (childIndex ks k + 1)))) e := by
        intro e h0
        rw [leafIdsN, hidsdec] at h0
        exact links_glue hfrpp ihhead ihlinks h0
      have hframeG : ∀ i, i < A.length → i ∉ leafIdsN (NodeS.internal mk ks cs) →
          (insertHelperF k v f child A).2.2.2.get? i = A.get? i := by
        intro i h1 h2
        refine ihframe i h1 ?_
        intro hm
        refine h2 ?_
        rw [leafIdsN, hidsdec]
        exact List.mem_append_right _ (List.mem_append_left _ hm)
      rw [show insertHelperF k v (f + 1) (NodeS.internal mk ks cs) A =
          (match cs.get? (childIndex ks k) with
           | none => (k, none, NodeS.internal mk ks cs, A)
           | some child =>
             match (insertHelperF k v f child A).2.1 with
             | none => (k, none,
                 NodeS.internal mk ks
                   (cs.set (childIndex ks k) (insertHelperF k v f child A).2.2.1),
                 (insertHelperF k v f child A).2.2.2)
             | some sib =>
               if ks.length < mk then
                 (k, none,
                   NodeS.internal mk
                     (insertChildAt ks
                       (cs.set (childIndex ks k) (insertHelperF k v f child A).2.2.1)
                       (childIndex ks k) (insertHelperF k v f child A).1 sib).1
                     (insertChildAt ks
                       (cs.set (childIndex ks k) (insertHelperF k v f child A).2.2.1)
                       (childIndex ks k) (insertHelperF k v f child A).1 sib).2,
                   (insertHelperF k v f child A).2.2.2)
               else
                 ((internalOverflow mk ks
                     (cs.set (childIndex ks k) (insertHelperF k v f child A).2.2.1)
                     (childIndex ks k) (insertHelperF k v f child A).1 sib).1,
                   some (internalOverflow mk ks
                     (cs.set (childIndex ks k) (insertHelperF k v f child A).2.2.1)
                     (childIndex ks k) (insertHelperF k v f child A).1 sib).2.2,
                   (internalOverflow mk ks
                     (cs.set (childIndex ks k) (insertHelperF k v f child A).2.2.1)
                     (childIndex ks k) (insertHelperF k v f child A).1 sib).2.1,
                   (insertHelperF k v f child A).2.2.2)) from rfl]
      rw [hgetc]
      simp only []
      have hsetdec : cs.set (childIndex ks k) (insertHelperF k v f child A).2.2.1 =
          cs.take (childIndex ks k) ++ (insertHelperF k v f child A).2.2.1 ::
            cs.drop (childIndex ks k + 1) := set_decomp hcilt _
      cases hres1 : (insertHelperF k v f child A).2.1 with
      | none =>
        simp only []
        rw [hres1] at hndG hheadG hlinksG ihmain
        have hidseq : leafIdsL (cs.set (childIndex ks k)
            (insertHelperF k v f child A).2.2.1) =
            leafIdsL (cs.take (childIndex ks k)) ++
              (leafIdsN (insertHelperF k v f child A).2.2.1 ++
                leafIdsL (cs.drop (childIndex ks k + 1))) := by
          rw [hsetdec, leafIdsL_append]
          rw [show leafIdsL ((insertHelperF k v f child A).2.2.1 ::
              cs.drop (childIndex ks k + 1)) =
              leafIdsN (insertHelperF k v f child A).2.2.1 ++
                leafIdsL (cs.drop (childIndex ks k + 1)) from by rw [leafIdsL]]
        have hshape : leafIdsN (NodeS.internal mk ks
            (cs.set (childIndex ks k) (insertHelperF k v f child A).2.2.1)) ++
            sibIds (none : Option NodeS) =
            leafIdsL (cs.take (childIndex ks k)) ++
              ((leafIdsN (insertHelperF k v f child A).2.2.1 ++
                sibIds (none : Option NodeS)) ++
                leafIdsL (cs.drop (childIndex ks k + 1))) := by
          rw [show sibIds (none : Option NodeS) = [] from rfl]
          rw [List.append_nil, List.append_nil]
          rw [show leafIdsN (NodeS.internal mk ks
              (cs.set (childIndex ks k) (insertHelperF k v f child A).2.2.1)) =
              leafIdsL (cs.set (childIndex ks k)
                (insertHelperF k v f child A).2.2.1) from by rw [leafIdsN]]
          rw [hidseq]
        refine ⟨ihlen, hframeG, ?_, ?_, ?_, ?_, ?_⟩
        · show (leafIdsN (NodeS.internal mk ks
              (cs.set (childIndex ks k) (insertHelperF k v f child A).2.2.1)) ++
              sibIds (none : Option NodeS)).Nodup
          rw [hshape]
          exact hndG
        · intro i hi2
          rw [hshape] at hi2
          rcases hmemG i (by rw [hres1]; exact hi2) with h3 | h3
          · left
            rw [leafIdsN, hidsdec]
            exact h3
          · right
            exact h3
        · show (leafIdsN (NodeS.internal mk ks
              (cs.set (childIndex ks k) (insertHelperF k v f child A).2.2.1)) ++
              sibIds (none : Option NodeS)).head? =
            (leafIdsN (NodeS.internal mk ks cs)).head?
          rw [hshape]
          exact hheadG
        · intro e h0
          show Links (insertHelperF k v f child A).2.2.2
            (leafIdsN (NodeS.internal mk ks
              (cs.set (childIndex ks k) (insertHelperF k v f child A).2.2.1)) ++
              sibIds (none : Option NodeS)) e
          rw [hshape]
          exact hlinksG e h0
        · obtain ⟨ihgood, ihent⟩ := ihmain
          constructor
          · exact ⟨ks, _, rfl, hks1, hks2, hrep _ _ hmono ihgood⟩
          · show entriesN (insertHelperF k v f child A).2.2.2
              (NodeS.internal mk ks (cs.set (childIndex ks k)
                (insertHelperF k v f child A).2.2.1)) =
              insertAssoc k v (entriesN A (NodeS.internal mk ks cs))
            rw [show entriesN (insertHelperF k v f child A).2.2.2
                (NodeS.internal mk ks (cs.set (childIndex ks k)
                  (insertHelperF k v f child A).2.2.1)) =
                entriesL (insertHelperF k v f child A).2.2.2
                  (cs.set (childIndex ks k) (insertHelperF k v f child A).2.2.1)
                from by rw [entriesN]]
            rw [hsetdec, entriesL_append]
            rw [show entriesL (insertHelperF k v f child A).2.2.2
                ((insertHelperF k v f child A).2.2.1 ::
                  cs.drop (childIndex ks k + 1)) =
                entriesN (insertHelperF k v f child A).2.2.2
                  (insertHelperF k v f child A).2.2.1 ++
                entriesL (insertHelperF k v f child A).2.2.2
                  (cs.drop (childIndex ks k + 1)) from by rw [entriesL]]
            rw [hpreE, hpostE, ihent, hrhs]
      | some sib =>
        simp only []
        rw [hres1] at hndG hheadG hlinksG ihmain
        obtain ⟨ihg1, ihg2, ihlo, ihhi, ihent⟩ := ihmain
        have hins2 : (cs.set (childIndex ks k)
            (insertHelperF k v f child A).2.2.1).insertIdx
            (childIndex ks k + 1) sib =
            cs.take (childIndex ks k) ++ (insertHelperF k v f child A).2.2.1 ::
              sib :: cs.drop (childIndex ks k + 1) := insertIdx_after_set hcilt _ _
        have hidseq2 : leafIdsL ((cs.set (childIndex ks k)
            (insertHelperF k v f child A).2.2.1).insertIdx
            (childIndex ks k + 1) sib) =
            leafIdsL (cs.take (childIndex ks k)) ++
              ((leafIdsN (insertHelperF k v f child A).2.2.1 ++
                sibIds (some sib)) ++
                leafIdsL (cs.drop (childIndex ks k + 1))) := by
          rw [hins2, leafIdsL_append]
          rw [show leafIdsL ((insertHelperF k v f child A).2.2.1 ::
              sib :: cs.drop (childIndex ks k + 1)) =
              leafIdsN (insertHelperF k v f child A).2.2.1 ++
                (leafIdsN sib ++ leafIdsL (cs.drop (childIndex ks k + 1)))
              from by
            rw [show leafIdsL ((insertHelperF k v f child A).2.2.1 ::
                sib :: cs.drop (childIndex ks k + 1)) =
                leafIdsN (insertHelperF k v f child A).2.2.1 ++
                  leafIdsL (sib :: cs.drop (childIndex ks k + 1)) from by
              rw [leafIdsL]]
            rw [show leafIdsL (sib :: cs.drop (childIndex ks k + 1)) =
                leafIdsN sib ++ leafIdsL (cs.drop (childIndex ks k + 1)) from by
              rw [leafIdsL]]]
          rw [show sibIds (some sib) = leafIdsN sib from rfl, List.append_assoc]
        have hentseq2 : entriesL (insertHelperF k v f child A).2.2.2
            ((cs.set (childIndex ks k)
              (insertHelperF k v f child A).2.2.1).insertIdx
              (childIndex ks k + 1) sib) =
            insertAssoc k v (entriesN A (NodeS.internal mk ks cs)) := by
          rw [hins2, entriesL_append]
          rw [show entriesL (insertHelperF k v f child A).2.2.2
              ((insertHelperF k v f child A).2.2.1 ::
                sib :: cs.drop (childIndex ks k + 1)) =
              (entriesN (insertHelperF k v f child A).2.2.2
                (insertHelperF k v f child A).2.2.1 ++
                entriesN (insertHelperF k v f child A).2.2.2 sib) ++
                entriesL (insertHelperF k v f child A).2.2.2
                  (cs.drop (childIndex ks k + 1)) from by
            rw [show entriesL (insertHelperF k v f child A).2.2.2
                ((insertHelperF k v f child A).2.2.1 ::
                  sib :: cs.drop (childIndex ks k + 1)) =
                entriesN (insertHelperF k v f child A).2.2.2
                  (insertHelperF k v f child A).2.2.1 ++
                  entriesL (insertHelperF k v f child A).2.2.2
                    (sib :: cs.drop (childIndex ks k + 1)) from by rw [entriesL]]
            rw [show entriesL (insertHelperF k v f child A).2.2.2
                (sib :: cs.drop (childIndex ks k + 1)) =
                entriesN (insertHelperF k v f child A).2.2.2 sib ++
                  entriesL (insertHelperF k v f child A).2.2.2
                    (cs.drop (childIndex ks k + 1)) from by rw [entriesL]]
            rw [List.append_assoc]]
          rw [hpreE, hpostE, ihent, hrhs]
        have hseq2 := hins (Good mk (insertHelperF k v f child A).2.2.2 h)
          (insertHelperF k v f child A).1 (insertHelperF k v f child A).2.2.1 sib
          hmono ihlo ihhi ihg1 ihg2
        by_cases hroom2 : ks.length < mk
        · rw [if_pos hroom2]
          have hICA : insertChildAt ks (cs.set (childIndex ks k)
              (insertHelperF k v f child A).2.2.1) (childIndex ks k)
              (insertHelperF k v f child A).1 sib =
              (ks.insertIdx (childIndex ks k) (insertHelperF k v f child A).1,
               (cs.set (childIndex ks k)
                 (insertHelperF k v f child A).2.2.1).insertIdx
                 (childIndex ks k + 1) sib) := by
            rw [insertChildAt, if_pos hcile]
          rw [hICA]
          have hshape : leafIdsN (NodeS.internal mk
              (ks.insertIdx (childIndex ks k) (insertHelperF k v f child A).1)
              ((cs.set (childIndex ks k)
                (insertHelperF k v f child A).2.2.1).insertIdx
                (childIndex ks k + 1) sib)) ++ sibIds (none : Option NodeS) =
              leafIdsL (cs.take (childIndex ks k)) ++
                ((leafIdsN (insertHelperF k v f child A).2.2.1 ++
                  sibIds (some sib)) ++
                  leafIdsL (cs.drop (childIndex ks k + 1))) := by
            rw [show sibIds (none : Option NodeS) = [] from rfl, List.append_nil]
            rw [show leafIdsN (NodeS.internal mk
                (ks.insertIdx (childIndex ks k) (insertHelperF k v f child A).1)
                ((cs.set (childIndex ks k)
                  (insertHelperF k v f child A).2.2.1).insertIdx
                  (childIndex ks k + 1) sib)) =
                leafIdsL ((cs.set (childIndex ks k)
                  (insertHelperF k v f child A).2.2.1).insertIdx
                  (childIndex ks k + 1) sib) from by rw [leafIdsN]]
            rw [hidseq2]
          refine ⟨ihlen, hframeG, ?_, ?_, ?_, ?_, ?_⟩
          · show (leafIdsN (NodeS.internal mk
                (ks.insertIdx (childIndex ks k) (insertHelperF k v f child A).1)
                ((cs.set (childIndex ks k)
                  (insertHelperF k v f child A).2.2.1).insertIdx
                  (childIndex ks k + 1) sib)) ++
                sibIds (none : Option NodeS)).Nodup
            rw [hshape]
            exact hndG
          · intro i hi2
            rw [hshape] at hi2
            rcases hmemG i (by rw [hres1]; exact hi2) with h3 | h3
            · left
              rw [leafIdsN, hidsdec]
              exact h3
            · right
              exact h3
          · show (leafIdsN (NodeS.internal mk
                (ks.insertIdx (childIndex ks k) (insertHelperF k v f child A).1)
                ((cs.set (childIndex ks k)
                  (insertHelperF k v f child A).2.2.1).insertIdx
                  (childIndex ks k + 1) sib)) ++
                sibIds (none : Option NodeS)).head? =
              (leafIdsN (NodeS.internal mk ks cs)).head?
            rw [hshape]
            exact hheadG
          · intro e h0
            show Links (insertHelperF k v f child A).2.2.2
              (leafIdsN (NodeS.internal mk
                (ks.insertIdx (childIndex ks k) (insertHelperF k v f child A).1)
                ((cs.set (childIndex ks k)
                  (insertHelperF k v f child A).2.2.1).insertIdx
                  (childIndex ks k + 1) sib)) ++
                sibIds (none : Option NodeS)) e
            rw [hshape]
            exact hlinksG e h0
          · constructor
            · refine ⟨ks.insertIdx (childIndex ks k)
                (insertHelperF k v f child A).1, _, rfl, ?_, ?_, hseq2⟩
              · rw [List.length_insertIdx _ _ hcile]
                omega
              · rw [List.length_insertIdx _ _ hcile]
                omega
            · show entriesN (insertHelperF k v f child A).2.2.2
                (NodeS.internal mk
                  (ks.insertIdx (childIndex ks k) (insertHelperF k v f child A).1)
                  ((cs.set (childIndex ks k)
                    (insertHelperF k v f child A).2.2.1).insertIdx
                    (childIndex ks k + 1) sib)) =
                insertAssoc k v (entriesN A (NodeS.internal mk ks cs))
              rw [show entriesN (insertHelperF k v f child A).2.2.2
                  (NodeS.internal mk
                    (ks.insertIdx (childIndex ks k)
                      (insertHelperF k v f child A).1)
                    ((cs.set (childIndex ks k)
                      (insertHelperF k v f child A).2.2.1).insertIdx
                      (childIndex ks k + 1) sib)) =
                  entriesL (insertHelperF k v f child A).2.2.2
                    ((cs.set (childIndex ks k)
                      (insertHelperF k v f child A).2.2.1).insertIdx
                      (childIndex ks k + 1) sib) from by rw [entriesN]]
              exact hentseq2
        · rw [if_neg hroom2]
          have hfull2 : ks.length = mk := le_antisymm hks2 (not_lt.mp hroom2)
          have hlenall : (ks.insertIdx (childIndex ks k)
              (insertHelperF k v f child A).1).length = mk + 1 := by
            rw [List.length_insertIdx _ _ hcile, hfull2]
          have hIOV : internalOverflow mk ks (cs.set (childIndex ks k)
              (insertHelperF k v f child A).2.2.1) (childIndex ks k)
              (insertHelperF k v f child A).1 sib =
              (((ks.insertIdx (childIndex ks k)
                  (insertHelperF k v f child A).1).get? ((mk + 1) / 2)).getD 0,
               NodeS.internal mk
                 ((ks.insertIdx (childIndex ks k)
                   (insertHelperF k v f child A).1).take ((mk + 1) / 2))
                 (((cs.set (childIndex ks k)
                   (insertHelperF k v f child A).2.2.1).insertIdx
                   (childIndex ks k + 1) sib).take ((mk + 1) / 2 + 1)),
               NodeS.internal mk
                 ((ks.insertIdx (childIndex ks k)
                   (insertHelperF k v f child A).1).drop ((mk + 1) / 2 + 1))
                 (((cs.set (childIndex ks k)
                   (insertHelperF k v f child A).2.2.1).insertIdx
                   (childIndex ks k + 1) sib).drop ((mk + 1) / 2 + 1))) := by
            rw [internalOverflow]
            simp only [hlenall]
          rw [hIOV]
          obtain ⟨km, hgetm, hlokm2, hhikm2, hseqL, hseqR⟩ :=
            Seq_split hseq2 ((mk + 1) / 2) (by rw [hlenall]; omega)
          rw [hgetm]
          rw [show (some km).getD 0 = km from rfl]
          have hidsplit : leafIdsL (((cs.set (childIndex ks k)
              (insertHelperF k v f child A).2.2.1).insertIdx
              (childIndex ks k + 1) sib).take ((mk + 1) / 2 + 1)) ++
              leafIdsL (((cs.set (childIndex ks k)
                (insertHelperF k v f child A).2.2.1).insertIdx
                (childIndex ks k + 1) sib).drop ((mk + 1) / 2 + 1)) =
              leafIdsL ((cs.set (childIndex ks k)
                (insertHelperF k v f child A).2.2.1).insertIdx
                (childIndex ks k + 1) sib) := by
            rw [← leafIdsL_append, List.take_append_drop]
          have hshape : leafIdsN (NodeS.internal mk
              ((ks.insertIdx (childIndex ks k)
                (insertHelperF k v f child A).1).take ((mk + 1) / 2))
              (((cs.set (childIndex ks k)
                (insertHelperF k v f child A).2.2.1).insertIdx
                (childIndex ks k + 1) sib).take ((mk + 1) / 2 + 1))) ++
              sibIds (some (NodeS.internal mk
                ((ks.insertIdx (childIndex ks k)
                  (insertHelperF k v f child A).1).drop ((mk + 1) / 2 + 1))
                (((cs.set (childIndex ks k)
                  (insertHelperF k v f child A).2.2.1).insertIdx
                  (childIndex ks k + 1) sib).drop ((mk + 1) / 2 + 1)))) =
              leafIdsL (cs.take (childIndex ks k)) ++
                ((leafIdsN (insertHelperF k v f child A).2.2.1 ++
                  sibIds (some sib)) ++
                  leafIdsL (cs.drop (childIndex ks k + 1))) := by
            rw [show sibIds (some (NodeS.internal mk
                ((ks.insertIdx (childIndex ks k)
                  (insertHelperF k v f child A).1).drop ((mk + 1) / 2 + 1))
                (((cs.set (childIndex ks k)
                  (insertHelperF k v f child A).2.2.1).insertIdx
                  (childIndex ks k + 1) sib).drop ((mk + 1) / 2 + 1)))) =
                leafIdsL (((cs.set (childIndex ks k)
                  (insertHelperF k v f child A).2.2.1).insertIdx
                  (childIndex ks k + 1) sib).drop ((mk + 1) / 2 + 1)) from by
              rw [show sibIds (some (NodeS.internal mk
                  ((ks.insertIdx (childIndex ks k)
                    (insertHelperF k v f child A).1).drop ((mk + 1) / 2 + 1))
                  (((cs.set (childIndex ks k)
                    (insertHelperF k v f child A).2.2.1).insertIdx
                    (childIndex ks k + 1) sib).drop ((mk + 1) / 2 + 1)))) =
                  leafIdsN (NodeS.internal mk
                  ((ks.insertIdx (childIndex ks k)
                    (insertHelperF k v f child A).1).drop ((mk + 1) / 2 + 1))
                  (((cs.set (childIndex ks k)
                    (insertHelperF k v f child A).2.2.1).insertIdx
                    (childIndex ks k + 1) sib).drop ((mk + 1) / 2 + 1))) from rfl]
              rw [leafIdsN]]
            rw [show leafIdsN (NodeS.internal mk
                ((ks.insertIdx (childIndex ks k)
                  (insertHelperF k v f child A).1).take ((mk + 1) / 2))
                (((cs.set (childIndex ks k)
                  (insertHelperF k v f child A).2.2.1).insertIdx
                  (childIndex ks k + 1) sib).take ((mk + 1) / 2 + 1))) =
                leafIdsL (((cs.set (childIndex ks k)
                  (insertHelperF k v f child A).2.2.1).insertIdx
                  (childIndex ks k + 1) sib).take ((mk + 1) / 2 + 1)) from by
              rw [leafIdsN]]
            rw [hidsplit, hidseq2]
          refine ⟨ihlen, hframeG, ?_, ?_, ?_, ?_, ?_, ?_, hlokm2, hhikm2, ?_⟩
          · rw [hshape]
            exact hndG
          · intro i hi2
            rw [hshape] at hi2
            rcases hmemG i (by rw [hres1]; exact hi2) with h3 | h3
            · left
              rw [leafIdsN, hidsdec]
              exact h3
            · right
              exact h3
          · rw [hshape]
            exact hheadG
          · intro e h0
            rw [hshape]
            exact hlinksG e h0
          · refine ⟨(ks.insertIdx (childIndex ks k)
                (insertHelperF k v f child A).1).take ((mk + 1) / 2), _,
                rfl, ?_, ?_, hseqL⟩
            · rw [List.length_take, hlenall]
              omega
            · rw [List.length_take, hlenall]
              omega
          · refine ⟨(ks.insertIdx (childIndex ks k)
                (insertHelperF k v f child A).1).drop ((mk + 1) / 2 + 1), _,
                rfl, ?_, ?_, hseqR⟩
            · rw [List.length_drop, hlenall]
              omega
            · rw [List.length_drop, hlenall]
              omega
          · show entriesN (insertHelperF k v f child A).2.2.2
                (NodeS.internal mk
                  ((ks.insertIdx (childIndex ks k)
                    (insertHelperF k v f child A).1).take ((mk + 1) / 2))
                  (((cs.set (childIndex ks k)
                    (insertHelperF k v f child A).2.2.1).insertIdx
                    (childIndex ks k + 1) sib).take ((mk + 1) / 2 + 1))) ++
              entriesN (insertHelperF k v f child A).2.2.2
                (NodeS.internal mk
                  ((ks.insertIdx (childIndex ks k)
                    (insertHelperF k v f child A).1).drop ((mk + 1) / 2 + 1))
                  (((cs.set (childIndex ks k)
                    (insertHelperF k v f child A).2.2.1).insertIdx
                    (childIndex ks k + 1) sib).drop ((mk + 1) / 2 + 1))) =
              insertAssoc k v (entriesN A (NodeS.internal mk ks cs))
            rw [show entriesN (insertHelperF k v f child A).2.2.2
                (NodeS.internal mk
                  ((ks.insertIdx (childIndex ks k)
                    (insertHelperF k v f child A).1).take ((mk + 1) / 2))
                  (((cs.set (childIndex ks k)
                    (insertHelperF k v f child A).2.2.1).insertIdx
                    (childIndex ks k + 1) sib).take ((mk + 1) / 2 + 1))) =
                entriesL (insertHelperF k v f child A).2.2.2
                  (((cs.set (childIndex ks k)
                    (insertHelperF k v f child A).2.2.1).insertIdx
                    (childIndex ks k + 1) sib).take ((mk + 1) / 2 + 1))
                from by rw [entriesN]]
            rw [show entriesN (insertHelperF k v f child A).2.2.2
                (NodeS.internal mk
                  ((ks.insertIdx (childIndex ks k)
                    (insertHelperF k v f child A).1).drop ((mk + 1) / 2 + 1))
                  (((cs.set (childIndex ks k)
                    (insertHelperF k v f child A).2.2.1).insertIdx
                    (childIndex ks k + 1) sib).drop ((mk + 1) / 2 + 1))) =
                entriesL (insertHelperF k v f child A).2.2.2
                  (((cs.set (childIndex ks k)
                    (insertHelperF k v f child A).2.2.1).insertIdx
                    (childIndex ks k + 1) sib).drop ((mk + 1) / 2 + 1))
                from by rw [entriesN]]
            rw [← entriesL_append, List.take_append_drop]
            exact hentseq2

end BT

namespace BT

/-- A duplicate-free list of naturals all below `n` has at most `n`
elements. -/
theorem nodup_length_le {l : List Nat} {n : Nat} (hnd : l.Nodup)
    (hlt : ∀ i ∈ l, i < n) : l.length ≤ n := by
  have h1 : l.toFinset ⊆ Finset.range n := by
    intro a ha
    rw [List.mem_toFinset] at ha
    rw [Finset.mem_range]
    exact hlt a ha
  have h2 := Finset.card_le_card h1
  rw [Finset.card_range, List.toFinset_card_of_nodup hnd] at h2
  exact h2

/-- `Links` is preserved by any arena update that keeps every extant leaf
present with the same `next` pointer. -/
theorem links_next_congr {A A2 : Arena}
    (hnext : ∀ i l, A.get? i = some l →
      ∃ l2, A2.get? i = some l2 ∧ l2.next = l.next) :
    ∀ {ids : List Nat} {e : Option Nat}, Links A ids e → Links A2 ids e := by
  intro ids
  induction ids with
  | nil => intro e _; trivial
  | cons i rest ih =>
    intro e hl
    cases rest with
    | nil =>
      obtain ⟨l, hget, hn⟩ := hl
      obtain ⟨l2, hget2, hn2⟩ := hnext i l hget
      exact ⟨l2, hget2, by rw [hn2, hn]⟩
    | cons j rest2 =>
      obtain ⟨⟨l, hget, hn⟩, hrest⟩ := hl
      obtain ⟨l2, hget2, hn2⟩ := hnext i l hget
      exact ⟨⟨l2, hget2, by rw [hn2, hn]⟩, ih hrest⟩

/-- A `next`-chain segment terminating at `none` is exactly what
`chainFrom` walks. -/
theorem chainFrom_of_links {A : Arena} : ∀ {ids : List Nat} {fuel : Nat},
    Links A ids none → ids.length < fuel →
    chainFrom A ids.head? fuel = some ids := by
  intro ids
  induction ids with
  | nil =>
    intro fuel _ _
    cases fuel <;> rfl
  | cons i rest ih =>
    intro fuel hl hf
    cases fuel with
    | zero => omega
    | succ f =>
      have hget : ∃ l, A.get? i = some l ∧ l.next = rest.head? := by
        cases rest with
        | nil => exact hl
        | cons j rest2 =>
          obtain ⟨⟨l, hget, hn⟩, _⟩ := hl
          exact ⟨l, hget, hn⟩
      obtain ⟨l, hget, hn⟩ := hget
      have hrest : Links A rest none := by
        cases rest with
        | nil => trivial
        | cons j rest2 => exact hl.2
      rw [show (i :: rest).head? = some i from rfl, chainFrom, hget]
      simp only []
      rw [hn, ih hrest (by simp at hf ⊢; omega)]
      rfl

/-- Every leaf id below a `Good` node resolves to a leaf with matching
value count and sorted keys. -/
theorem Good_leaf_wf {mk : Nat} {A : Arena} :
    ∀ (h : Nat) {lo hi : Option Key} {n : NodeS}, Good mk A h lo hi n →
    ∀ i ∈ leafIdsN n, ∃ l, A.get? i = some l ∧
      l.vals.length = l.keys.length ∧ l.keys.Sorted (· < ·) := by
  intro h
  induction h with
  | zero =>
    intro lo hi n hg i hi2
    obtain ⟨id, l, rfl, hget, _, _, hlen, hsort, _⟩ := hg
    rw [leafIdsN] at hi2
    rcases List.mem_singleton.mp hi2 with h2
    subst h2
    exact ⟨l, hget, hlen, hsort⟩
  | succ h ih =>
    intro lo hi n hg i hi2
    obtain ⟨ks, cs, rfl, _, _, hseq⟩ := hg
    rw [leafIdsN, leafIdsL_eq_join] at hi2
    rw [List.mem_join] at hi2
    obtain ⟨l0, hl0, hil⟩ := hi2
    rw [List.mem_map] at hl0
    obtain ⟨c, hc, rfl⟩ := hl0
    obtain ⟨lo1, hi1, hp⟩ := Seq_mem hseq hc
    exact ih hp i hil

/-- Strictly sorted lists have no duplicates. -/
theorem sorted_lt_nodup {l : List Key} (hs : l.Sorted (· < ·)) : l.Nodup :=
  hs.imp ne_of_lt

/-- Cons unfolding of `entriesOfIds`. -/
theorem entriesOfIds_cons (A : Arena) (i : Nat) (ids : List Nat) :
    entriesOfIds A (i :: ids) =
      (match A.get? i with
       | none => []
       | some l => l.keys.zip l.vals) ++ entriesOfIds A ids := rfl

/-- `entriesOfIds` ignores arena cells outside the id list. -/
theorem entriesOfIds_frame {A : Arena} {id : Nat} {l2 : LeafData}
    {ids : List Nat} (h : id ∉ ids) :
    entriesOfIds (A.set id l2) ids = entriesOfIds A ids := by
  induction ids with
  | nil => rfl
  | cons i rest ih =>
    rw [entriesOfIds_cons, entriesOfIds_cons,
      List.get?_set_ne _ _ (fun e => h (by rw [e]; simp)),
      ih (fun hm => h (by simp [hm]))]

end BT

namespace BT

/-- Sufficient fuel for every helper on a `Good` subtree: the height is
below the arena size. -/
theorem Good_fuel {mk : Nat} {A : Arena} {h : Nat} {lo hi : Option Key}
    {n : NodeS} (hg : Good mk A h lo hi n) (hnd : (leafIdsN n).Nodup) :
    h < A.length + 1 := by
  have h1 := Good_height_lt h hg
  have h2 := nodup_length_le hnd (Good_ids_lt h hg)
  omega

/-- The root-update step shared by both branches of `BPlusTree::insert`:
absorb the helper result, splitting the root when a sibling comes back. -/
theorem insert_finish {bf : Nat} {A1 : Arena} {r : NodeS} {h : Nat} {t2 : Tree}
    (hbf : 3 ≤ bf)
    (hg : Good (bf - 1) A1 h none none r)
    (hnd : (leafIdsN r).Nodup)
    (hlink : Links A1 (leafIdsN r) none)
    (k : Key) (v : Val)
    (ht2 : t2 =
      (match (insertHelperF k v (A1.length + 1) r A1).2.1 with
       | none =>
         { branching := bf,
           root := some (insertHelperF k v (A1.length + 1) r A1).2.2.1,
           arena := (insertHelperF k v (A1.length + 1) r A1).2.2.2 }
       | some sib =>
         { branching := bf,
           root := some (NodeS.internal (bf - 1)
             [(insertHelperF k v (A1.length + 1) r A1).1]
             [(insertHelperF k v (A1.length + 1) r A1).2.2.1, sib]),
           arena := (insertHelperF k v (A1.length + 1) r A1).2.2.2 })) :
    WFT t2 ∧ treeEntries t2 = insertAssoc k v (entriesN A1 r) ∧
    (t2.uniformHeight = some h ∨ t2.uniformHeight = some (h + 1)) ∧
    t2.branching = bf := by
  have hmk : 2 ≤ bf - 1 := by omega
  have hfuel : h < A1.length + 1 := Good_fuel hg hnd
  obtain ⟨ihlen, ihframe, ihnd, ihmem, ihhead, ihlinks, ihmain⟩ :=
    insertHelperF_spec h hg k v (by trivial) (by trivial) hmk hnd
      (A1.length + 1) hfuel
  cases hres1 : (insertHelperF k v (A1.length + 1) r A1).2.1 with
  | none =>
    rw [hres1] at ht2 ihnd ihlinks ihmain
    rw [show sibIds (none : Option NodeS) = [] from rfl,
      List.append_nil] at ihnd ihlinks
    obtain ⟨ihgood, ihent⟩ := ihmain
    subst ht2
    have hnd2 : (leafIdsN (insertHelperF k v (A1.length + 1) r A1).2.2.1).Nodup :=
      ihnd
    have hfuel2 :
        h < (insertHelperF k v (A1.length + 1) r A1).2.2.2.length + 1 :=
      Good_fuel ihgood hnd2
    refine ⟨⟨hbf, ?_, ?_, ?_⟩, ?_, ?_, rfl⟩
    · intro r2 hr2
      cases hr2
      exact ⟨h, ihgood⟩
    · intro r2 hr2
      cases hr2
      exact hnd2
    · intro r2 hr2
      cases hr2
      exact ihlinks none hlink
    · exact (entriesF_eq h ihgood _ hfuel2).trans ihent
    · left
      exact uheightF_eq h ihgood _ hfuel2
  | some sib =>
    rw [hres1] at ht2 ihnd ihlinks ihmain
    rw [show sibIds (some sib) = leafIdsN sib from rfl] at ihnd ihlinks
    obtain ⟨ihg1, ihg2, ihlo, ihhi, ihent⟩ := ihmain
    subst ht2
    have hgood2 : Good (bf - 1)
        (insertHelperF k v (A1.length + 1) r A1).2.2.2 (h + 1) none none
        (NodeS.internal (bf - 1)
          [(insertHelperF k v (A1.length + 1) r A1).1]
          [(insertHelperF k v (A1.length + 1) r A1).2.2.1, sib]) := by
      refine ⟨[(insertHelperF k v (A1.length + 1) r A1).1],
        [(insertHelperF k v (A1.length + 1) r A1).2.2.1, sib], rfl,
        by simp, by simp; omega, ?_⟩
      exact Seq.cons (by trivial) (by trivial) ihg1 (Seq.single ihg2)
    have hidseq : leafIdsN (NodeS.internal (bf - 1)
        [(insertHelperF k v (A1.length + 1) r A1).1]
        [(insertHelperF k v (A1.length + 1) r A1).2.2.1, sib]) =
        leafIdsN (insertHelperF k v (A1.length + 1) r A1).2.2.1 ++
          leafIdsN sib := by
      rw [leafIdsN, leafIdsL_eq_join]
      simp
    have hnd2 : (leafIdsN (NodeS.internal (bf - 1)
        [(insertHelperF k v (A1.length + 1) r A1).1]
        [(insertHelperF k v (A1.length + 1) r A1).2.2.1, sib])).Nodup := by
      rw [hidseq]
      exact ihnd
    have hfuel2 : h + 1 <
        (insertHelperF k v (A1.length + 1) r A1).2.2.2.length + 1 :=
      Good_fuel hgood2 hnd2
    refine ⟨⟨hbf, ?_, ?_, ?_⟩, ?_, ?_, rfl⟩
    · intro r2 hr2
      cases hr2
      exact ⟨h + 1, hgood2⟩
    · intro r2 hr2
      cases hr2
      exact hnd2
    · intro r2 hr2
      cases hr2
      rw [hidseq]
      exact ihlinks none hlink
    · refine (entriesF_eq (h + 1) hgood2 _ hfuel2).trans ?_
      rw [show entriesN (insertHelperF k v (A1.length + 1) r A1).2.2.2
          (NodeS.internal (bf - 1)
            [(insertHelperF k v (A1.length + 1) r A1).1]
            [(insertHelperF k v (A1.length + 1) r A1).2.2.1, sib]) =
          entriesL (insertHelperF k v (A1.length + 1) r A1).2.2.2
            [(insertHelperF k v (A1.length + 1) r A1).2.2.1, sib]
          from by rw [entriesN]]
      rw [entriesL_eq_join]
      simp only [List.map_cons, List.map_nil, List.join_cons, List.join_nil,
        List.append_nil]
      exact ihent
    · right
      exact uheightF_eq (h + 1) hgood2 _ hfuel2

end BT

namespace BT

/-- Under the invariant, the fuel-based observation functions agree with
the structural ones at the root. -/
theorem WFT_obs {t : Tree} (hw : WFT t) {r : NodeS} (hroot : t.root = some r)
    {h : Nat} (hg : Good t.maxKeys t.arena h none none r) :
    treeLeafIds t = leafIdsN r ∧ treeEntries t = entriesN t.arena r ∧
    t.uniformHeight = some h := by
  have hnd := hw.ids_nodup r hroot
  have hfuel : h < t.arena.length + 1 := Good_fuel hg hnd
  refine ⟨?_, ?_, ?_⟩
  · rw [treeLeafIds, hroot]
    exact leafIdsF_eq h hg _ hfuel
  · rw [treeEntries, hroot]
    exact entriesF_eq h hg _ hfuel
  · rw [Tree.uniformHeight, hroot]
    exact uheightF_eq h hg _ hfuel

/-- `BPlusTree::insert` preserves the invariant, performs the ordered
insert-or-overwrite on the stored contents, returns `true`, and grows the
uniform height by at most one (exactly one on a root split). -/
theorem Tree_insert_spec {t : Tree} (hw : WFT t) (k : Key) (v : Val) :
    WFT (t.insert k v).1 ∧
    treeEntries (t.insert k v).1 = insertAssoc k v (treeEntries t) ∧
    (t.insert k v).2 = true ∧
    ((t.insert k v).1.uniformHeight = t.uniformHeight ∨
      (t.insert k v).1.uniformHeight =
        Option.map (fun x => x + 1) t.uniformHeight) ∧
    (t.insert k v).1.branching = t.branching := by
  have hbf := hw.bf3
  cases hroot : t.root with
  | none =>
    have hgood0 : Good t.maxKeys
        (t.arena ++ [({ maxKeys := t.maxKeys, keys := [], vals := [], next := none } : LeafData)]) 0 none none
        (NodeS.leafRef t.arena.length) := by
      refine ⟨t.arena.length,
        { maxKeys := t.maxKeys, keys := [], vals := [], next := none },
        rfl, List.get?_concat_length _ _, rfl, by simp, rfl, by simp, by simp⟩
    have hnd0 : (leafIdsN (NodeS.leafRef t.arena.length)).Nodup := by
      simp [leafIdsN]
    have hlink0 : Links
        (t.arena ++ [({ maxKeys := t.maxKeys, keys := [], vals := [], next := none } : LeafData)])
        (leafIdsN (NodeS.leafRef t.arena.length)) none := by
      rw [leafIdsN]
      exact ⟨_, List.get?_concat_length _ _, rfl⟩
    have hins : t.insert k v =
        ((match (insertHelperF k v
            ((t.arena ++ [({ maxKeys := t.maxKeys, keys := [], vals := [], next := none } : LeafData)]).length + 1)
            (NodeS.leafRef t.arena.length)
            (t.arena ++ [({ maxKeys := t.maxKeys, keys := [], vals := [], next := none } : LeafData)])).2.1 with
          | none =>
            { branching := t.branching,
              root := some (insertHelperF k v
                ((t.arena ++ [({ maxKeys := t.maxKeys, keys := [], vals := [], next := none } : LeafData)]).length + 1)
                (NodeS.leafRef t.arena.length)
                (t.arena ++ [({ maxKeys := t.maxKeys, keys := [], vals := [], next := none } : LeafData)])).2.2.1,
              arena := (insertHelperF k v
                ((t.arena ++ [({ maxKeys := t.maxKeys, keys := [], vals := [], next := none } : LeafData)]).length + 1)
                (NodeS.leafRef t.arena.length)
                (t.arena ++ [({ maxKeys := t.maxKeys, keys := [], vals := [], next := none } : LeafData)])).2.2.2 }
          | some sib =>
            { branching := t.branching,
              root := some (NodeS.internal (t.branching - 1)
                [(insertHelperF k v
                  ((t.arena ++ [({ maxKeys := t.maxKeys, keys := [], vals := [], next := none } : LeafData)]).length + 1)
                  (NodeS.leafRef t.arena.length)
                  (t.arena ++ [({ maxKeys := t.maxKeys, keys := [], vals := [], next := none } : LeafData)])).1]
                [(insertHelperF k v
                  ((t.arena ++ [({ maxKeys := t.maxKeys, keys := [], vals := [], next := none } : LeafData)]).length + 1)
                  (NodeS.leafRef t.arena.length)
                  (t.arena ++ [({ maxKeys := t.maxKeys, keys := [], vals := [], next := none } : LeafData)])).2.2.1, sib]),
              arena := (insertHelperF k v
                ((t.arena ++ [({ maxKeys := t.maxKeys, keys := [], vals := [], next := none } : LeafData)]).length + 1)
                (NodeS.leafRef t.arena.length)
                (t.arena ++ [({ maxKeys := t.maxKeys, keys := [], vals := [], next := none } : LeafData)])).2.2.2 }), true) := by
      rw [Tree.insert, hroot]
      simp only [insertHelper]
      cases (insertHelperF k v
          ((t.arena ++ [({ maxKeys := t.maxKeys, keys := [], vals := [], next := none } : LeafData)]).length + 1)
          (NodeS.leafRef t.arena.length)
          (t.arena ++ [({ maxKeys := t.maxKeys, keys := [], vals := [], next := none } : LeafData)])).2.1 <;> rfl
    obtain ⟨hwf, hent, hhgt, hbr⟩ :=
      insert_finish hbf hgood0 hnd0 hlink0 k v rfl
    have hE1 : entriesN
        (t.arena ++ [({ maxKeys := t.maxKeys, keys := [], vals := [], next := none } : LeafData)]) (NodeS.leafRef t.arena.length) = [] := by
      rw [entriesN, List.get?_concat_length]
      rfl
    have hE0 : treeEntries t = [] := by
      rw [treeEntries, hroot]
    have hH0 : t.uniformHeight = some 0 := by
      rw [Tree.uniformHeight, hroot]
    rw [hins]
    refine ⟨hwf, ?_, rfl, ?_, hbr⟩
    · rw [hent, hE1, hE0]
    · rw [hH0]
      rcases hhgt with hh | hh
      · exact Or.inl hh
      · exact Or.inr hh
  | some r =>
    obtain ⟨h, hg⟩ := hw.root_good r hroot
    have hnd := hw.ids_nodup r hroot
    have hlink := hw.chain r hroot
    obtain ⟨hids, hEr, hH⟩ := WFT_obs hw hroot hg
    have hins : t.insert k v =
        ((match (insertHelperF k v (t.arena.length + 1) r t.arena).2.1 with
          | none =>
            { branching := t.branching,
              root := some (insertHelperF k v (t.arena.length + 1)
                r t.arena).2.2.1,
              arena := (insertHelperF k v (t.arena.length + 1)
                r t.arena).2.2.2 }
          | some sib =>
            { branching := t.branching,
              root := some (NodeS.internal (t.branching - 1)
                [(insertHelperF k v (t.arena.length + 1) r t.arena).1]
                [(insertHelperF k v (t.arena.length + 1) r t.arena).2.2.1,
                  sib]),
              arena := (insertHelperF k v (t.arena.length + 1)
                r t.arena).2.2.2 }), true) := by
      rw [Tree.insert, hroot]
      simp only [insertHelper]
      cases (insertHelperF k v (t.arena.length + 1) r t.arena).2.1 <;> rfl
    obtain ⟨hwf, hent, hhgt, hbr⟩ := insert_finish hbf hg hnd hlink k v rfl
    rw [hins]
    refine ⟨hwf, ?_, rfl, ?_, hbr⟩
    · rw [hent, hEr]
    · rw [hH]
      rcases hhgt with hh | hh
      · exact Or.inl hh
      · exact Or.inr hh

end BT

namespace BT

/-- `remove_helper` descends exactly like `find_leaf` and then erases in
the located leaf. -/
theorem removeHelperF_eq_find (k : Key) : ∀ (fuel : Nat) (n : NodeS) (A : Arena),
    removeHelperF k fuel n A =
      (match findLeafF k fuel n with
       | none => (false, A)
       | some id =>
         match A.get? id with
         | none => (false, A)
         | some l => ((removeValue l k).1, A.set id (removeValue l k).2)) := by
  intro fuel
  induction fuel with
  | zero => intro n A; rfl
  | succ f ih =>
    intro n A
    cases n with
    | leafRef id => rfl
    | internal mk2 ks cs =>
      rw [removeHelperF, findLeafF]
      cases hc : cs.get? (childIndex ks k) with
      | none => rfl
      | some child => exact ih child A

/-- Shrinking one leaf in place (same capacity, sorted subset of its keys)
preserves `Good`. -/
theorem Good_replace {mk : Nat} {A : Arena} {id : Nat} {l l2 : LeafData}
    (hget : A.get? id = some l)
    (hmax : l2.maxKeys = l.maxKeys)
    (hklen : l2.keys.length ≤ l.keys.length)
    (hvlen : l2.vals.length = l2.keys.length)
    (hsort : l2.keys.Sorted (· < ·))
    (hsub : ∀ x ∈ l2.keys, x ∈ l.keys) :
    ∀ (h : Nat) {lo hi : Option Key} {n : NodeS}, Good mk A h lo hi n →
      Good mk (A.set id l2) h lo hi n := by
  intro h
  induction h with
  | zero =>
    intro lo hi n hg
    obtain ⟨id2, l3, rfl, hget3, hm, hl, hv, hs, hb⟩ := hg
    by_cases hid : id2 = id
    · subst hid
      rw [hget] at hget3
      have hl3 : l3 = l := (Option.some.inj hget3).symm
      subst hl3
      have hget2 : (A.set id2 l2).get? id2 = some l2 := by
        rw [List.get?_set_eq]
        rw [hget]
        rfl
      exact ⟨id2, l2, rfl, hget2, by rw [hmax, hm], by omega, hvlen, hsort,
        fun x hx => hb x (hsub x hx)⟩
    · exact ⟨id2, l3, rfl,
        by rw [List.get?_set_ne _ _ (by omega)]; exact hget3,
        hm, hl, hv, hs, hb⟩
  | succ h ih =>
    intro lo hi n hg
    obtain ⟨ks, cs, rfl, hk1, hk2, hseq⟩ := hg
    exact ⟨ks, cs, rfl, hk1, hk2, Seq_mono (fun lo1 hi1 c hp => ih hp) hseq⟩

theorem entriesOfIds_cons_some {A : Arena} {i : Nat} {l : LeafData}
    (h : A.get? i = some l) (ids : List Nat) :
    entriesOfIds A (i :: ids) = l.keys.zip l.vals ++ entriesOfIds A ids := by
  rw [entriesOfIds_cons, h]

/-- Postcondition of `remove_helper` on a well-formed root: arena size and
structure unchanged, contents erased, the returned flag reports presence,
and each leaf keeps its `next` pointer. -/
theorem removeHelper_spec {mk : Nat} {A : Arena} {h : Nat} {n : NodeS}
    (hg : Good mk A h none none n) (k : Key)
    (hnd : (leafIdsN n).Nodup) {fuel : Nat} (hf : h < fuel) :
    (removeHelperF k fuel n A).2.length = A.length ∧
    Good mk (removeHelperF k fuel n A).2 h none none n ∧
    entriesN (removeHelperF k fuel n A).2 n = eraseAssoc k (entriesN A n) ∧
    (removeHelperF k fuel n A).1 = (lookupAssoc k (entriesN A n)).isSome ∧
    (∀ i l0, A.get? i = some l0 →
      ∃ l3, (removeHelperF k fuel n A).2.get? i = some l3 ∧
        l3.next = l0.next) := by
  obtain ⟨id, l, pre, post, hfind, hget, hsort, hlen, hids, hpre, hpost⟩ :=
    findLeafF_spec h hg k (by trivial) (by trivial) fuel hf
  have hidlt : id < A.length := (List.get?_eq_some.mp hget).1
  have hndm := hnd
  rw [hids, List.nodup_middle, List.nodup_cons] at hndm
  have hidnp : id ∉ pre := fun hm => hndm.1 (List.mem_append_left _ hm)
  have hidnq : id ∉ post := fun hm => hndm.1 (List.mem_append_right _ hm)
  have hEdec : entriesN A n =
      entriesOfIds A pre ++ (l.keys.zip l.vals ++ entriesOfIds A post) := by
    rw [entriesN_eq_entriesOfIds h hg, hids, entriesOfIds_append,
      entriesOfIds_cons_some hget]
  have hprene : ∀ p ∈ entriesOfIds A pre, p.1 ≠ k :=
    fun p hp => ne_of_lt (hpre p hp)
  have hpostnm : k ∉ (entriesOfIds A post).map Prod.fst := by
    intro hk2
    obtain ⟨p, hp, he⟩ := List.mem_map.mp hk2
    exact absurd (he ▸ hpost p hp) (lt_irrefl k)
  have hprenm : k ∉ (entriesOfIds A pre).map Prod.fst := by
    intro hk2
    obtain ⟨p, hp, he⟩ := List.mem_map.mp hk2
    exact absurd (he ▸ hpre p hp) (lt_irrefl k)
  rw [removeHelperF_eq_find, hfind]
  simp only []
  rw [hget]
  simp only []
  by_cases hm : k ∈ l.keys
  · obtain ⟨hr1, hr2, hr3, hr4, hr5, hr6, hr7⟩ := removeValue_mem hsort hlen hm
    have hsub : ∀ x ∈ (removeValue l k).2.keys, x ∈ l.keys := by
      intro x hx
      have h1 : (removeValue l k).2.keys =
          ((removeValue l k).2.keys.zip (removeValue l k).2.vals).map
            Prod.fst := by
        rw [List.map_fst_zip]
        omega
      rw [h1, hr7] at hx
      have h3 : x ∈ (l.keys.zip l.vals).map Prod.fst :=
        ((eraseAssoc_sublist k (l.keys.zip l.vals)).map Prod.fst).subset hx
      rw [List.map_fst_zip _ _ (by omega)] at h3
      exact h3
    have hgood2 := Good_replace hget hr2 (by omega) hr5 hr6 hsub h hg
    have hget2 : (A.set id (removeValue l k).2).get? id =
        some (removeValue l k).2 := by
      rw [List.get?_set_eq]
      rw [hget]
      rfl
    refine ⟨by simp, hgood2, ?_, ?_, ?_⟩
    · rw [entriesN_eq_entriesOfIds h hgood2, hids, entriesOfIds_append,
        entriesOfIds_cons_some hget2, entriesOfIds_frame hidnp,
        entriesOfIds_frame hidnq, hr7, hEdec,
        eraseAssoc_append_left hprene, eraseAssoc_append_right hpostnm]
    · rw [hEdec, lookup_append]
      rw [(lookup_eq_none_iff k _).mpr hprenm]
      rw [lookup_append]
      have hlzne : lookupAssoc k (l.keys.zip l.vals) ≠ none := by
        intro he
        rw [lookup_eq_none_iff, List.map_fst_zip _ _ (by omega)] at he
        exact he hm
      cases hc : lookupAssoc k (l.keys.zip l.vals) with
      | none => exact absurd hc hlzne
      | some v => rw [hr1]; rfl
    · intro i l0 hget0
      by_cases hi : i = id
      · subst hi
        rw [hget] at hget0
        have he : l = l0 := Option.some.inj hget0
        subst he
        exact ⟨(removeValue l k).2, hget2, hr3⟩
      · exact ⟨l0, by rw [List.get?_set_ne _ _ (by omega)]; exact hget0, rfl⟩
  · have hrv : removeValue l k = (false, l) := removeValue_not_mem hsort hm
    rw [hrv]
    have hsetid : A.set id l = A := by
      rw [set_decomp hidlt l]
      exact (get?_decomp hget).symm
    rw [hsetid]
    have hknot : k ∉ (entriesN A n).map Prod.fst := by
      intro hk2
      rw [hEdec] at hk2
      simp only [List.map_append, List.mem_append] at hk2
      rcases hk2 with h2 | h2 | h2
      · exact hprenm h2
      · rw [List.map_fst_zip _ _ (by omega)] at h2
        exact hm h2
      · exact hpostnm h2
    refine ⟨rfl, hg, (eraseAssoc_of_not_mem hknot).symm, ?_, ?_⟩
    · rw [(lookup_eq_none_iff k _).mpr hknot]
      rfl
    · intro i l0 hget0
      exact ⟨l0, hget0, rfl⟩

end BT

namespace BT

/-- `BPlusTree::remove` preserves the invariant and the root node object,
erases the key from the stored contents, reports presence, and never
changes the uniform height (there is no rebalancing, and the root-collapse
branch is unreachable because well-formed internal roots keep at least one
key). -/
theorem Tree_remove_spec {t : Tree} (hw : WFT t) (k : Key) :
    WFT (t.remove k).1 ∧
    treeEntries (t.remove k).1 = eraseAssoc k (treeEntries t) ∧
    (t.remove k).2 = (lookupAssoc k (treeEntries t)).isSome ∧
    (t.remove k).1.uniformHeight = t.uniformHeight ∧
    (t.remove k).1.root = t.root ∧
    (t.remove k).1.branching = t.branching := by
  cases hroot : t.root with
  | none =>
    have hrm : t.remove k = (t, false) := by rw [Tree.remove, hroot]
    have hE0 : treeEntries t = [] := by rw [treeEntries, hroot]
    rw [hrm]
    refine ⟨hw, ?_, ?_, rfl, hroot, rfl⟩
    · rw [hE0]
      rfl
    · rw [hE0]
      rfl
  | some r =>
    obtain ⟨h, hg⟩ := hw.root_good r hroot
    have hnd := hw.ids_nodup r hroot
    have hlink := hw.chain r hroot
    obtain ⟨hids, hEr, hH⟩ := WFT_obs hw hroot hg
    have hfuel : h < t.arena.length + 1 := Good_fuel hg hnd
    obtain ⟨rlen, rgood, rent, rbool, rnext⟩ := removeHelper_spec hg k hnd hfuel
    have hrm : t.remove k =
        ({ branching := t.branching, root := some r,
           arena := (removeHelperF k (t.arena.length + 1) r t.arena).2 },
         (removeHelperF k (t.arena.length + 1) r t.arena).1) := by
      cases r with
      | leafRef id =>
        rw [Tree.remove, hroot]
        simp only [removeHelper]
      | internal mkn ks cs =>
        have hks0 : ¬ ks.length = 0 := by
          cases h with
          | zero =>
            obtain ⟨id, l, heq, _⟩ := hg
            exact absurd heq (by simp)
          | succ h2 =>
            obtain ⟨ks2, cs2, heq, hk1, _, _⟩ := hg
            injection heq with e1 e2 e3
            subst e2
            omega
        rw [Tree.remove, hroot]
        simp only [removeHelper]
        rw [if_neg hks0]
    rw [hrm]
    have hfuel2 : h <
        (removeHelperF k (t.arena.length + 1) r t.arena).2.length + 1 := by
      rw [rlen]
      exact hfuel
    refine ⟨⟨hw.bf3, ?_, ?_, ?_⟩, ?_, ?_, ?_, rfl, rfl⟩
    · intro r2 hr2
      cases hr2
      exact ⟨h, rgood⟩
    · intro r2 hr2
      cases hr2
      exact hnd
    · intro r2 hr2
      cases hr2
      exact links_next_congr rnext hlink
    · rw [show treeEntries
          { branching := t.branching, root := some r,
            arena := (removeHelperF k (t.arena.length + 1) r t.arena).2 } =
          entriesF (removeHelperF k (t.arena.length + 1) r t.arena).2
            ((removeHelperF k (t.arena.length + 1) r t.arena).2.length + 1) r
          from rfl]
      rw [entriesF_eq h rgood _ hfuel2, rent, hEr]
    · rw [rbool, hEr]
    · rw [show Tree.uniformHeight
          { branching := t.branching, root := some r,
            arena := (removeHelperF k (t.arena.length + 1) r t.arena).2 } =
          uheightF
            ((removeHelperF k (t.arena.length + 1) r t.arena).2.length + 1) r
          from rfl]
      rw [uheightF_eq h rgood _ hfuel2, hH]

end BT

namespace BT

/-- `BPlusTree::search` computes exactly the association-list lookup on the
stored contents. -/
theorem Tree_search_spec {t : Tree} (hw : WFT t) (k : Key) :
    t.search k = lookupAssoc k (treeEntries t) := by
  cases hroot : t.root with
  | none =>
    have hE0 : treeEntries t = [] := by rw [treeEntries, hroot]
    have hs : t.search k = none := by
      rw [Tree.search, Tree.findLeaf, hroot]
    rw [hs, hE0]
    rfl
  | some r =>
    obtain ⟨h, hg⟩ := hw.root_good r hroot
    have hnd := hw.ids_nodup r hroot
    obtain ⟨hids, hEr, hH⟩ := WFT_obs hw hroot hg
    have hfuel : h < t.arena.length + 1 := Good_fuel hg hnd
    obtain ⟨id, l, pre, post, hfind, hget, hsort, hlen, hids2, hpre, hpost⟩ :=
      findLeafF_spec h hg k (by trivial) (by trivial) _ hfuel
    have hs : t.search k = findValue l k := by
      rw [Tree.search, Tree.findLeaf, hroot]
      simp only []
      rw [hfind]
      simp only []
      rw [hget]
    have hEdec : treeEntries t =
        entriesOfIds t.arena pre ++
          (l.keys.zip l.vals ++ entriesOfIds t.arena post) := by
      rw [hEr, entriesN_eq_entriesOfIds h hg, hids2, entriesOfIds_append,
        entriesOfIds_cons_some hget]
    have hprenm : k ∉ (entriesOfIds t.arena pre).map Prod.fst := by
      intro hk2
      obtain ⟨p, hp, he⟩ := List.mem_map.mp hk2
      exact absurd (he ▸ hpre p hp) (lt_irrefl k)
    have hpostnm : k ∉ (entriesOfIds t.arena post).map Prod.fst := by
      intro hk2
      obtain ⟨p, hp, he⟩ := List.mem_map.mp hk2
      exact absurd (he ▸ hpost p hp) (lt_irrefl k)
    rw [hs, hEdec, lookup_append, (lookup_eq_none_iff k _).mpr hprenm]
    simp only []
    rw [lookup_append, findValue_eq_lookup hsort hlen]
    cases hc : lookupAssoc k (l.keys.zip l.vals) with
    | none =>
      rw [(lookup_eq_none_iff k _).mpr hpostnm]
    | some v => rfl

end BT

namespace BT

/-- A freshly constructed tree satisfies the invariant. -/
theorem WFT_mkTree (bf : Nat) : WFT (mkTree bf) := by
  refine ⟨?_, ?_, ?_, ?_⟩
  · rw [show (mkTree bf).branching = if bf < 3 then 3 else bf from rfl]
    split <;> omega
  · intro r hr
    exact Option.noConfusion hr
  · intro r hr
    exact Option.noConfusion hr
  · intro r hr
    exact Option.noConfusion hr

/-- Running any operation sequence preserves the invariant and tracks the
abstract association-list semantics. -/
theorem applyOps_invariant : ∀ (os : List Op) {t : Tree}, WFT t →
    WFT (applyOps t os) ∧
    treeEntries (applyOps t os) = os.foldl applyAssoc (treeEntries t) := by
  intro os
  induction os with
  | nil =>
    intro t hw
    exact ⟨hw, rfl⟩
  | cons o rest ih =>
    intro t hw
    cases o with
    | ins k v =>
      obtain ⟨hw2, hent, _, _, _⟩ := Tree_insert_spec hw k v
      obtain ⟨h1, h2⟩ := ih hw2
      exact ⟨h1, h2.trans (by rw [hent, List.foldl_cons]; rfl)⟩
    | del k =>
      obtain ⟨hw2, hent, _, _, _, _⟩ := Tree_remove_spec hw k
      obtain ⟨h1, h2⟩ := ih hw2
      exact ⟨h1, h2.trans (by rw [hent, List.foldl_cons]; rfl)⟩

/-- Every reachable tree is well-formed and stores exactly the abstract
contents of its construction sequence. -/
theorem reachable_spec (bf : Nat) (os : List Op) :
    WFT (applyOps (mkTree bf) os) ∧
    treeEntries (applyOps (mkTree bf) os) = runAssoc os := by
  obtain ⟨h1, h2⟩ := applyOps_invariant os (WFT_mkTree bf)
  exact ⟨h1, h2⟩

end BT

namespace BT

/-- One leaf body of the `range_query` loop: collects exactly the in-range
pairs of the (sorted) leaf, and reports early exit iff some key exceeds
the upper bound. -/
theorem scanLeaf_spec : ∀ {keys : List Key} {vals : List Val},
    keys.Sorted (· < ·) → vals.length = keys.length →
    ∀ (a b : Key) (acc : List (Key × Val)),
    (scanLeaf keys vals a b acc).1 =
      acc ++ (keys.zip vals).filter
        (fun p => decide (a ≤ p.1) && decide (p.1 ≤ b)) ∧
    ((scanLeaf keys vals a b acc).2 = true ↔ ∃ x ∈ keys, b < x) := by
  intro keys
  induction keys with
  | nil =>
    intro vals _ _ a b acc
    constructor
    · rw [show scanLeaf [] vals a b acc = (acc, false) from rfl]
      simp
    · rw [show scanLeaf [] vals a b acc = (acc, false) from rfl]
      simp
  | cons k0 ks ih =>
    intro vals hs hlen a b acc
    cases vals with
    | nil => simp at hlen
    | cons v0 vs =>
      rw [List.sorted_cons] at hs
      have hlen2 : vs.length = ks.length := by simpa using hlen
      rw [show scanLeaf (k0 :: ks) (v0 :: vs) a b acc =
          (if a ≤ k0 ∧ k0 ≤ b then scanLeaf ks vs a b (acc ++ [(k0, v0)])
           else if b < k0 then (acc, true)
           else scanLeaf ks vs a b acc) from rfl]
      rw [List.zip_cons_cons]
      by_cases h1 : a ≤ k0 ∧ k0 ≤ b
      · rw [if_pos h1]
        obtain ⟨ih1, ih2⟩ := ih hs.2 hlen2 a b (acc ++ [(k0, v0)])
        constructor
        · rw [ih1]
          rw [show ((k0, v0) :: ks.zip vs).filter
              (fun p => decide (a ≤ p.1) && decide (p.1 ≤ b)) =
              (k0, v0) :: (ks.zip vs).filter
                (fun p => decide (a ≤ p.1) && decide (p.1 ≤ b)) from by
            rw [List.filter_cons_of_pos]
            simp only [Bool.and_eq_true, decide_eq_true_eq]
            exact h1]
          rw [List.append_assoc]
          rfl
        · rw [ih2]
          constructor
          · rintro ⟨x, hx, hbx⟩
            exact ⟨x, by simp [hx], hbx⟩
          · rintro ⟨x, hx, hbx⟩
            rcases List.mem_cons.mp hx with h3 | h3
            · subst h3
              exact absurd hbx (not_lt.mpr h1.2)
            · exact ⟨x, h3, hbx⟩
      · by_cases h2 : b < k0
        · rw [if_neg h1, if_pos h2]
          constructor
          · rw [show ((k0, v0) :: ks.zip vs).filter
                (fun p => decide (a ≤ p.1) && decide (p.1 ≤ b)) = [] from ?_]
            · simp
            · rw [List.filter_eq_nil]
              intro p hp
              have hpk : k0 ≤ p.1 := by
                rcases List.mem_cons.mp hp with h3 | h3
                · rw [h3]
                · exact le_of_lt (hs.1 p.1 (List.of_mem_zip h3).1)
              simp only [Bool.and_eq_true, decide_eq_true_eq, not_and]
              intro _ hpb
              exact absurd (lt_of_lt_of_le h2 hpk) (not_lt.mpr hpb)
          · simp only [true_iff]
            exact ⟨k0, by simp, h2⟩
        · rw [if_neg h1, if_neg h2]
          have hak0 : ¬ a ≤ k0 := fun ha => h1 ⟨ha, not_lt.mp h2⟩
          obtain ⟨ih1, ih2⟩ := ih hs.2 hlen2 a b acc
          constructor
          · rw [ih1]
            rw [show ((k0, v0) :: ks.zip vs).filter
                (fun p => decide (a ≤ p.1) && decide (p.1 ≤ b)) =
                (ks.zip vs).filter
                  (fun p => decide (a ≤ p.1) && decide (p.1 ≤ b)) from by
              rw [List.filter_cons_of_neg]
              simp only [Bool.and_eq_true, decide_eq_true_eq, not_and]
              intro ha
              exact absurd ha hak0]
          · rw [ih2]
            constructor
            · rintro ⟨x, hx, hbx⟩
              exact ⟨x, by simp [hx], hbx⟩
            · rintro ⟨x, hx, hbx⟩
              rcases List.mem_cons.mp hx with h3 | h3
              · subst h3
                exact absurd hbx h2
              · exact ⟨x, h3, hbx⟩

end BT

namespace BT

/-- The leaf-chain walk of `range_query` along a terminated chain of
well-formed leaves whose concatenated keys are sorted: it appends exactly
the in-range pairs (early exit included). -/
theorem walkChain_spec {A : Arena} (a b : Key) :
    ∀ {ids : List Nat}, Links A ids none →
    (∀ i ∈ ids, ∃ l, A.get? i = some l ∧ l.vals.length = l.keys.length ∧
      l.keys.Sorted (· < ·)) →
    ((entriesOfIds A ids).map Prod.fst).Sorted (· < ·) →
    ∀ {fuel : Nat}, ids.length < fuel → ∀ (acc : List (Key × Val)),
    walkChain A ids.head? a b acc fuel =
      acc ++ (entriesOfIds A ids).filter
        (fun p => decide (a ≤ p.1) && decide (p.1 ≤ b)) := by
  intro ids
  induction ids with
  | nil =>
    intro _ _ _ fuel hf acc
    cases fuel with
    | zero => omega
    | succ f =>
      rw [show ([] : List Nat).head? = none from rfl, walkChain]
      simp [entriesOfIds]
  | cons i rest ih =>
    intro hl hwf hsorted fuel hf acc
    cases fuel with
    | zero => simp at hf
    | succ f =>
      obtain ⟨l, hget, hlen, hsort⟩ := hwf i (by simp)
      have hnext : l.next = rest.head? := by
        cases rest with
        | nil =>
          obtain ⟨l2, hget2, hn2⟩ := hl
          rw [hget] at hget2
          cases Option.some.inj hget2
          exact hn2
        | cons j rest2 =>
          obtain ⟨⟨l2, hget2, hn2⟩, _⟩ := hl
          rw [hget] at hget2
          cases Option.some.inj hget2
          exact hn2
      have hrest : Links A rest none := by
        cases rest with
        | nil => trivial
        | cons j rest2 => exact hl.2
      have hEdec := entriesOfIds_cons_some hget rest
      rw [hEdec, List.map_append, List.Sorted, List.pairwise_append] at hsorted
      obtain ⟨hsl, hsr, hcross⟩ := hsorted
      rw [show (i :: rest).head? = some i from rfl, walkChain, hget]
      simp only []
      obtain ⟨hs1, hs2⟩ := scanLeaf_spec hsort hlen a b acc
      rw [hEdec, List.filter_append]
      by_cases hflag : (scanLeaf l.keys l.vals a b acc).2 = true
      · rw [if_pos hflag, hs1]
        obtain ⟨x, hx, hbx⟩ := hs2.mp hflag
        have hxm : x ∈ (l.keys.zip l.vals).map Prod.fst := by
          rw [List.map_fst_zip _ _ (by omega)]
          exact hx
        have hrestnil : (entriesOfIds A rest).filter
            (fun p => decide (a ≤ p.1) && decide (p.1 ≤ b)) = [] := by
          rw [List.filter_eq_nil]
          intro p hp
          have hpm : p.1 ∈ (entriesOfIds A rest).map Prod.fst :=
            List.mem_map.mpr ⟨p, hp, rfl⟩
          have hxp : x < p.1 := hcross x hxm p.1 hpm
          simp only [Bool.and_eq_true, decide_eq_true_eq, not_and]
          intro _ hpb
          exact absurd (lt_trans hbx hxp) (not_lt.mpr hpb)
        rw [hrestnil, List.append_nil]
      · rw [if_neg hflag, hnext, hs1]
        rw [ih hrest (fun i2 hi2 => hwf i2 (by simp [hi2])) hsr
          (by simp at hf ⊢; omega) _]
        rw [List.append_assoc]

end BT

namespace BT

/-- `BPlusTree::range_query` returns exactly the stored pairs with keys in
the inclusive interval, in order. -/
theorem Tree_rangeQuery_spec {t : Tree} (hw : WFT t) (a b : Key) :
    t.rangeQuery a b = (treeEntries t).filter
      (fun p => decide (a ≤ p.1) && decide (p.1 ≤ b)) := by
  cases hroot : t.root with
  | none =>
    have hE0 : treeEntries t = [] := by rw [treeEntries, hroot]
    rw [hE0, Tree.rangeQuery, hroot]
    rfl
  | some r =>
    obtain ⟨h, hg⟩ := hw.root_good r hroot
    have hnd := hw.ids_nodup r hroot
    have hlink := hw.chain r hroot
    obtain ⟨hids, hEr, hH⟩ := WFT_obs hw hroot hg
    have hfuel : h < t.arena.length + 1 := Good_fuel hg hnd
    obtain ⟨id, l, pre, post, hfind, hget, hsort, hlen, hids2, hpre, hpost⟩ :=
      findLeafF_spec h hg a (by trivial) (by trivial) _ hfuel
    have hq : t.rangeQuery a b =
        walkChain t.arena (some id) a b [] (t.arena.length + 1) := by
      rw [Tree.rangeQuery, hroot]
      simp only []
      rw [Tree.findLeaf, hroot]
      simp only []
      rw [hfind]
    have hlink2 : Links t.arena (id :: post) none := by
      rw [hids2] at hlink
      exact links_suffix hlink
    have hwf2 : ∀ i ∈ id :: post, ∃ l2, t.arena.get? i = some l2 ∧
        l2.vals.length = l2.keys.length ∧ l2.keys.Sorted (· < ·) := by
      intro i hi2
      refine Good_leaf_wf h hg i ?_
      rw [hids2]
      exact List.mem_append_right _ hi2
    have hEdec : entriesN t.arena r =
        entriesOfIds t.arena pre ++ entriesOfIds t.arena (id :: post) := by
      rw [entriesN_eq_entriesOfIds h hg, hids2, entriesOfIds_append]
    have hsorted0 : ((entriesN t.arena r).map Prod.fst).Sorted (· < ·) :=
      Good_entries_sorted h hg
    rw [hEdec, List.map_append, List.Sorted, List.pairwise_append] at hsorted0
    obtain ⟨hsl, hsr, hcross⟩ := hsorted0
    have hflen : (id :: post).length < t.arena.length + 1 := by
      have h1 : (leafIdsN r).length ≤ t.arena.length :=
        nodup_length_le hnd (Good_ids_lt h hg)
      rw [hids2, List.length_append] at h1
      simp only [List.length_cons] at h1 ⊢
      omega
    rw [hq,
      show (some id : Option Nat) = (id :: post).head? from rfl,
      walkChain_spec a b hlink2 hwf2 hsr hflen []]
    rw [List.nil_append, hEr, hEdec, List.filter_append]
    rw [show (entriesOfIds t.arena pre).filter
        (fun p => decide (a ≤ p.1) && decide (p.1 ≤ b)) = [] from by
      rw [List.filter_eq_nil]
      intro p hp
      simp only [Bool.and_eq_true, decide_eq_true_eq, not_and]
      intro hap
      exact absurd (lt_of_lt_of_le (hpre p hp) hap) (lt_irrefl p.1)]
    rw [List.nil_append]

end BT

namespace BT

theorem headD_mem {l : List Key} (h : l ≠ []) (d : Key) : l.headD d ∈ l := by
  cases l with
  | nil => exact absurd rfl h
  | cons a t => simp

/-- The stored keys of a well-formed tree are strictly increasing. -/
theorem WFT_keys_sorted {t : Tree} (hw : WFT t) :
    (treeKeys t).Sorted (· < ·) := by
  cases hroot : t.root with
  | none =>
    rw [treeKeys, show treeEntries t = [] from by rw [treeEntries, hroot]]
    exact List.sorted_nil
  | some r =>
    obtain ⟨h, hg⟩ := hw.root_good r hroot
    obtain ⟨_, hEr, _⟩ := WFT_obs hw hroot hg
    rw [treeKeys, hEr]
    exact Good_entries_sorted h hg

/-- C1: on any tree built by a sequence of inserts, `search` returns the
value of the last insert for the key (`none` when never inserted), and the
stored keys are duplicate-free, so an overwritten key keeps exactly one
entry (holding that last value). -/
theorem C1_insert_search_roundtrip (bf : Nat) (ops : List (Key × Val))
    (k : Key) :
    (applyOps (mkTree bf) (ops.map (fun p => Op.ins p.1 p.2))).search k =
      lastInserted ops k ∧
    (treeKeys (applyOps (mkTree bf)
      (ops.map (fun p => Op.ins p.1 p.2)))).Nodup ∧
    (∀ k2 : Key, (treeKeys (applyOps (mkTree bf)
      (ops.map (fun p => Op.ins p.1 p.2)))).count k2 ≤ 1) := by
  obtain ⟨hw, hent⟩ := reachable_spec bf (ops.map (fun p => Op.ins p.1 p.2))
  have hnd : (treeKeys (applyOps (mkTree bf)
      (ops.map (fun p => Op.ins p.1 p.2)))).Nodup :=
    sorted_lt_nodup (WFT_keys_sorted hw)
  refine ⟨?_, hnd, ?_⟩
  · rw [Tree_search_spec hw k, hent, lookup_runAssoc_ins]
  · exact List.nodup_iff_count_le_one.mp hnd

/-- C2: `range_query(a, b)` on any reachable tree filters the stored pairs
to the inclusive interval: the result keys are strictly increasing and lie
in `[a, b]`, the length counts exactly the stored keys in range, and the
result is empty when `a > b`. -/
theorem C2_rangeQuery_filter (bf : Nat) (os : List Op) (a b : Key) :
    (applyOps (mkTree bf) os).rangeQuery a b =
      (treeEntries (applyOps (mkTree bf) os)).filter
        (fun p => decide (a ≤ p.1) && decide (p.1 ≤ b)) ∧
    (((applyOps (mkTree bf) os).rangeQuery a b).map Prod.fst).Sorted
      (· < ·) ∧
    (∀ p ∈ (applyOps (mkTree bf) os).rangeQuery a b,
      a ≤ p.1 ∧ p.1 ≤ b) ∧
    ((applyOps (mkTree bf) os).rangeQuery a b).length =
      ((treeKeys (applyOps (mkTree bf) os)).filter
        (fun x => decide (a ≤ x) && decide (x ≤ b))).length ∧
    (b < a → (applyOps (mkTree bf) os).rangeQuery a b = []) := by
  obtain ⟨hw, _⟩ := reachable_spec bf os
  have hq := Tree_rangeQuery_spec hw a b
  refine ⟨hq, ?_, ?_, ?_, ?_⟩
  · rw [hq]
    exact (WFT_keys_sorted hw).sublist ((List.filter_sublist _).map Prod.fst)
  · intro p hp
    rw [hq] at hp
    have := List.of_mem_filter hp
    simpa using this
  · rw [hq, treeKeys, List.filter_map, List.length_map]
    rfl
  · intro hba
    rw [hq, List.filter_eq_nil]
    intro p _
    simp only [Bool.and_eq_true, decide_eq_true_eq, not_and]
    intro hap hpb
    exact absurd (lt_of_le_of_lt (le_trans hap hpb) hba) (lt_irrefl a)

/-- C3: `remove(k)` on any reachable tree returns `true` exactly when `k`
is present; afterwards `search(k)` is `none` while every other key keeps
its previous answer; on the freshly built (empty) tree it returns `false`
leaving the tree unchanged. -/
theorem C3_remove_correct (bf : Nat) (os : List Op) (k : Key) :
    (((applyOps (mkTree bf) os).remove k).2 = true ↔
      (applyOps (mkTree bf) os).search k ≠ none) ∧
    ((applyOps (mkTree bf) os).remove k).1.search k = none ∧
    (∀ k2 : Key, k2 ≠ k →
      ((applyOps (mkTree bf) os).remove k).1.search k2 =
        (applyOps (mkTree bf) os).search k2) ∧
    (mkTree bf).remove k = (mkTree bf, false) := by
  obtain ⟨hw, _⟩ := reachable_spec bf os
  obtain ⟨hw2, hent, hbool, _, _, _⟩ := Tree_remove_spec hw k
  have hks := WFT_keys_sorted hw
  rw [treeKeys] at hks
  refine ⟨?_, ?_, ?_, rfl⟩
  · rw [hbool, Tree_search_spec hw k]
    exact Option.isSome_iff_ne_none
  · rw [Tree_search_spec hw2 k, hent]
    exact lookup_erase_self hks
  · intro k2 hne
    rw [Tree_search_spec hw2 k2, Tree_search_spec hw k2, hent]
    exact lookup_erase_ne _ hne

/-- C8: every reachable tree has a uniform height (every root-to-leaf path
has the same length); an insert keeps the height or raises it by exactly
one (the root split), and a remove never changes it (the collapse branch
is unreachable). -/
theorem C8_uniform_height (bf : Nat) (os : List Op) :
    ((applyOps (mkTree bf) os).uniformHeight).isSome = true ∧
    (∀ (k : Key) (v : Val),
      ((applyOps (mkTree bf) os).insert k v).1.uniformHeight =
        (applyOps (mkTree bf) os).uniformHeight ∨
      ((applyOps (mkTree bf) os).insert k v).1.uniformHeight =
        Option.map (fun x => x + 1)
          ((applyOps (mkTree bf) os).uniformHeight)) ∧
    (∀ k : Key, ((applyOps (mkTree bf) os).remove k).1.uniformHeight =
      (applyOps (mkTree bf) os).uniformHeight) := by
  obtain ⟨hw, _⟩ := reachable_spec bf os
  refine ⟨?_, ?_, ?_⟩
  · cases hroot : (applyOps (mkTree bf) os).root with
    | none =>
      rw [Tree.uniformHeight, hroot]
      rfl
    | some r =>
      obtain ⟨h, hg⟩ := hw.root_good r hroot
      obtain ⟨_, _, hH⟩ := WFT_obs hw hroot hg
      rw [hH]
      rfl
  · intro k v
    obtain ⟨_, _, _, hh, _⟩ := Tree_insert_spec hw k v
    exact hh
  · intro k
    obtain ⟨_, _, _, hh, _, _⟩ := Tree_remove_spec hw k
    exact hh

/-- C9: in every reachable tree the `next` chain, starting from the first
in-order leaf, visits exactly the in-order leaves (so it is acyclic and
ends at `none`), and the concatenation of the leaf keys is strictly
increasing. -/
theorem C9_leaf_chain (bf : Nat) (os : List Op) :
    chainFrom (applyOps (mkTree bf) os).arena
      (treeLeafIds (applyOps (mkTree bf) os)).head?
      ((applyOps (mkTree bf) os).arena.length + 1) =
      some (treeLeafIds (applyOps (mkTree bf) os)) ∧
    (treeKeys (applyOps (mkTree bf) os)).Sorted (· < ·) ∧
    (treeLeafIds (applyOps (mkTree bf) os)).Nodup := by
  obtain ⟨hw, _⟩ := reachable_spec bf os
  refine ⟨?_, WFT_keys_sorted hw, ?_⟩
  · cases hroot : (applyOps (mkTree bf) os).root with
    | none =>
      rw [show treeLeafIds (applyOps (mkTree bf) os) = [] from by
        rw [treeLeafIds, hroot]]
      rfl
    | some r =>
      obtain ⟨h, hg⟩ := hw.root_good r hroot
      have hnd := hw.ids_nodup r hroot
      obtain ⟨hids, _, _⟩ := WFT_obs hw hroot hg
      rw [hids]
      refine chainFrom_of_links (hw.chain r hroot) ?_
      have := nodup_length_le hnd (Good_ids_lt h hg)
      omega
  · cases hroot : (applyOps (mkTree bf) os).root with
    | none =>
      rw [show treeLeafIds (applyOps (mkTree bf) os) = [] from by
        rw [treeLeafIds, hroot]]
      exact List.nodup_nil
    | some r =>
      obtain ⟨h, hg⟩ := hw.root_good r hroot
      obtain ⟨hids, _, _⟩ := WFT_obs hw hroot hg
      rw [hids]
      exact hw.ids_nodup r hroot

end BT

namespace BT

/-- C4 (amended): the leaf split cuts at `mid = (max_keys + 1) / 2`
(integer division, so the floor): the old leaf keeps indices `[0, mid)`,
the new right leaf receives the rest together with the old `next`, the old
leaf now points at the new one, and the key the overflowing insert
promotes is the right leaf's first key (after the pending pair lands),
which remains present in that right leaf. -/
theorem C4_leaf_split_amended {A : Arena} {id : Nat} {l : LeafData}
    (k : Key) (v : Val)
    (hget : A.get? id = some l)
    (hsort : l.keys.Sorted (· < ·))
    (hlen : l.vals.length = l.keys.length)
    (hfull : l.keys.length = l.maxKeys)
    (hmk : 2 ≤ l.maxKeys)
    (hnm : k ∉ l.keys) (fuel : Nat) :
    (leafSplit l A.length).1.keys = l.keys.take ((l.maxKeys + 1) / 2) ∧
    (leafSplit l A.length).1.vals = l.vals.take ((l.maxKeys + 1) / 2) ∧
    (leafSplit l A.length).2.keys = l.keys.drop ((l.maxKeys + 1) / 2) ∧
    (leafSplit l A.length).2.vals = l.vals.drop ((l.maxKeys + 1) / 2) ∧
    (leafSplit l A.length).2.next = l.next ∧
    (leafSplit l A.length).1.next = some A.length ∧
    (insertHelperF k v (fuel + 1) (NodeS.leafRef id) A).2.1 =
      some (NodeS.leafRef A.length) ∧
    (∃ lr, (insertHelperF k v (fuel + 1) (NodeS.leafRef id) A).2.2.2.get?
        A.length = some lr ∧
      (insertHelperF k v (fuel + 1) (NodeS.leafRef id) A).1 =
        lr.keys.headD 0 ∧ lr.keys.headD 0 ∈ lr.keys) := by
  have hm1 : 1 ≤ (l.maxKeys + 1) / 2 := by omega
  have hm2 : (l.maxKeys + 1) / 2 < l.maxKeys := by omega
  have hdklen : (l.keys.drop ((l.maxKeys + 1) / 2)).length =
      l.maxKeys - (l.maxKeys + 1) / 2 := by
    rw [List.length_drop, hfull]
  have hdvlen : (l.vals.drop ((l.maxKeys + 1) / 2)).length =
      l.maxKeys - (l.maxKeys + 1) / 2 := by
    rw [List.length_drop, hlen, hfull]
  have hdkne : l.keys.drop ((l.maxKeys + 1) / 2) ≠ [] := by
    intro hh
    rw [hh] at hdklen
    simp at hdklen
    omega
  have hdksorted : (l.keys.drop ((l.maxKeys + 1) / 2)).Sorted (· < ·) :=
    hsort.sublist (List.drop_sublist _ _)
  have hdknm : k ∉ l.keys.drop ((l.maxKeys + 1) / 2) :=
    fun hmm => hnm (List.mem_of_mem_drop hmm)
  have hfeq : insertValue l k v = (false, l) :=
    insertValue_full hsort hnm (by omega)
  rw [show insertHelperF k v (fuel + 1) (NodeS.leafRef id) A =
      (match A.get? id with
       | none => (k, none, NodeS.leafRef id, A)
       | some l =>
         let r := insertValue l k v
         if r.1 then (k, none, NodeS.leafRef id, A.set id r.2)
         else
           let newId := A.length
           let pr := leafSplit l newId
           let lastLeft := pr.1.keys.getLastD k
           if k ≤ lastLeft then
             let r2 := insertValue pr.1 k v
             ((pr.2.keys.headD 0), some (NodeS.leafRef newId),
               NodeS.leafRef id, (A.set id r2.2) ++ [pr.2])
           else
             let r2 := insertValue pr.2 k v
             ((r2.2.keys.headD 0), some (NodeS.leafRef newId),
               NodeS.leafRef id, (A.set id pr.1) ++ [r2.2])) from rfl]
  rw [hget]
  simp only []
  rw [hfeq]
  rw [if_neg (by simp : ¬ (((false, l) : Bool × LeafData).1 = true))]
  refine ⟨rfl, rfl, rfl, rfl, rfl, rfl, ?_⟩
  by_cases hkll : k ≤ (leafSplit l A.length).1.keys.getLastD k
  · rw [if_pos hkll]
    refine ⟨rfl, (leafSplit l A.length).2, ?_, rfl, ?_⟩
    · have h0 := List.get?_concat_length
        (A.set id (insertValue (leafSplit l A.length).1 k v).2)
        (leafSplit l A.length).2
      rw [show (A.set id (insertValue (leafSplit l A.length).1 k v).2).length =
          A.length from by simp] at h0
      exact h0
    · exact headD_mem hdkne 0
  · rw [if_neg hkll]
    obtain ⟨hc1, hc2, hc3, hc4, hc5, hc6, hc7⟩ :=
      insertValue_new (l := (leafSplit l A.length).2) (v := v)
        hdksorted
        (by rw [show ((leafSplit l A.length).2).vals =
            l.vals.drop ((l.maxKeys + 1) / 2) from rfl,
          show ((leafSplit l A.length).2).keys =
            l.keys.drop ((l.maxKeys + 1) / 2) from rfl, hdklen, hdvlen])
        hdknm
        (by rw [show ((leafSplit l A.length).2).keys =
            l.keys.drop ((l.maxKeys + 1) / 2) from rfl,
          show ((leafSplit l A.length).2).maxKeys = l.maxKeys from rfl,
          hdklen]; omega)
    have hr2ne : (insertValue (leafSplit l A.length).2 k v).2.keys ≠ [] := by
      intro hh
      rw [hh] at hc4
      simp at hc4
    refine ⟨rfl, (insertValue (leafSplit l A.length).2 k v).2, ?_, rfl, ?_⟩
    · have h0 := List.get?_concat_length
        (A.set id (leafSplit l A.length).1)
        (insertValue (leafSplit l A.length).2 k v).2
      rw [show (A.set id (leafSplit l A.length).1).length = A.length from
        by simp] at h0
      exact h0
    · exact headD_mem hr2ne 0

/-- C4, counterexample to the spec text: with `max_keys = 4` the spec's
`mid = ceil((max_keys + 1) / 2) = 3` predicts the left leaf keeps three
keys, but the code cuts at `(max_keys + 1) / 2 = 2`. -/
theorem C4_spec_mid_counterexample :
    (leafSplit { maxKeys := 4, keys := [1, 2, 3, 4], vals := [10, 20, 30, 40], next := none } 7).1.keys ≠
      [(1 : Key), 2, 3, 4].take ((4 + 1 + 1) / 2) := by decide

end BT

namespace BT

theorem C4_leaf_split_amended_witness :
    (leafSplit { maxKeys := 2, keys := [1, 2], vals := [10, 20], next := none } 1).1.keys = [(1 : Key)] ∧
    (leafSplit { maxKeys := 2, keys := [1, 2], vals := [10, 20], next := none } 1).1.vals = [(10 : Val)] ∧
    (leafSplit { maxKeys := 2, keys := [1, 2], vals := [10, 20], next := none } 1).2.keys = [(2 : Key)] ∧
    (leafSplit { maxKeys := 2, keys := [1, 2], vals := [10, 20], next := none } 1).2.vals = [(20 : Val)] ∧
    (leafSplit { maxKeys := 2, keys := [1, 2], vals := [10, 20], next := none } 1).2.next = none ∧
    (leafSplit { maxKeys := 2, keys := [1, 2], vals := [10, 20], next := none } 1).1.next = some 1 ∧
    (insertHelperF 3 30 1 (NodeS.leafRef 0)
      [{ maxKeys := 2, keys := [1, 2], vals := [10, 20], next := none }]).2.1 =
      some (NodeS.leafRef 1) ∧
    (∃ lr, (insertHelperF 3 30 1 (NodeS.leafRef 0)
        [{ maxKeys := 2, keys := [1, 2], vals := [10, 20], next := none }]).2.2.2.get? 1 =
        some lr ∧
      (insertHelperF 3 30 1 (NodeS.leafRef 0)
        [{ maxKeys := 2, keys := [1, 2], vals := [10, 20], next := none }]).1 =
        lr.keys.headD 0 ∧ lr.keys.headD 0 ∈ lr.keys) :=
  @C4_leaf_split_amended
    [{ maxKeys := 2, keys := [1, 2], vals := [10, 20], next := none }]
    0 { maxKeys := 2, keys := [1, 2], vals := [10, 20], next := none }
    3 30 rfl (by decide) (by decide) (by decide) (by decide)
    (by decide) 0

/-- C5 (amended): the inline internal split cuts the temporarily expanded
arrays at `mid = expanded_size / 2` (not `max_keys / 2`): the key at index
`mid` of the expanded key array is promoted and appears in neither
resulting node; the left node keeps expanded keys `[0, mid)` and children
`[0, mid]`, the right node the keys and children after index `mid`. -/
theorem C5_internal_split_amended (mk2 : Nat) (keys : List Key)
    (children : List NodeS) (ci : Nat) (pk : Key) (sib : NodeS)
    (hci : ci ≤ keys.length)
    (hnd : (keys.insertIdx ci pk).Nodup) :
    ∃ km, (keys.insertIdx ci pk).get?
        ((keys.insertIdx ci pk).length / 2) = some km ∧
      (internalOverflow mk2 keys children ci pk sib).1 = km ∧
      (internalOverflow mk2 keys children ci pk sib).2.1 =
        NodeS.internal mk2
          ((keys.insertIdx ci pk).take ((keys.insertIdx ci pk).length / 2))
          ((children.insertIdx (ci + 1) sib).take
            ((keys.insertIdx ci pk).length / 2 + 1)) ∧
      (internalOverflow mk2 keys children ci pk sib).2.2 =
        NodeS.internal mk2
          ((keys.insertIdx ci pk).drop
            ((keys.insertIdx ci pk).length / 2 + 1))
          ((children.insertIdx (ci + 1) sib).drop
            ((keys.insertIdx ci pk).length / 2 + 1)) ∧
      km ∉ (keys.insertIdx ci pk).take
        ((keys.insertIdx ci pk).length / 2) ∧
      km ∉ (keys.insertIdx ci pk).drop
        ((keys.insertIdx ci pk).length / 2 + 1) := by
  have hlen : (keys.insertIdx ci pk).length = keys.length + 1 :=
    List.length_insertIdx _ _ hci
  have hmid : (keys.insertIdx ci pk).length / 2 <
      (keys.insertIdx ci pk).length := by omega
  obtain ⟨km, hget⟩ : ∃ km, (keys.insertIdx ci pk).get?
      ((keys.insertIdx ci pk).length / 2) = some km := by
    cases hc : (keys.insertIdx ci pk).get?
        ((keys.insertIdx ci pk).length / 2) with
    | none =>
      rw [List.get?_eq_none] at hc
      omega
    | some km => exact ⟨km, rfl⟩
  have hdec := get?_decomp hget
  rw [hdec, List.nodup_middle, List.nodup_cons] at hnd
  refine ⟨km, hget, ?_, rfl, rfl, ?_, ?_⟩
  · rw [show (internalOverflow mk2 keys children ci pk sib).1 =
        ((keys.insertIdx ci pk).get?
          ((keys.insertIdx ci pk).length / 2)).getD 0 from rfl, hget]
    rfl
  · exact fun hm => hnd.1 (List.mem_append_left _ hm)
  · exact fun hm => hnd.1 (List.mem_append_right _ hm)

theorem C5_internal_split_amended_witness :
    ∃ km, ([3, 5, 7].insertIdx 3 (9 : Key)).get?
        (([3, 5, 7].insertIdx 3 (9 : Key)).length / 2) = some km ∧
      (internalOverflow 3 [3, 5, 7]
        [NodeS.leafRef 0, NodeS.leafRef 1, NodeS.leafRef 2, NodeS.leafRef 3]
        3 9 (NodeS.leafRef 4)).1 = km ∧
      (internalOverflow 3 [3, 5, 7]
        [NodeS.leafRef 0, NodeS.leafRef 1, NodeS.leafRef 2, NodeS.leafRef 3]
        3 9 (NodeS.leafRef 4)).2.1 =
        NodeS.internal 3
          (([3, 5, 7].insertIdx 3 (9 : Key)).take
            (([3, 5, 7].insertIdx 3 (9 : Key)).length / 2))
          (([NodeS.leafRef 0, NodeS.leafRef 1, NodeS.leafRef 2,
            NodeS.leafRef 3].insertIdx 4 (NodeS.leafRef 4)).take
            (([3, 5, 7].insertIdx 3 (9 : Key)).length / 2 + 1)) ∧
      (internalOverflow 3 [3, 5, 7]
        [NodeS.leafRef 0, NodeS.leafRef 1, NodeS.leafRef 2, NodeS.leafRef 3]
        3 9 (NodeS.leafRef 4)).2.2 =
        NodeS.internal 3
          (([3, 5, 7].insertIdx 3 (9 : Key)).drop
            (([3, 5, 7].insertIdx 3 (9 : Key)).length / 2 + 1))
          (([NodeS.leafRef 0, NodeS.leafRef 1, NodeS.leafRef 2,
            NodeS.leafRef 3].insertIdx 4 (NodeS.leafRef 4)).drop
            (([3, 5, 7].insertIdx 3 (9 : Key)).length / 2 + 1)) ∧
      km ∉ ([3, 5, 7].insertIdx 3 (9 : Key)).take
        (([3, 5, 7].insertIdx 3 (9 : Key)).length / 2) ∧
      km ∉ ([3, 5, 7].insertIdx 3 (9 : Key)).drop
        (([3, 5, 7].insertIdx 3 (9 : Key)).length / 2 + 1) :=
  C5_internal_split_amended 3 [3, 5, 7]
    [NodeS.leafRef 0, NodeS.leafRef 1, NodeS.leafRef 2, NodeS.leafRef 3]
    3 9 (NodeS.leafRef 4) (by decide) (by decide)

/-- C5, counterexample to the spec text: with `max_keys = 3` the spec's
`mid = max_keys / 2 = 1` predicts the promoted key is the expanded
array's second entry (5 here); the code promotes the entry at
`expanded_size / 2 = 2` (7 here). -/
theorem C5_spec_mid_counterexample :
    (internalOverflow 3 [3, 5, 7]
      [NodeS.leafRef 0, NodeS.leafRef 1, NodeS.leafRef 2, NodeS.leafRef 3]
      3 9 (NodeS.leafRef 4)).1 ≠
      (([3, 5, 7].insertIdx 3 (9 : Key)).get? (3 / 2)).getD 0 := by
  decide

/-- C6: the claimed error taxonomy fails — after deletions empty a leaf,
advancing a cursor from the public interface lands on that empty leaf:
the cursor is NOT terminal (its leaf reference is set) yet dereferencing
it raises the out-of-range error. -/
theorem C6_nonterminal_deref_fails :
    ((Iter.inc (Tree.rangeBegin (applyOps (mkTree 3)
        [Op.ins 1 10, Op.ins 2 20, Op.ins 3 30, Op.del 2, Op.del 3]) 1)
      (applyOps (mkTree 3)
        [Op.ins 1 10, Op.ins 2 20, Op.ins 3 30, Op.del 2,
          Op.del 3]).arena).leaf).isSome = true ∧
    Iter.deref (Iter.inc (Tree.rangeBegin (applyOps (mkTree 3)
        [Op.ins 1 10, Op.ins 2 20, Op.ins 3 30, Op.del 2, Op.del 3]) 1)
      (applyOps (mkTree 3)
        [Op.ins 1 10, Op.ins 2 20, Op.ins 3 30, Op.del 2, Op.del 3]).arena)
      (applyOps (mkTree 3)
        [Op.ins 1 10, Op.ins 2 20, Op.ins 3 30, Op.del 2, Op.del 3]).arena =
      Except.error "Iterator out of range" :=
  ⟨rfl, rfl⟩

/-- C7 (amended): cursor equality compares the leaf reference AND the
stored index, so two terminal cursors are equal only when their leftover
indices agree; a cursor cleared by the end-bound check keeps its index
and can differ from the canonical end cursor. -/
theorem C7_iterEq_iff (x y : Iter) :
    iterEq x y = true ↔ x.leaf = y.leaf ∧ x.idx = y.idx := by
  rw [iterEq, Bool.and_eq_true, beq_iff_eq, beq_iff_eq]

/-- C7, counterexample to the spec text: advancing a bounded cursor past
its end bound clears the leaf but keeps index 1, so this terminal cursor
is NOT equal to the canonical end cursor (index 0). -/
theorem C7_terminal_cursors_counterexample :
    (Iter.inc (Tree.rangeBeginB (applyOps (mkTree 3)
        [Op.ins 1 10, Op.ins 2 20]) 1 1)
      (applyOps (mkTree 3) [Op.ins 1 10, Op.ins 2 20]).arena).leaf = none ∧
    iterEq (Iter.inc (Tree.rangeBeginB (applyOps (mkTree 3)
        [Op.ins 1 10, Op.ins 2 20]) 1 1)
      (applyOps (mkTree 3) [Op.ins 1 10, Op.ins 2 20]).arena) iterEnd =
      false :=
  ⟨rfl, rfl⟩

/-- C10: the bounded cursor constructor performs no end-bound check at the
initial position — with start 3 > end 1 and stored key 5 ≥ start, the
returned cursor is non-terminal and dereferences to the pair (5, 50),
whose key exceeds the end bound. -/
theorem C10_bounded_begin_skips_end_check :
    ((Tree.rangeBeginB (applyOps (mkTree 4) [Op.ins 5 50]) 3 1).leaf).isSome =
      true ∧
    Iter.deref (Tree.rangeBeginB (applyOps (mkTree 4) [Op.ins 5 50]) 3 1)
      (applyOps (mkTree 4) [Op.ins 5 50]).arena = Except.ok (5, 50) ∧
    (1 : Key) < 3 ∧ (1 : Key) < 5 :=
  ⟨rfl, rfl, by decide, by decide⟩

end BT
